import Mathlib

/-!
# pplua: escaping, diversions and the block scanner

A shallow embedding of the `pplua` preprocessor (`lroff.cpp`, `output_buffer.hpp`,
`pplua.cpp`).  A `std::string` is a list of characters, a stream of input is
the list of its lines, and every mutable object is passed explicitly.
-/

namespace pplua

/-- A `std::string`. -/
abbrev Text := List Char

/-- The backslash character. -/
def backslash : Char := Char.ofNat 92

/-- The apostrophe character. -/
def apostrophe : Char := Char.ofNat 39

/-- The newline character. -/
def newline : Char := Char.ofNat 10

/-- The horizontal tab character. -/
def tab : Char := Char.ofNat 9

/-! ## `LroffLibrary::escape` -/

/-- One iteration of the `for (char c : text)` loop of `LroffLibrary::escape`:
the loop state is the output built so far and the `at_line_start` flag. -/
def LroffLibrary.escape_step (acc : Text × Bool) (c : Char) : Text × Bool :=
  if c = backslash then (acc.1 ++ [backslash, backslash], false)
  else if c = newline then (acc.1 ++ [newline], true)
  else if c = '.' then
    ((if acc.2 then acc.1 ++ [backslash, '&'] else acc.1) ++ ['.'], false)
  else if c = apostrophe then
    ((if acc.2 then acc.1 ++ [backslash, '&'] else acc.1) ++ [apostrophe], false)
  else (acc.1 ++ [c], false)

/-- The function `LroffLibrary::escape`: start with empty output at a line start,
run the loop, return the output. -/
def LroffLibrary.escape (text : Text) : Text :=
  (text.foldl LroffLibrary.escape_step ([], true)).1

/-- What the loop of `escape` appends for the remaining input `text` when the
flag is `at_line_start`; `escape_loop_eq` shows it is the loop. -/
def escapeFrom (at_line_start : Bool) : Text → Text
  | [] => []
  | c :: cs =>
    if c = backslash then backslash :: backslash :: escapeFrom false cs
    else if c = newline then newline :: escapeFrom true cs
    else if c = '.' then
      (if at_line_start then [backslash, '&'] else []) ++ '.' :: escapeFrom false cs
    else if c = apostrophe then
      (if at_line_start then [backslash, '&'] else []) ++ apostrophe :: escapeFrom false cs
    else c :: escapeFrom false cs

/-- A text has no period or apostrophe at a line start, where `at_start` tells
whether its first character is at a line start. -/
def lineClean (at_start : Bool) : Text → Bool
  | [] => true
  | c :: cs =>
    (!at_start || (c != '.' && c != apostrophe)) && lineClean (c == newline) cs

/-- The text with each backslash replaced by two backslashes and every other
character kept, as the specification words the doubling. -/
def doubleBackslashes : Text → Text
  | [] => []
  | c :: cs =>
    if c = backslash then backslash :: backslash :: doubleBackslashes cs
    else c :: doubleBackslashes cs

/-! ## `OutputBuffer` and `DivertManager` (`output_buffer.hpp`) -/

/-- The class `OutputBuffer`: the text accumulated in `buf_`. -/
structure OutputBuffer where
  /-- The contents of the `std::ostringstream buf_`. -/
  buf_ : Text

/-- `OutputBuffer::write`: append raw text. -/
def OutputBuffer.write (o : OutputBuffer) (text : Text) : OutputBuffer :=
  { buf_ := o.buf_ ++ text }

/-- `OutputBuffer::writeln`: append the text and one newline. -/
def OutputBuffer.writeln (o : OutputBuffer) (text : Text) : OutputBuffer :=
  { buf_ := o.buf_ ++ text ++ [newline] }

/-- `OutputBuffer::blank_line`: append a bare newline. -/
def OutputBuffer.blank_line (o : OutputBuffer) : OutputBuffer :=
  { buf_ := o.buf_ ++ [newline] }

/-- `OutputBuffer::contents`. -/
def OutputBuffer.contents (o : OutputBuffer) : Text := o.buf_

/-- `OutputBuffer::clear`. -/
def OutputBuffer.clear (_o : OutputBuffer) : OutputBuffer := { buf_ := [] }

/-- The map `std::map<std::string, std::ostringstream>`: a name has at most one
buffer, `none` when the map has no entry for it. -/
abbrev DivMap := Text → Option Text

/-- `divs_.try_emplace(name)`: an empty buffer is created when the name has none,
an existing one is kept. -/
def divs_try_emplace (m : DivMap) (name : Text) : DivMap :=
  fun n => if n = name then (match m name with
    | some b => some b
    | none => some []) else m n

/-- `divs_[name] << text`: `operator[]` creates the entry when it is absent, then
the text is appended to the stream. -/
def divs_append (m : DivMap) (name text : Text) : DivMap :=
  fun n => if n = name then some ((match m name with
    | some b => b
    | none => []) ++ text) else m n

/-- The class `DivertManager`.  `main_` is the referenced main `OutputBuffer`,
which is the very object the preprocessor owns as `output_`; it is kept here
as the single copy. -/
structure DivertManager where
  /-- The main output (`OutputBuffer& main_`). -/
  main_ : OutputBuffer
  /-- The active diversions; `stack_.back()` is the last element. -/
  stack_ : List Text
  /-- The named buffers. -/
  divs_ : DivMap

/-- `DivertManager::begin`. -/
def DivertManager.begin (d : DivertManager) (name : Text) : DivertManager :=
  { d with stack_ := d.stack_ ++ [name], divs_ := divs_try_emplace d.divs_ name }

/-- The message of the `std::runtime_error` thrown by `DivertManager::end`. -/
def no_active_diversion : Text := "divert_end: no active diversion".toList

/-- `DivertManager::end`: the first component is `error` with the message when
the exception is thrown, the second is the object afterwards. -/
def DivertManager.end_ (d : DivertManager) : Except Text Unit × DivertManager :=
  if d.stack_.isEmpty then (Except.error no_active_diversion, d)
  else (Except.ok (), { d with stack_ := d.stack_.dropLast })

/-- `DivertManager::write`. -/
def DivertManager.write (d : DivertManager) (text : Text) : DivertManager :=
  match d.stack_.getLast? with
  | none => { d with main_ := d.main_.write text }
  | some top => { d with divs_ := divs_append d.divs_ top text }

/-- `DivertManager::writeln`. -/
def DivertManager.writeln (d : DivertManager) (text : Text) : DivertManager :=
  match d.stack_.getLast? with
  | none => { d with main_ := d.main_.writeln text }
  | some top => { d with divs_ := divs_append d.divs_ top (text ++ [newline]) }

/-- `DivertManager::blank_line`. -/
def DivertManager.blank_line (d : DivertManager) : DivertManager :=
  match d.stack_.getLast? with
  | none => { d with main_ := d.main_.blank_line }
  | some top => { d with divs_ := divs_append d.divs_ top [newline] }

/-- `DivertManager::get`. -/
def DivertManager.get (d : DivertManager) (name : Text) : Text :=
  match d.divs_ name with
  | some b => b
  | none => []

/-- `DivertManager::exists`. -/
def DivertManager.exists_ (d : DivertManager) (name : Text) : Bool :=
  (d.divs_ name).isSome

/-- `DivertManager::clear`. -/
def DivertManager.clear (d : DivertManager) (name : Text) : DivertManager :=
  match d.divs_ name with
  | some _ => { d with divs_ := fun n => if n = name then some [] else d.divs_ n }
  | none => d

/-- `DivertManager::erase`. -/
def DivertManager.erase (d : DivertManager) (name : Text) : DivertManager :=
  { d with divs_ := fun n => if n = name then none else d.divs_ n }

/-- `DivertManager::is_diverting`. -/
def DivertManager.is_diverting (d : DivertManager) : Bool := !d.stack_.isEmpty

/-- `DivertManager::current_name`. -/
def DivertManager.current_name (d : DivertManager) : Text :=
  match d.stack_.getLast? with
  | none => []
  | some top => top

/-- A `DivertManager` right after construction over an empty main output. -/
def DivertManager.fresh : DivertManager :=
  { main_ := { buf_ := [] }, stack_ := [], divs_ := fun _ => none }

/-! ## `DocumentState` and `LroffLibrary` (`lroff.hpp`, `lroff.cpp`) -/

/-- The struct `DocumentState`. -/
structure DocumentState where
  /-- The map `number_registers`. -/
  number_registers : Text → Option Int
  /-- The map `string_registers`. -/
  string_registers : Text → Option Text
  /-- The member `font_family`. -/
  font_family : Text
  /-- The member `font_style`. -/
  font_style : Text
  /-- The member `point_size`. -/
  point_size : Int
  /-- The member `vert_spacing`. -/
  vert_spacing : Int
  /-- The member `unique_counter`. -/
  unique_counter : Nat

/-- The member initialisers of `DocumentState`. -/
def DocumentState.initial : DocumentState :=
  { number_registers := fun _ => none, string_registers := fun _ => none,
    font_family := ['T'], font_style := ['R'], point_size := 10, vert_spacing := 12,
    unique_counter := 0 }

/-- The class `LroffLibrary`; its `output_` is `diverts_.main_`. -/
structure LroffLibrary where
  /-- The member `diverts_`. -/
  diverts_ : DivertManager
  /-- The member `state_`. -/
  state_ : DocumentState

/-- `LroffLibrary::output()`. -/
def LroffLibrary.output (l : LroffLibrary) : OutputBuffer := l.diverts_.main_

/-- `LroffLibrary::divert_begin`. -/
def LroffLibrary.divert_begin (l : LroffLibrary) (name : Text) : LroffLibrary :=
  { l with diverts_ := l.diverts_.begin name }

/-- `LroffLibrary::divert_end`: the exception of `DivertManager::end` propagates. -/
def LroffLibrary.divert_end (l : LroffLibrary) : Except Text Unit × LroffLibrary :=
  (l.diverts_.end_.1, { l with diverts_ := l.diverts_.end_.2 })

/-- `LroffLibrary::emit`. -/
def LroffLibrary.emit (l : LroffLibrary) (text : Text) : LroffLibrary :=
  { l with diverts_ := l.diverts_.write text }

/-- `LroffLibrary::divert_get`. -/
def LroffLibrary.divert_get (l : LroffLibrary) (name : Text) : Text :=
  l.diverts_.get name

/-! ## String helpers of `pplua.cpp` -/

/-- `std::to_string` of a non-negative `int`: its decimal digits. -/
def to_string (n : Nat) : Text := Nat.toDigits 10 n

/-- `std::to_string` of an `int`. -/
def to_string_int (i : Int) : Text :=
  match i with
  | Int.ofNat n => Nat.toDigits 10 n
  | Int.negSucc n => '-' :: Nat.toDigits 10 (n + 1)

/-- `s.find(pat)`: the least index at which `pat` occurs in `s`, `none` for
`npos`. -/
def find (pat : Text) : Text → Option Nat
  | [] => if pat.isEmpty then some 0 else none
  | c :: cs =>
    if pat.isPrefixOf (c :: cs) then some 0 else (find pat cs).map (· + 1)

/-- `s.find_first_not_of(chars)`. -/
def find_first_not_of (chars : Text) : Text → Option Nat
  | [] => none
  | c :: cs =>
    if chars.contains c then (find_first_not_of chars cs).map (· + 1) else some 0

/-- The local `trimmed` of `process`: the line from its first character that is
neither space nor tab on; a line without such a character is left as it is
(`first == npos`). -/
def trimmed (line : Text) : Text :=
  match find_first_not_of [' ', tab] line with
  | some first => line.drop first
  | none => line

/-- The delimiter test of `process` on the trimmed line: equal to the marker, or
starting with the marker and a space, or with the marker and a tab
(`rfind(marker + " ", 0) == 0`). -/
def matches_marker (marker trimmed_line : Text) : Bool :=
  trimmed_line == marker || (marker ++ [' ']).isPrefixOf trimmed_line
    || (marker ++ [tab]).isPrefixOf trimmed_line

/-! ## The preprocessor (`pplua.hpp`, `pplua.cpp`) -/

/-- The struct `Config`. -/
structure Config where
  /-- The block-open marker. -/
  block_open : Text
  /-- The block-close marker. -/
  block_close : Text
  /-- The inline open delimiter. -/
  inline_open : Text
  /-- The inline close character. -/
  inline_close : Char
  /-- Whether `.lf` directives are emitted. -/
  emit_lf : Bool
  /-- The member `pass_so`. -/
  pass_so : Bool
  /-- The member `preamble_files`. -/
  preamble_files : List Text
  /-- The member `lua_paths`. -/
  lua_paths : List Text

/-- The default member initialisers of `Config`. -/
def Config.default : Config :=
  { block_open := ['.', 'l', 'u', 'a'],
    block_close := ['.', 'e', 'n', 'd', 'l', 'u', 'a'],
    inline_open := [backslash, 'l', 'u', 'a', apostrophe],
    inline_close := apostrophe,
    emit_lf := true, pass_so := true, preamble_files := [], lua_paths := [] }

/-- What the preprocessor distinguishes in the `sol::object` a chunk returns. -/
inductive LuaValue where
  /-- The object `is<std::string>()`. -/
  | str (s : Text)
  /-- The object `is<int>()`. -/
  | int (n : Int)
  /-- The object is a number that is not an `int`; `shown` is what
  `std::to_string` makes of the `double`. -/
  | dbl (shown : Text)
  /-- Anything else: nil, table, function. -/
  | other

/-- What a call of `lua_.safe_script` leaves: the Lua state, the library object
the script may have called into, and the error message or the returned
object. -/
structure ScriptResult (σ : Type) where
  /-- The Lua state after the call. -/
  lua : σ
  /-- The library object after the call. -/
  lroff : LroffLibrary
  /-- The error message (`!result.valid()`) or the returned object. -/
  outcome : Except Text LuaValue

/-- The script engine behind `lua_.safe_script(code, sol::script_pass_on_error,
chunk_name)`, external to the preprocessor: any function of the Lua state, the
library object, the code and the chunk name. -/
abbrev Evaluator (σ : Type) := σ → LroffLibrary → Text → Text → ScriptResult σ

/-- A chunk handed to the script engine. -/
structure Chunk where
  /-- The source text. -/
  code : Text
  /-- The chunk name. -/
  chunk_name : Text
deriving DecidableEq

/-- The class `Preprocessor`.  Its `output_` is `lroff_.diverts_.main_`.
`submitted` is a record, kept for the statements, of the chunks passed to
`safe_script`, oldest first; no operation reads it. -/
structure Preprocessor (σ : Type) where
  /-- The member `cfg_`. -/
  cfg_ : Config
  /-- The member `lua_`. -/
  lua_ : σ
  /-- The member `lroff_`. -/
  lroff_ : LroffLibrary
  /-- The member `current_file_`. -/
  current_file_ : Text
  /-- The member `current_line_`. -/
  current_line_ : Nat
  /-- The chunks submitted so far. -/
  submitted : List Chunk

/-- The member `output_`. -/
def Preprocessor.output_ {σ : Type} (pp : Preprocessor σ) : OutputBuffer :=
  pp.lroff_.diverts_.main_

/-- An update of the member `output_`. -/
def Preprocessor.set_output {σ : Type} (pp : Preprocessor σ) (o : OutputBuffer) :
    Preprocessor σ :=
  { pp with lroff_ := { pp.lroff_ with diverts_ := { pp.lroff_.diverts_ with main_ := o } } }

/-- A call `lua_.safe_script(code, sol::script_pass_on_error, chunk_name)`. -/
def Preprocessor.safe_script {σ : Type} (ev : Evaluator σ) (pp : Preprocessor σ)
    (code chunk_name : Text) : Preprocessor σ × Except Text LuaValue :=
  ({ pp with lua_ := (ev pp.lua_ pp.lroff_ code chunk_name).lua,
             lroff_ := (ev pp.lua_ pp.lroff_ code chunk_name).lroff,
             submitted := pp.submitted ++ [{ code := code, chunk_name := chunk_name }] },
    (ev pp.lua_ pp.lroff_ code chunk_name).outcome)

/-- The chunk name `exec_lua` builds: `"@" + source_name + ":" + line`. -/
def block_chunk_name (source_name : Text) (source_line : Nat) : Text :=
  ['@'] ++ source_name ++ [':'] ++ to_string source_line

/-- `Preprocessor::exec_lua`; the diagnostic on `std::cerr` is not modelled. -/
def Preprocessor.exec_lua {σ : Type} (ev : Evaluator σ) (pp : Preprocessor σ)
    (code source_name : Text) (source_line : Nat) : Preprocessor σ × Bool :=
  let r := pp.safe_script ev code (block_chunk_name source_name source_line)
  match r.2 with
  | Except.error _ => (r.1, false)
  | Except.ok (LuaValue.str s) => (r.1.set_output (r.1.output_.write s), true)
  | Except.ok (LuaValue.int n) =>
    (r.1.set_output (r.1.output_.write (to_string_int n)), true)
  | Except.ok (LuaValue.dbl shown) => (r.1.set_output (r.1.output_.write shown), true)
  | Except.ok LuaValue.other => (r.1, true)

/-- The `for` loop of `expand_inline` that looks for the close character, run on
the text from `expr_start` on: the offset of the first close character that
is not skipped as an escaped one, `none` when the loop ends with
`expr_end == npos`.  A backslash followed by a character skips both. -/
def find_close (close : Char) : Text → Option Nat
  | [] => none
  | [c] => if c = close then some 0 else none
  | c :: d :: rest =>
    if c = backslash then (find_close close rest).map (· + 2)
    else if c = close then some 0
    else (find_close close (d :: rest)).map (· + 1)

/-- The chunk `expand_inline` submits for an expression. -/
def inline_chunk (expr : Text) : Text :=
  "return tostring(".toList ++ expr ++ [')']

/-- The chunk name `expand_inline` builds. -/
def inline_chunk_name (file : Text) (line : Nat) : Text :=
  ['@'] ++ file ++ [':'] ++ to_string line ++ ":inline".toList

/-- The `while (pos < line.size())` loop of `expand_inline`.  `rest` is the line
from `pos` on and `result` the output so far; every iteration that continues
consumes at least the close character, so `fuel` larger than the length of
`rest` is never used up. -/
def expand_loop {σ : Type} (ev : Evaluator σ) (open_ : Text) (close : Char) :
    Nat → Preprocessor σ → Text → Text → Preprocessor σ × Text
  | 0, pp, result, _ => (pp, result)
  | fuel + 1, pp, result, rest =>
    if rest.isEmpty then (pp, result)
    else
      match find open_ rest with
      | none => (pp, result ++ rest)
      | some start =>
        match find_close close (rest.drop (start + open_.length)) with
        | none => (pp, result ++ rest.take start ++ rest.drop start)
        | some len =>
          let r := pp.safe_script ev
            (inline_chunk ((rest.drop (start + open_.length)).take len))
            (inline_chunk_name pp.current_file_ pp.current_line_)
          match r.2 with
          | Except.ok (LuaValue.str s) =>
            expand_loop ev open_ close fuel r.1 (result ++ rest.take start ++ s)
              ((rest.drop (start + open_.length)).drop (len + 1))
          | _ =>
            expand_loop ev open_ close fuel r.1 (result ++ rest.take start)
              ((rest.drop (start + open_.length)).drop (len + 1))

/-- `Preprocessor::expand_inline`. -/
def Preprocessor.expand_inline {σ : Type} (ev : Evaluator σ) (pp : Preprocessor σ)
    (line : Text) : Preprocessor σ × Text :=
  match find pp.cfg_.inline_open line with
  | none => (pp, line)
  | some _ => expand_loop ev pp.cfg_.inline_open pp.cfg_.inline_close (line.length + 1) pp [] line

/-- The line `emit_lf` writes. -/
def lf_line (line : Nat) (file : Text) : Text :=
  ['.', 'l', 'f', ' '] ++ to_string line ++ [' '] ++ file

/-- `Preprocessor::emit_lf`. -/
def Preprocessor.emit_lf {σ : Type} (pp : Preprocessor σ) (line : Nat) (file : Text) :
    Preprocessor σ :=
  if pp.cfg_.emit_lf then pp.set_output (pp.output_.writeln (lf_line line file)) else pp

/-- `Preprocessor::passthrough`. -/
def Preprocessor.passthrough {σ : Type} (pp : Preprocessor σ) (line : Text) :
    Preprocessor σ :=
  pp.set_output (pp.output_.writeln line)

/-- The object and the locals of `process` between two iterations of its
`while (std::getline(in, line))` loop. -/
structure ScanState (σ : Type) where
  /-- The preprocessor object. -/
  pp : Preprocessor σ
  /-- The local `in_lua_block`. -/
  in_lua_block : Bool
  /-- The local `lua_block_start`. -/
  lua_block_start : Nat
  /-- The contents of the local stream `lua_buf`. -/
  lua_buf : Text

/-- One iteration of the loop of `process` on the line just read. -/
def process_line {σ : Type} (ev : Evaluator σ) (filename : Text) (st : ScanState σ)
    (line : Text) : ScanState σ :=
  let pp : Preprocessor σ := { st.pp with current_line_ := st.pp.current_line_ + 1 }
  if st.in_lua_block then
    if matches_marker pp.cfg_.block_close (trimmed line) then
      let pp2 := (pp.exec_lua ev st.lua_buf filename st.lua_block_start).1
      { pp := pp2.emit_lf (pp2.current_line_ + 1) filename,
        in_lua_block := false, lua_block_start := st.lua_block_start, lua_buf := [] }
    else
      { pp := pp, in_lua_block := true, lua_block_start := st.lua_block_start,
        lua_buf := st.lua_buf ++ line ++ [newline] }
  else
    if matches_marker pp.cfg_.block_open (trimmed line) then
      if (trimmed line).length > pp.cfg_.block_open.length then
        match find pp.cfg_.block_close
            ((trimmed line).drop (pp.cfg_.block_open.length + 1)) with
        | some ec =>
          let pp2 := (pp.exec_lua ev
            (((trimmed line).drop (pp.cfg_.block_open.length + 1)).take ec)
            filename pp.current_line_).1
          { pp := pp2.emit_lf (pp2.current_line_ + 1) filename,
            in_lua_block := false, lua_block_start := pp.current_line_ + 1,
            lua_buf := st.lua_buf }
        | none =>
          { pp := pp, in_lua_block := true, lua_block_start := pp.current_line_ + 1,
            lua_buf := st.lua_buf
              ++ (trimmed line).drop (pp.cfg_.block_open.length + 1) ++ [newline] }
      else
        { pp := pp, in_lua_block := true, lua_block_start := pp.current_line_ + 1,
          lua_buf := st.lua_buf }
    else
      let r := pp.expand_inline ev line
      { pp := r.1.passthrough r.2, in_lua_block := false,
        lua_block_start := st.lua_block_start, lua_buf := st.lua_buf }

/-- A preprocessor object over the configuration `cfg` and the Lua state `lua`,
with empty output, no diversion and the initial document state. -/
def Preprocessor.init {σ : Type} (cfg : Config) (lua : σ) : Preprocessor σ :=
  { cfg_ := cfg, lua_ := lua,
    lroff_ := { diverts_ := DivertManager.fresh, state_ := DocumentState.initial },
    current_file_ := [], current_line_ := 0, submitted := [] }

/-- A script engine without state whose every chunk succeeds and returns
nothing; used to run the scanner on concrete inputs. -/
def silent_evaluator : Evaluator Unit :=
  fun lua lroff _ _ => { lua := lua, lroff := lroff, outcome := Except.ok LuaValue.other }

/-- The state in which `process` enters its loop. -/
def scan_start {σ : Type} (pp : Preprocessor σ) (filename : Text) : ScanState σ :=
  { pp := { pp with current_file_ := filename, current_line_ := 0 },
    in_lua_block := false, lua_block_start := 0, lua_buf := [] }

/-- The loop of `process` over the lines of the stream. -/
def scan {σ : Type} (ev : Evaluator σ) (filename : Text) (st : ScanState σ)
    (lines : List Text) : ScanState σ :=
  lines.foldl (process_line ev filename) st

/-- `Preprocessor::process` on the stream whose lines are `input`: the returned
`int` and the object afterwards. -/
def Preprocessor.process {σ : Type} (ev : Evaluator σ) (pp : Preprocessor σ)
    (input : List Text) (filename : Text) : Int × Preprocessor σ :=
  if (scan ev filename (scan_start pp filename) input).in_lua_block then
    (1, (scan ev filename (scan_start pp filename) input).pp)
  else (0, (scan ev filename (scan_start pp filename) input).pp)

/-- `Preprocessor::flush`: the text sent to `out` and the object afterwards. -/
def Preprocessor.flush {σ : Type} (pp : Preprocessor σ) : Text × Preprocessor σ :=
  (pp.output_.contents, pp.set_output pp.output_.clear)

/-- The rule of the specification for a delimiter line: the line with its
leading spaces and tabs removed equals the marker, or begins with the marker
immediately followed by a space or a tab. -/
def spec_matches (marker line : Text) : Prop :=
  line.dropWhile (fun c => c = ' ' ∨ c = tab) = marker ∨
    (∃ post, line.dropWhile (fun c => c = ' ' ∨ c = tab) = marker ++ ' ' :: post) ∨
    (∃ post, line.dropWhile (fun c => c = ' ' ∨ c = tab) = marker ++ tab :: post)

/-- The source of a block with interior lines `ls` as the specification words
it: every line followed by a newline, in order. -/
def block_source : List Text → Text
  | [] => []
  | l :: ls => l ++ [newline] ++ block_source ls

/-- The default configuration with the block-open marker replaced by a single
space. -/
def blank_open_config : Config :=
  { Config.default with block_open := [' '] }

/-- The close-character loop of `expand_inline` with its counter `depth` kept:
`depth` is decremented at every close character that is not skipped, and the
loop stops with `expr_end` set when it reaches zero.  `expand_inline` starts
it with `depth = 1`. -/
def find_close_depth (close : Char) : Int → Text → Option Nat
  | _, [] => none
  | depth, [c] =>
    if c = close then (if depth - 1 = 0 then some 0 else none) else none
  | depth, c :: d :: rest =>
    if c = backslash then (find_close_depth close depth rest).map (· + 2)
    else if c = close then
      (if depth - 1 = 0 then some 0
       else (find_close_depth close (depth - 1) (d :: rest)).map (· + 1))
    else (find_close_depth close depth (d :: rest)).map (· + 1)

/-- Every close character inside `e` is the second element of a pair, where a
backslash that has a successor forms a pair with it, scanning from the start
of `e`; a backslash that ends `e` is not a close character inside `e`. -/
def closes_escaped (close : Char) : Text → Bool
  | [] => true
  | [c] => c == backslash || c != close
  | c :: d :: rest =>
    if c = backslash then closes_escaped close rest
    else c != close && closes_escaped close (d :: rest)

/-- The pairing of `e` leaves a backslash at its end without partner inside
`e`, so that it pairs with the character that follows `e`. -/
def dangling : Text → Bool
  | [] => false
  | [c] => c == backslash
  | c :: d :: rest => if c = backslash then dangling rest else dangling (d :: rest)

/-- Whether the scanner is inside a block after a line, from whether it was
before: the transitions of `in_lua_block` in `process`, which depend on the
configuration and the line only. -/
def next_in_block (cfg : Config) (in_block : Bool) (line : Text) : Bool :=
  if in_block then !matches_marker cfg.block_close (trimmed line)
  else if matches_marker cfg.block_open (trimmed line) then
    (if (trimmed line).length > cfg.block_open.length then
      (find cfg.block_close ((trimmed line).drop (cfg.block_open.length + 1))).isNone
     else true)
  else false

/-- Whether the scanner is inside a block after the lines. -/
def in_block_after (cfg : Config) (in_block : Bool) (lines : List Text) : Bool :=
  lines.foldl (next_in_block cfg) in_block

/-- The input consists only of blocks: no line is read outside a block without
matching the block-open marker. -/
def only_blocks (cfg : Config) : Bool → List Text → Bool
  | _, [] => true
  | in_block, l :: ls =>
    (in_block || matches_marker cfg.block_open (trimmed l))
      && only_blocks cfg (next_in_block cfg in_block l) ls

/-- A script engine without state that leaves the library object alone and ends
every chunk with the same outcome. -/
def const_evaluator (outcome : Except Text LuaValue) : Evaluator Unit :=
  fun lua lroff _ _ => { lua := lua, lroff := lroff, outcome := outcome }

/-- A script engine without state whose every chunk calls `divert_begin(name)`
and ends with the given outcome. -/
def diverting_evaluator (name : Text) (outcome : Except Text LuaValue) :
    Evaluator Unit :=
  fun lua lroff _ _ =>
    { lua := lua, lroff := lroff.divert_begin name, outcome := outcome }

/-- A call of the `const` member `DivertManager::get` in state-passing form: the
returned text and the object afterwards. -/
def DivertManager.get_call (d : DivertManager) (name : Text) : Text × DivertManager :=
  (d.get name, d)

/-- `LroffLibrary::divert_emit`. -/
def LroffLibrary.divert_emit (l : LroffLibrary) (name : Text) : LroffLibrary :=
  { l with diverts_ := l.diverts_.write (l.diverts_.get name) }

/-- What `expand_inline` puts in place of a span whose evaluation ended with the
given outcome: the text when the result is a string, nothing otherwise. -/
def inline_subst (outcome : Except Text LuaValue) : Text :=
  match outcome with
  | Except.ok (LuaValue.str s) => s
  | _ => []

/-! ## The emitting functions of `LroffLibrary` (`lroff.cpp`) -/

/-- A call `diverts_.writeln(text)` inside `LroffLibrary`; `emitln` is this
call. -/
def LroffLibrary.emitln (l : LroffLibrary) (text : Text) : LroffLibrary :=
  { l with diverts_ := l.diverts_.writeln text }

/-- `LroffLibrary::request`. -/
def LroffLibrary.request (l : LroffLibrary) (req : Text) : LroffLibrary :=
  l.emitln (['.'] ++ req)

/-- `LroffLibrary::request_with`. -/
def LroffLibrary.request_with (l : LroffLibrary) (req args : Text) : LroffLibrary :=
  l.emitln (['.'] ++ req ++ [' '] ++ args)

/-- `LroffLibrary::divert_clear`. -/
def LroffLibrary.divert_clear (l : LroffLibrary) (name : Text) : LroffLibrary :=
  { l with diverts_ := l.diverts_.clear name }

/-- `LroffLibrary::inline_escape`. -/
def LroffLibrary.inline_escape (ec arg : Text) : Text :=
  if arg.length ≤ 1 ∧ ec.length = 1 then [backslash] ++ ec ++ arg
  else [backslash] ++ ec ++ ['['] ++ arg ++ [']']

/-- `LroffLibrary::nr_set`. -/
def LroffLibrary.nr_set (l : LroffLibrary) (n : Text) (v : Int) : LroffLibrary :=
  ({ l with state_ := { l.state_ with
      number_registers := fun k => if k = n then some v else l.state_.number_registers k } }
    : LroffLibrary).request_with ['n', 'r'] (n ++ [' '] ++ to_string_int v)

/-- `LroffLibrary::nr_incr`: `number_registers[n] += d` creates the register with
value 0 when it is absent.  The addition of the two `int`s is exact here;
the source has undefined behaviour when it overflows. -/
def LroffLibrary.nr_incr (l : LroffLibrary) (n : Text) (d : Int) : LroffLibrary :=
  ({ l with state_ := { l.state_ with
      number_registers := fun k =>
        if k = n then some ((match l.state_.number_registers n with
          | some v => v
          | none => 0) + d)
        else l.state_.number_registers k } }
    : LroffLibrary).request_with ['n', 'r']
      (n ++ [' '] ++ (if d ≥ 0 then ['+'] else []) ++ to_string_int d)

/-- `LroffLibrary::nr_get`: `none` stands for the Lua `nil`. -/
def LroffLibrary.nr_get (l : LroffLibrary) (n : Text) : Option Int :=
  l.state_.number_registers n

/-- `LroffLibrary::nr_ref`. -/
def LroffLibrary.nr_ref (n : Text) : Text :=
  if n.length ≤ 2 then
    (if n.length = 1 then [backslash, 'n'] ++ n else [backslash, 'n', '('] ++ n)
  else [backslash, 'n', '['] ++ n ++ [']']

/-- `LroffLibrary::ds_ref`. -/
def LroffLibrary.ds_ref (n : Text) : Text :=
  if n.length ≤ 2 then
    (if n.length = 1 then [backslash, '*'] ++ n else [backslash, '*', '('] ++ n)
  else [backslash, '*', '['] ++ n ++ [']']

/-- The loop `for (i = 0; i < cells.size(); ++i) { if (i) line += sep; line +=
cells[i]; }` of `table_emit`, entered at index `i` with `line` built so far
and the cells from `i` on. -/
def join_loop (sep : Char) : Nat → Text → List Text → Text
  | _, line, [] => line
  | i, line, c :: cs =>
    join_loop sep (i + 1) ((if i ≠ 0 then line ++ [sep] else line) ++ c) cs

/-- The loop of `table_emit` that builds `hfmt` and `dfmt`, one step for each
header cell. -/
def format_loop : Nat → Text × Text → List Text → Text × Text
  | _, acc, [] => acc
  | i, acc, _ :: hs =>
    format_loop (i + 1)
      ((if i ≠ 0 then acc.1 ++ [' '] else acc.1) ++ ['c', 'b'],
        (if i ≠ 0 then acc.2 ++ [' '] else acc.2) ++ ['l']) hs

/-- `LroffLibrary::table_emit`. -/
def LroffLibrary.table_emit (l : LroffLibrary) (hdr : List Text)
    (rows : List (List Text)) (fmt : Text) : LroffLibrary :=
  let l1 := l.emitln ['.', 'T', 'S']
  let l2 := if fmt.isEmpty then l1 else l1.emitln fmt
  let l3 := l2.emitln (format_loop 0 ([], []) hdr).1
  let l4 := l3.emitln ((format_loop 0 ([], []) hdr).2 ++ ['.'])
  let l5 := l4.emitln (join_loop tab 0 [] hdr)
  let l6 := l5.emitln ['_']
  let l7 := rows.foldl (fun acc row => acc.emitln (join_loop tab 0 [] row)) l6
  l7.emitln ['.', 'T', 'E']

/-- The directive line of `bullet_list`. -/
def bullet_directive : Text := ".IP ".toList ++ [backslash] ++ "(bu 2".toList

/-- `LroffLibrary::bullet_list`. -/
def LroffLibrary.bullet_list (l : LroffLibrary) (items : List Text) : LroffLibrary :=
  items.foldl (fun acc item => (acc.emitln bullet_directive).emitln item) l

/-- The loop of `numbered_list`, entered at index `i` with the items from `i`
on. -/
def numbered_loop : Nat → LroffLibrary → List Text → LroffLibrary
  | _, l, [] => l
  | i, l, item :: rest =>
    numbered_loop (i + 1)
      ((l.emitln (".IP ".toList ++ (to_string (i + 1) ++ ['.']) ++ " 4".toList)).emitln item)
      rest

/-- `LroffLibrary::numbered_list`. -/
def LroffLibrary.numbered_list (l : LroffLibrary) (items : List Text) : LroffLibrary :=
  numbered_loop 0 l items

/-- `LroffLibrary::def_list`. -/
def LroffLibrary.def_list (l : LroffLibrary) (items : List (Text × Text)) : LroffLibrary :=
  items.foldl (fun acc p =>
    ((acc.emitln ['.', 'T', 'P']).emitln
      ([backslash, 'f', 'B'] ++ p.1 ++ [backslash, 'f', 'P'])).emitln p.2) l

/-- `DocumentState::unique_name`: the returned name and the state afterwards.
The counter is an `int` in the source; the model counts without bound and
speaks for runs in which it does not overflow. -/
def DocumentState.unique_name (s : DocumentState) (pfx : Text) : Text × DocumentState :=
  (pfx ++ to_string (s.unique_counter + 1),
    { s with unique_counter := s.unique_counter + 1 })

/-- `LroffLibrary::unique`. -/
def LroffLibrary.unique (l : LroffLibrary) (pfx : Text) : Text × LroffLibrary :=
  ((l.state_.unique_name pfx).1, { l with state_ := (l.state_.unique_name pfx).2 })

/-- The names returned by successive calls of `unique_name` with the given
prefixes, and the state after them. -/
def unique_calls (s : DocumentState) : List Text → List Text × DocumentState
  | [] => ([], s)
  | p :: ps =>
    ((s.unique_name p).1 :: (unique_calls (s.unique_name p).2 ps).1,
      (unique_calls (s.unique_name p).2 ps).2)

/-- The calls `writeln(x)` for the lines `x` of a list, in order. -/
def write_lines (d : DivertManager) (ls : List Text) : DivertManager :=
  ls.foldl DivertManager.writeln d

/-- Texts joined by a separator character, as the specification words the
cells of a table line. -/
def joined (sep : Char) : List Text → Text
  | [] => []
  | [c] => c
  | c :: d :: rest => c ++ sep :: joined sep (d :: rest)

/-- The text of a table as the specification lists it. -/
def table_text (h : List Text) (r : List (List Text)) (f : Text) : Text :=
  ['.', 'T', 'S', newline] ++ (if f = [] then [] else f ++ [newline])
    ++ joined ' ' (List.replicate h.length ['c', 'b']) ++ [newline]
    ++ joined ' ' (List.replicate h.length ['l']) ++ ['.', newline]
    ++ joined tab h ++ [newline]
    ++ ['_', newline]
    ++ block_source (r.map (joined tab))
    ++ ['.', 'T', 'E', newline]

/-- The lines of a numbered list as the specification lists them, for the items
from index `i` on: the directive with the label `i + 1` and a period, then
the item text. -/
def numbered_lines : Nat → List Text → List Text
  | _, [] => []
  | i, item :: rest =>
    (".IP ".toList ++ to_string (i + 1) ++ ". 4".toList) :: item
      :: numbered_lines (i + 1) rest

/-- The value of a text of decimal digits. -/
def digits_value (cs : Text) : Nat :=
  cs.foldl (fun acc c => 10 * acc + (c.toNat - 48)) 0

/-- The lines `bullet_list` writes, as the specification lists them: for each
item the directive and the item text. -/
def bullet_lines : List Text → List Text
  | [] => []
  | item :: rest => bullet_directive :: item :: bullet_lines rest

/-- The lines `def_list` writes: for each pair the directive `.TP`, the term in
bold and the definition. -/
def def_lines : List (Text × Text) → List Text
  | [] => []
  | p :: rest =>
    ['.', 'T', 'P'] :: ([backslash, 'f', 'B'] ++ p.1 ++ [backslash, 'f', 'P']) :: p.2
      :: def_lines rest

/-- `LroffLibrary::macro_define`. -/
def LroffLibrary.macro_define (l : LroffLibrary) (name body : Text) : LroffLibrary :=
  let l1 := l.emitln (".de ".toList ++ name)
  let l2 := l1.emit body
  let l3 := if !body.isEmpty && body.getLast? != some newline then l2.emit [newline] else l2
  l3.emitln ['.', '.']

/-- The text `macro_define` writes, as the specification lists it. -/
def macro_text (name body : Text) : Text :=
  ".de ".toList ++ name ++ [newline] ++ body
    ++ (if body ≠ [] ∧ body.getLast? ≠ some newline then [newline] else [])
    ++ ['.', '.', newline]

/-- A decoder for escaped text: two backslashes stand for one, a backslash before
another character is the neutralizing sequence and is dropped with it, every
other character stands for itself. -/
def unescape : Text → Text
  | [] => []
  | [c] => [c]
  | c :: d :: rest =>
    if c = backslash then
      (if d = backslash then backslash :: unescape rest else unescape rest)
    else c :: unescape (d :: rest)

/-- The loop of `expand_inline` run for at most `fuel` iterations: `none` when
the iterations are used up before the loop has ended. -/
def expand_loop_checked {σ : Type} (ev : Evaluator σ) (open_ : Text) (close : Char) :
    Nat → Preprocessor σ → Text → Text → Option (Preprocessor σ × Text)
  | 0, _, _, _ => none
  | fuel + 1, pp, result, rest =>
    if rest.isEmpty then some (pp, result)
    else
      match find open_ rest with
      | none => some (pp, result ++ rest)
      | some start =>
        match find_close close (rest.drop (start + open_.length)) with
        | none => some (pp, result ++ rest.take start ++ rest.drop start)
        | some len =>
          expand_loop_checked ev open_ close fuel
            (pp.safe_script ev (inline_chunk ((rest.drop (start + open_.length)).take len))
              (inline_chunk_name pp.current_file_ pp.current_line_)).1
            (result ++ rest.take start ++
              inline_subst (pp.safe_script ev
                (inline_chunk ((rest.drop (start + open_.length)).take len))
                (inline_chunk_name pp.current_file_ pp.current_line_)).2)
            ((rest.drop (start + open_.length)).drop (len + 1))

/-- Every name on the diversion stack has a buffer.  It holds after construction
and is kept by every operation the library calls (`begin`, `end`, the
writes, `clear`); only `erase`, which the library never calls, can break
it. -/
def DivertManager.active_have_buffers (d : DivertManager) : Prop :=
  ∀ n ∈ d.stack_, d.divs_ n ≠ none

/-! ## The out-of-line `DivertManager` of `output_buffer.cpp` -/

/-- The `DivertManager` whose member functions `output_buffer.cpp` defines, with
the member names used there. -/
structure DivertManagerCpp where
  /-- The member `main_output_`. -/
  main_output_ : OutputBuffer
  /-- The member `diversion_stack_`; `back()` is the last element. -/
  diversion_stack_ : List Text
  /-- The member `diversions_`. -/
  diversions_ : DivMap

/-- The exceptions the out-of-line member functions throw. -/
inductive CppError where
  /-- The `std::runtime_error` of `end`. -/
  | runtime_error
  /-- The `std::logic_error` of `current_stream`. -/
  | logic_error
  /-- The `std::out_of_range` of `diversions_.at`. -/
  | out_of_range
deriving DecidableEq

/-- `DivertManager::begin` of `output_buffer.cpp`. -/
def DivertManagerCpp.begin (c : DivertManagerCpp) (name : Text) : DivertManagerCpp :=
  { c with
    diversion_stack_ := c.diversion_stack_ ++ [name],
    diversions_ := fun n =>
      if n = name then (match c.diversions_ name with
        | none => some []
        | some b => some b)
      else c.diversions_ n }

/-- `DivertManager::end` of `output_buffer.cpp`. -/
def DivertManagerCpp.end_ (c : DivertManagerCpp) : Except CppError Unit × DivertManagerCpp :=
  if c.diversion_stack_.isEmpty then (Except.error CppError.runtime_error, c)
  else (Except.ok (), { c with diversion_stack_ := c.diversion_stack_.dropLast })

/-- `DivertManager::get` of `output_buffer.cpp`. -/
def DivertManagerCpp.get (c : DivertManagerCpp) (name : Text) : Text :=
  match c.diversions_ name with
  | none => []
  | some b => b

/-- `DivertManager::exists` of `output_buffer.cpp`. -/
def DivertManagerCpp.exists_ (c : DivertManagerCpp) (name : Text) : Bool :=
  (c.diversions_ name).isSome

/-- `DivertManager::clear` of `output_buffer.cpp`. -/
def DivertManagerCpp.clear (c : DivertManagerCpp) (name : Text) : DivertManagerCpp :=
  match c.diversions_ name with
  | some _ => { c with diversions_ := fun n => if n = name then some [] else c.diversions_ n }
  | none => c

/-- `current_stream() << text` of `output_buffer.cpp`: `current_stream` throws
when no diversion is active, and `diversions_.at` throws when the name on
top has no buffer; otherwise the text is appended to that buffer. -/
def DivertManagerCpp.stream_append (c : DivertManagerCpp) (text : Text) :
    Except CppError Unit × DivertManagerCpp :=
  match c.diversion_stack_.getLast? with
  | none => (Except.error CppError.logic_error, c)
  | some top =>
    match c.diversions_ top with
    | none => (Except.error CppError.out_of_range, c)
    | some b =>
      (Except.ok (),
        { c with diversions_ := fun n => if n = top then some (b ++ text) else c.diversions_ n })

/-- `DivertManager::write` of `output_buffer.cpp`. -/
def DivertManagerCpp.write (c : DivertManagerCpp) (text : Text) :
    Except CppError Unit × DivertManagerCpp :=
  c.stream_append text

/-- `DivertManager::writeln` of `output_buffer.cpp`. -/
def DivertManagerCpp.writeln (c : DivertManagerCpp) (text : Text) :
    Except CppError Unit × DivertManagerCpp :=
  c.stream_append (text ++ [newline])

/-- `DivertManager::is_diverting` of `output_buffer.cpp`. -/
def DivertManagerCpp.is_diverting (c : DivertManagerCpp) : Bool :=
  !c.diversion_stack_.isEmpty

/-- `DivertManager::current_diversion_name` of `output_buffer.cpp`. -/
def DivertManagerCpp.current_diversion_name (c : DivertManagerCpp) : Text :=
  match c.diversion_stack_.getLast? with
  | none => []
  | some top => top

/-- The out-of-line object right after construction over an empty main output. -/
def DivertManagerCpp.fresh : DivertManagerCpp :=
  { main_output_ := { buf_ := [] }, diversion_stack_ := [], diversions_ := fun _ => none }

/-- An inline and an out-of-line object correspond when they hold the same main
output, the same stack and the same named buffers. -/
def corresponds (h : DivertManager) (c : DivertManagerCpp) : Prop :=
  c.main_output_ = h.main_ ∧ c.diversion_stack_ = h.stack_ ∧ c.diversions_ = h.divs_

/-- The diversion on top of the stack, when there is one, has a buffer: the one
condition under which a `write` of the empty text changes nothing. -/
def DivertManager.top_has_buffer (d : DivertManager) : Prop :=
  ∀ top : Text, d.stack_.getLast? = some top → d.divs_ top ≠ none

/-- The states the `DivertManager` of an `LroffLibrary` can be in: the object
after construction over a main output, and what the member functions the
library calls (`begin`, `end`, `write`, `writeln`, `blank_line`, `clear`)
make of such a state; the main output is also written by the preprocessor
directly.  `erase` has no caller. -/
inductive DivertManager.library_state : DivertManager → Prop where
  /-- The object after construction over the main output `o`. -/
  | init (o : OutputBuffer) :
    DivertManager.library_state { main_ := o, stack_ := [], divs_ := fun _ => none }
  /-- The main output changed from outside. -/
  | main (d : DivertManager) (o : OutputBuffer) :
    DivertManager.library_state d → DivertManager.library_state { d with main_ := o }
  /-- After `begin(name)`. -/
  | begin (d : DivertManager) (name : Text) :
    DivertManager.library_state d → DivertManager.library_state (d.begin name)
  /-- After `end()`, thrown or not. -/
  | end_ (d : DivertManager) :
    DivertManager.library_state d → DivertManager.library_state d.end_.2
  /-- After `write(text)`. -/
  | write (d : DivertManager) (text : Text) :
    DivertManager.library_state d → DivertManager.library_state (d.write text)
  /-- After `writeln(text)`. -/
  | writeln (d : DivertManager) (text : Text) :
    DivertManager.library_state d → DivertManager.library_state (d.writeln text)
  /-- After `blank_line()`. -/
  | blank_line (d : DivertManager) :
    DivertManager.library_state d → DivertManager.library_state d.blank_line
  /-- After `clear(name)`. -/
  | clear (d : DivertManager) (name : Text) :
    DivertManager.library_state d → DivertManager.library_state (d.clear name)

/-! ## Theorems about `escape` -/

theorem escape_loop_eq (text out : Text) (b : Bool) :
    (text.foldl LroffLibrary.escape_step (out, b)).1 = out ++ escapeFrom b text := by
  induction text generalizing out b with
  | nil => simp [escapeFrom]
  | cons c cs ih =>
    simp only [List.foldl_cons, LroffLibrary.escape_step, escapeFrom]
    split_ifs <;> simp [ih]

theorem escape_eq_escapeFrom (text : Text) :
    LroffLibrary.escape text = escapeFrom true text := by
  simp [LroffLibrary.escape, escape_loop_eq]

theorem beq_newline_false (c : Char) (h : ¬ c = newline) : (c == newline) = false := by
  simpa using h

theorem lineClean_escapeFrom (b : Bool) (text : Text) :
    lineClean b (escapeFrom b text) = true := by
  induction text generalizing b with
  | nil => simp [escapeFrom, lineClean]
  | cons c cs ih =>
    have hbn : (backslash == newline) = false := by decide
    have hdn : (('.' : Char) == newline) = false := by decide
    have han : (apostrophe == newline) = false := by decide
    have hmn : (('&' : Char) == newline) = false := by decide
    have hbd : (backslash != '.' && backslash != apostrophe) = true := by decide
    have hnd : (newline != '.' && newline != apostrophe) = true := by decide
    simp only [escapeFrom]
    split_ifs with h1 h2 h3 h4 h5 h6
    · simp [lineClean, ih false, hbn, hbd]
    · simp [lineClean, ih true, hnd]
    · simp [lineClean, ih false, hbn, hbd, hdn, hmn]
    · have hb : b = false := by simpa using h4
      subst hb
      simp [lineClean, ih false, hdn]
    · simp [lineClean, ih false, hbn, hbd, han, hmn]
    · have hb : b = false := by simpa using h6
      subst hb
      simp [lineClean, ih false, han]
    · simp [lineClean, ih false, beq_newline_false c h2, h3, h5]

/-- A clean text has no period or apostrophe right after a newline, nor as its
first character when that one is at a line start. -/
theorem lineClean_split (b : Bool) (pre post : Text) (c : Char)
    (h : lineClean b (pre ++ c :: post) = true)
    (hs : (pre = [] ∧ b = true) ∨ pre.getLast? = some newline) :
    c ≠ '.' ∧ c ≠ apostrophe := by
  induction pre generalizing b with
  | nil =>
    rcases hs with ⟨_, hb⟩ | hs
    · subst hb
      have h1 : (c != '.' && c != apostrophe) = true ∧
          lineClean (c == newline) post = true := by
        simpa only [List.nil_append, lineClean, Bool.not_true, Bool.false_or,
          Bool.and_eq_true] using h
      simpa using h1.1
    · simp at hs
  | cons p ps ih =>
    simp only [List.cons_append, lineClean, Bool.and_eq_true] at h
    apply ih (p == newline) h.2
    rcases hs with ⟨hp, _⟩ | hs
    · simp at hp
    · cases ps with
      | nil =>
        left
        simp at hs
        simp [hs]
      | cons q qs =>
        right
        simpa [List.getLast?_cons_cons] using hs

/-- The converse of `lineClean_split`. -/
theorem lineClean_of_split (b : Bool) (text : Text)
    (h : ∀ (pre post : Text) (c : Char), text = pre ++ c :: post →
      ((pre = [] ∧ b = true) ∨ pre.getLast? = some newline) → c ≠ '.' ∧ c ≠ apostrophe) :
    lineClean b text = true := by
  induction text generalizing b with
  | nil => simp [lineClean]
  | cons c cs ih =>
    simp only [lineClean, Bool.and_eq_true]
    constructor
    · cases b with
      | false => simp
      | true =>
        have := h [] cs c rfl (Or.inl ⟨rfl, rfl⟩)
        simpa using this
    · apply ih
      intro pre post d hd hs
      apply h (c :: pre) post d (by simp [hd])
      right
      rcases hs with ⟨hp, hc⟩ | hs
      · subst hp
        simpa using hc
      · cases pre with
        | nil => simp at hs
        | cons q qs => simpa [List.getLast?_cons_cons] using hs

theorem escapeFrom_of_clean (b : Bool) (text : Text)
    (hb : backslash ∉ text) (hc : lineClean b text = true) :
    escapeFrom b text = text := by
  induction text generalizing b with
  | nil => simp [escapeFrom]
  | cons c cs ih =>
    simp only [List.mem_cons, not_or] at hb
    simp only [lineClean, Bool.and_eq_true] at hc
    have hne : ¬ c = backslash := fun h => hb.1 h.symm
    simp only [escapeFrom, hne, if_false]
    by_cases hn : c = newline
    · subst hn
      have := ih true hb.2 (by simpa using hc.2)
      simp [this]
    · have hc2 := hc.2
      rw [beq_newline_false c hn] at hc2
      have hcs := ih false hb.2 hc2
      simp only [hn, if_false, hcs]
      cases b with
      | false =>
        by_cases h1 : c = '.'
        · simp [h1]
        · by_cases h2 : c = apostrophe
          · subst h2
            simp [h1]
          · simp [h1, h2]
      | true =>
        have h1 := hc.1
        simp at h1
        simp [h1.1, h1.2]

theorem escapeFrom_no_control (b : Bool) (text : Text)
    (hp : '.' ∉ text) (ha : apostrophe ∉ text) :
    escapeFrom b text = doubleBackslashes text := by
  induction text generalizing b with
  | nil => simp [escapeFrom, doubleBackslashes]
  | cons c cs ih =>
    simp only [List.mem_cons, not_or] at hp ha
    have h1 : ¬ c = '.' := fun h => hp.1 h.symm
    have h2 : ¬ c = apostrophe := fun h => ha.1 h.symm
    simp only [escapeFrom, doubleBackslashes, h1, h2, if_false, ih _ hp.2 ha.2]
    split_ifs with h3 h4
    · rfl
    · subst h4
      simp [doubleBackslashes]
    · rfl

/-- C1: no line of `escape t` begins with a period or an apostrophe: the first
character of `escape t`, and every character of it that immediately follows a
newline, is neither `.` nor the apostrophe. -/
theorem escape_no_control_at_line_start (t pre post : Text) (c : Char)
    (h : LroffLibrary.escape t = pre ++ c :: post)
    (hs : pre = [] ∨ pre.getLast? = some newline) :
    c ≠ '.' ∧ c ≠ apostrophe := by
  have hc := lineClean_escapeFrom true t
  rw [← escape_eq_escapeFrom, h] at hc
  refine lineClean_split true pre post c hc ?_
  rcases hs with hs | hs
  · exact Or.inl ⟨hs, rfl⟩
  · exact Or.inr hs

theorem escape_no_control_at_line_start_witness :
    LroffLibrary.escape ['a', newline, '.', 'b'] =
        ['a', newline] ++ backslash :: ['&', '.', 'b'] ∧
      (backslash ≠ '.' ∧ backslash ≠ apostrophe) :=
  ⟨by decide, escape_no_control_at_line_start ['a', newline, '.', 'b'] ['a', newline]
    ['&', '.', 'b'] backslash (by decide) (Or.inr (by decide))⟩

/-- C2: a text without backslash in which no period or apostrophe stands at a
line start (first character, or right after a newline) is left unchanged by
`escape`. -/
theorem escape_identity (t : Text) (hb : backslash ∉ t)
    (hs : ∀ (pre post : Text) (c : Char), t = pre ++ c :: post →
      (pre = [] ∨ pre.getLast? = some newline) → c ≠ '.' ∧ c ≠ apostrophe) :
    LroffLibrary.escape t = t := by
  rw [escape_eq_escapeFrom]
  apply escapeFrom_of_clean true t hb
  apply lineClean_of_split
  intro pre post c hc h
  apply hs pre post c hc
  rcases h with ⟨h, _⟩ | h
  · exact Or.inl h
  · exact Or.inr h

theorem escape_identity_witness :
    LroffLibrary.escape ['a', '.', 'b', newline, 'c', apostrophe] =
      ['a', '.', 'b', newline, 'c', apostrophe] :=
  escape_identity ['a', '.', 'b', newline, 'c', apostrophe] (by decide)
    (fun pre post c hc h =>
      lineClean_split true pre post c (hc ▸ (by decide))
        (h.elim (fun h1 => Or.inl ⟨h1, rfl⟩) Or.inr))

/-- C3 as stated fails: `escape "a.b"` is `"a.b"` itself, and the neutralizing
sequence `\&` stands nowhere before the period. -/
theorem escape_a_dot_b_not_neutralized :
    ¬ ∃ pre post : Text,
      LroffLibrary.escape ['a', '.', 'b'] = pre ++ [backslash, '&', '.'] ++ post := by
  rintro ⟨pre, post, h⟩
  have hlen := congrArg List.length h
  have h3 : LroffLibrary.escape ['a', '.', 'b'] = ['a', '.', 'b'] := by decide
  rw [h3] at hlen h
  simp at hlen
  have hp : pre = [] := by
    cases pre with
    | nil => rfl
    | cons p ps => simp at hlen; omega
  have hq : post = [] := by
    cases post with
    | nil => rfl
    | cons p ps => simp at hlen; omega
  subst hp hq
  revert h
  decide

/-- C3 (amended): the period of `"a.b"` is not at a line start and `escape`
returns `"a.b"` unchanged; a period that is at a line start is neutralized:
for every text `t`, `escape ("." ++ t)` is `\&.` followed by the escape of `t`
continued inside the line, so `escape ".b"` is `\&.b`. -/
theorem escape_period_line_start (t : Text) :
    LroffLibrary.escape ['a', '.', 'b'] = ['a', '.', 'b'] ∧
      LroffLibrary.escape ('.' :: t) = [backslash, '&', '.'] ++ escapeFrom false t ∧
      LroffLibrary.escape ['.', 'b'] = [backslash, '&', '.', 'b'] := by
  refine ⟨by decide, ?_, by decide⟩
  rw [escape_eq_escapeFrom]
  simp [escapeFrom, backslash, newline]

/-- C4: `escape` doubles every backslash: the text made of one backslash
becomes two backslashes, and a text without period and apostrophe becomes
itself with each backslash doubled and every other character, newlines
included, unchanged. -/
theorem escape_doubles_backslash (t : Text) (hp : '.' ∉ t) (ha : apostrophe ∉ t) :
    LroffLibrary.escape [backslash] = [backslash, backslash] ∧
      LroffLibrary.escape t = doubleBackslashes t := by
  refine ⟨by decide, ?_⟩
  rw [escape_eq_escapeFrom]
  exact escapeFrom_no_control true t hp ha

theorem escape_doubles_backslash_witness :
    LroffLibrary.escape [backslash] = [backslash, backslash] ∧
      LroffLibrary.escape ['a', backslash, newline, backslash, 'b'] =
        doubleBackslashes ['a', backslash, newline, backslash, 'b'] :=
  escape_doubles_backslash ['a', backslash, newline, backslash, 'b']
    (by decide) (by decide)

/-! ## Theorems about `DivertManager` -/

theorem write_on_top (d : DivertManager) (deeper : List Text) (top t : Text)
    (h : d.stack_ = deeper ++ [top]) :
    d.write t = { d with divs_ := divs_append d.divs_ top t } := by
  simp [DivertManager.write, h]

theorem end_on_top (d : DivertManager) (deeper : List Text) (top : Text)
    (h : d.stack_ = deeper ++ [top]) :
    d.end_ = (Except.ok (), { d with stack_ := deeper }) := by
  simp [DivertManager.end_, h]

/-- C5: from an empty stack and no buffer named `x`, the sequence
`begin(x); write(a); begin(x); write(b); end(); write(c); end()` succeeds at
both `end()` calls and leaves `get(x) = a ++ b ++ c`, the stack empty and the
main output unchanged. -/
theorem divert_reopen_appends (d : DivertManager) (x a b c : Text)
    (hstack : d.stack_ = []) (hx : d.divs_ x = none) :
    ((((d.begin x).write a).begin x).write b).end_.1 = Except.ok () ∧
      ((((((d.begin x).write a).begin x).write b).end_.2).write c).end_.1 = Except.ok () ∧
      (((((((d.begin x).write a).begin x).write b).end_.2).write c).end_.2).get x
        = a ++ b ++ c ∧
      (((((((d.begin x).write a).begin x).write b).end_.2).write c).end_.2).stack_ = [] ∧
      (((((((d.begin x).write a).begin x).write b).end_.2).write c).end_.2).main_
        = d.main_ := by
  have e1 : (d.begin x).stack_ = [] ++ [x] := by simp [DivertManager.begin, hstack]
  rw [write_on_top (d.begin x) [] x a e1]
  have e2 : (({ d.begin x with divs_ := divs_append (d.begin x).divs_ x a } :
      DivertManager).begin x).stack_ = [x] ++ [x] := by
    simp [DivertManager.begin, hstack]
  rw [write_on_top _ [x] x b e2, end_on_top _ [x] x (by simpa using e2)]
  simp only []
  rw [write_on_top _ [] x c (by simp), end_on_top _ [] x (by simp)]
  simp [DivertManager.get, DivertManager.begin, divs_append, divs_try_emplace, hx]

theorem divert_reopen_appends_witness :
    (((((((DivertManager.fresh.begin ['x']).write ['A']).begin ['x']).write
        ['B']).end_.2).write ['C']).end_.2).get ['x'] = ['A', 'B', 'C'] :=
  (divert_reopen_appends DivertManager.fresh ['x'] ['A'] ['B'] ['C'] rfl rfl).2.2.1

/-- C6: `end()` fails with the no-active-diversion error exactly when the stack
is empty, and then the whole object (buffers, stack, main output) is as
before; on a non-empty stack it succeeds, removes exactly the top entry and
changes neither a buffer nor the main output.  `divert_end` passes the
result on. -/
theorem end_fails_iff_stack_empty (d : DivertManager) :
    (d.end_.1 = Except.error no_active_diversion ↔ d.stack_ = []) ∧
      (d.end_.1 = Except.ok () ↔ d.stack_ ≠ []) ∧
      (d.stack_ = [] → d.end_.2 = d) ∧
      (∀ (deeper : List Text) (top : Text), d.stack_ = deeper ++ [top] →
        d.end_.1 = Except.ok () ∧ d.end_.2.stack_ = deeper ∧
          d.end_.2.divs_ = d.divs_ ∧ d.end_.2.main_ = d.main_) ∧
      (∀ l : LroffLibrary, l.diverts_ = d →
        l.divert_end.1 = d.end_.1 ∧ l.divert_end.2.diverts_ = d.end_.2 ∧
          l.divert_end.2.state_ = l.state_) := by
  refine ⟨?_, ?_, ?_, ?_, ?_⟩
  · cases h : d.stack_ <;> simp [DivertManager.end_, h]
  · cases h : d.stack_ <;> simp [DivertManager.end_, h]
  · intro h
    simp [DivertManager.end_, h]
  · intro deeper top h
    simp [end_on_top d deeper top h]
  · rintro l rfl
    simp [LroffLibrary.divert_end]

theorem end_fails_iff_stack_empty_witness :
    (DivertManager.fresh.end_.1 = Except.error no_active_diversion) ∧
      ((DivertManager.fresh.begin ['x']).end_.1 = Except.ok () ∧
        (DivertManager.fresh.begin ['x']).end_.2.stack_ = []) :=
  ⟨(end_fails_iff_stack_empty DivertManager.fresh).1.2 rfl,
    ((end_fails_iff_stack_empty (DivertManager.fresh.begin ['x'])).2.2.2.1 [] ['x'] rfl).1,
    ((end_fails_iff_stack_empty (DivertManager.fresh.begin ['x'])).2.2.2.1 [] ['x'] rfl).2.1⟩

/-- C7: with a non-empty stack `write(t)` appends `t` to the buffer named by the
top entry, whatever names stand deeper in the stack, and changes neither the
main output nor another named buffer; with an empty stack it appends `t` to
the main output and changes no named buffer.  `write`, `writeln` and
`blank_line` never change the stack. -/
theorem write_targets_top (d : DivertManager) (t : Text) :
    (∀ (deeper : List Text) (top : Text), d.stack_ = deeper ++ [top] →
        (d.write t).get top = d.get top ++ t ∧ (d.write t).main_ = d.main_ ∧
          ∀ n : Text, n ≠ top → (d.write t).divs_ n = d.divs_ n) ∧
      (d.stack_ = [] →
        (d.write t).main_.contents = d.main_.contents ++ t ∧
          (d.write t).divs_ = d.divs_) ∧
      (d.write t).stack_ = d.stack_ ∧ (d.writeln t).stack_ = d.stack_ ∧
      d.blank_line.stack_ = d.stack_ := by
  refine ⟨?_, ?_, ?_, ?_, ?_⟩
  · intro deeper top h
    rw [write_on_top d deeper top t h]
    refine ⟨?_, rfl, ?_⟩
    · simp only [DivertManager.get, divs_append, if_true]
    · intro n hn
      simp [divs_append, hn]
  · intro h
    simp [DivertManager.write, h, OutputBuffer.write, OutputBuffer.contents]
  · unfold DivertManager.write
    split <;> rfl
  · unfold DivertManager.writeln
    split <;> rfl
  · unfold DivertManager.blank_line
    split <;> rfl

theorem write_targets_top_witness :
    ((((DivertManager.fresh.begin ['x']).begin ['y']).begin ['x']).write ['A']).get ['x']
        = (((DivertManager.fresh.begin ['x']).begin ['y']).begin ['x']).get ['x'] ++ ['A'] ∧
      (DivertManager.fresh.write ['A']).main_.contents
        = DivertManager.fresh.main_.contents ++ ['A'] :=
  ⟨((write_targets_top (((DivertManager.fresh.begin ['x']).begin ['y']).begin ['x'])
      ['A']).1 [['x'], ['y']] ['x'] rfl).1,
    ((write_targets_top DivertManager.fresh ['A']).2.1 rfl).1⟩

/-! ## Theorems about the block scanner -/

theorem scan_append {σ : Type} (ev : Evaluator σ) (filename : Text) (st : ScanState σ)
    (l1 l2 : List Text) :
    scan ev filename st (l1 ++ l2) = scan ev filename (scan ev filename st l1) l2 := by
  simp [scan, List.foldl_append]

theorem scan_cons {σ : Type} (ev : Evaluator σ) (filename : Text) (st : ScanState σ)
    (l : Text) (ls : List Text) :
    scan ev filename st (l :: ls) = scan ev filename (process_line ev filename st l) ls := by
  simp [scan]

theorem scan_nil {σ : Type} (ev : Evaluator σ) (filename : Text) (st : ScanState σ) :
    scan ev filename st [] = st := rfl

/-- What `exec_lua` leaves of the fields the script cannot reach. -/
theorem exec_lua_fields {σ : Type} (ev : Evaluator σ) (pp : Preprocessor σ)
    (code source_name : Text) (source_line : Nat) :
    (pp.exec_lua ev code source_name source_line).1.cfg_ = pp.cfg_ ∧
      (pp.exec_lua ev code source_name source_line).1.current_line_ = pp.current_line_ ∧
      (pp.exec_lua ev code source_name source_line).1.current_file_ = pp.current_file_ ∧
      (pp.exec_lua ev code source_name source_line).1.submitted =
        pp.submitted ++ [{ code := code,
                           chunk_name := block_chunk_name source_name source_line }] := by
  unfold Preprocessor.exec_lua
  simp only []
  split <;> simp [Preprocessor.safe_script, Preprocessor.set_output]

theorem emit_lf_fields {σ : Type} (pp : Preprocessor σ) (line : Nat) (file : Text) :
    (pp.emit_lf line file).cfg_ = pp.cfg_ ∧
      (pp.emit_lf line file).current_line_ = pp.current_line_ ∧
      (pp.emit_lf line file).current_file_ = pp.current_file_ ∧
      (pp.emit_lf line file).submitted = pp.submitted := by
  unfold Preprocessor.emit_lf
  split <;> simp [Preprocessor.set_output]

theorem expand_loop_fields {σ : Type} (ev : Evaluator σ) (open_ : Text) (close : Char)
    (fuel : Nat) (pp : Preprocessor σ) (result rest : Text) :
    (expand_loop ev open_ close fuel pp result rest).1.cfg_ = pp.cfg_ ∧
      (expand_loop ev open_ close fuel pp result rest).1.current_line_ = pp.current_line_ ∧
      (expand_loop ev open_ close fuel pp result rest).1.current_file_
        = pp.current_file_ := by
  induction fuel generalizing pp result rest with
  | zero => simp [expand_loop]
  | succ n ih =>
    unfold expand_loop
    split_ifs
    · simp
    · split
      · simp
      · split
        · simp
        · simp only []
          split
          · rw [(ih _ _ _).1, (ih _ _ _).2.1, (ih _ _ _).2.2]
            simp [Preprocessor.safe_script]
          · rw [(ih _ _ _).1, (ih _ _ _).2.1, (ih _ _ _).2.2]
            simp [Preprocessor.safe_script]

theorem expand_inline_fields {σ : Type} (ev : Evaluator σ) (pp : Preprocessor σ)
    (line : Text) :
    (pp.expand_inline ev line).1.cfg_ = pp.cfg_ ∧
      (pp.expand_inline ev line).1.current_line_ = pp.current_line_ ∧
      (pp.expand_inline ev line).1.current_file_ = pp.current_file_ := by
  unfold Preprocessor.expand_inline
  split
  · simp
  · exact expand_loop_fields _ _ _ _ _ _ _

/-- Every iteration keeps the configuration and advances the line counter by
one. -/
theorem process_line_fields {σ : Type} (ev : Evaluator σ) (filename : Text)
    (st : ScanState σ) (line : Text) :
    (process_line ev filename st line).pp.cfg_ = st.pp.cfg_ ∧
      (process_line ev filename st line).pp.current_line_ = st.pp.current_line_ + 1 := by
  unfold process_line
  simp only []
  split_ifs
  · simp [(emit_lf_fields _ _ _).1, (emit_lf_fields _ _ _).2.1, (exec_lua_fields _ _ _ _ _).1,
      (exec_lua_fields _ _ _ _ _).2.1]
  · simp
  · split
    · simp [(emit_lf_fields _ _ _).1, (emit_lf_fields _ _ _).2.1,
        (exec_lua_fields _ _ _ _ _).1, (exec_lua_fields _ _ _ _ _).2.1]
    · simp
  · simp
  · simp [Preprocessor.passthrough, Preprocessor.set_output, (expand_inline_fields _ _ _).1,
      (expand_inline_fields _ _ _).2.1]

theorem scan_fields {σ : Type} (ev : Evaluator σ) (filename : Text) (st : ScanState σ)
    (lines : List Text) :
    (scan ev filename st lines).pp.cfg_ = st.pp.cfg_ ∧
      (scan ev filename st lines).pp.current_line_ = st.pp.current_line_ + lines.length := by
  induction lines generalizing st with
  | nil => simp [scan_nil]
  | cons l ls ih =>
    rw [scan_cons, (ih _).1, (ih _).2, (process_line_fields _ _ _ _).1,
      (process_line_fields _ _ _ _).2]
    simp
    omega

/-- Outside a block the pending buffer `lua_buf` is empty. -/
theorem process_line_buf {σ : Type} (ev : Evaluator σ) (filename : Text)
    (st : ScanState σ) (line : Text)
    (h : st.in_lua_block = false → st.lua_buf = []) :
    (process_line ev filename st line).in_lua_block = false →
      (process_line ev filename st line).lua_buf = [] := by
  unfold process_line
  simp only []
  split_ifs with h1 h2 h3 h4
  · simp
  · simp
  · split
    · intro _
      exact h (by simpa using h1)
    · simp
  · simp
  · intro _
    exact h (by simpa using h1)

theorem scan_buf {σ : Type} (ev : Evaluator σ) (filename : Text) (st : ScanState σ)
    (lines : List Text) (h : st.in_lua_block = false → st.lua_buf = []) :
    (scan ev filename st lines).in_lua_block = false →
      (scan ev filename st lines).lua_buf = [] := by
  induction lines generalizing st with
  | nil => simpa [scan_nil] using h
  | cons l ls ih =>
    rw [scan_cons]
    exact ih _ (process_line_buf ev filename st l h)

/-- An iteration that ends inside a block has run no script and written
nothing, and it did not read a close line if it began inside a block. -/
theorem process_line_in_block {σ : Type} (ev : Evaluator σ) (filename : Text)
    (st : ScanState σ) (line : Text)
    (h : (process_line ev filename st line).in_lua_block = true) :
    (process_line ev filename st line).pp
        = { st.pp with current_line_ := st.pp.current_line_ + 1 } ∧
      (st.in_lua_block = true →
        matches_marker st.pp.cfg_.block_close (trimmed line) = false) ∧
      (st.in_lua_block = false →
        matches_marker st.pp.cfg_.block_open (trimmed line) = true) := by
  cases h1 : st.in_lua_block with
  | true =>
    cases h2 : matches_marker st.pp.cfg_.block_close (trimmed line) with
    | true => simp [process_line, h1, h2] at h
    | false => simp [process_line, h1, h2]
  | false =>
    cases h3 : matches_marker st.pp.cfg_.block_open (trimmed line) with
    | false => simp [process_line, h1, h3] at h
    | true =>
      by_cases h4 : (trimmed line).length > st.pp.cfg_.block_open.length
      · cases h5 : find st.pp.cfg_.block_close
            ((trimmed line).drop (st.pp.cfg_.block_open.length + 1)) with
        | some ec => simp [process_line, h1, h3, h4, h5] at h
        | none => simp [process_line, h1, h3, h4, h5]
      · simp [process_line, h1, h3, h4]

/-- A scan that starts outside a block and ends inside one splits at the open
line of the block left open: nothing after the lines before it has run a
script or touched the library object. -/
theorem scan_ends_in_block {σ : Type} (ev : Evaluator σ) (filename : Text)
    (st0 : ScanState σ) (hst0 : st0.in_lua_block = false) (input : List Text)
    (h : (scan ev filename st0 input).in_lua_block = true) :
    ∃ (pre : List Text) (open_line : Text) (rest : List Text),
      input = pre ++ open_line :: rest ∧
      (scan ev filename st0 pre).in_lua_block = false ∧
      matches_marker st0.pp.cfg_.block_open (trimmed open_line) = true ∧
      (∀ l ∈ rest, matches_marker st0.pp.cfg_.block_close (trimmed l) = false) ∧
      (scan ev filename st0 input).pp.submitted = (scan ev filename st0 pre).pp.submitted ∧
      (scan ev filename st0 input).pp.lroff_ = (scan ev filename st0 pre).pp.lroff_ ∧
      (scan ev filename st0 input).pp.lua_ = (scan ev filename st0 pre).pp.lua_ := by
  induction input using List.reverseRecOn with
  | nil =>
    rw [scan_nil, hst0] at h
    cases h
  | append_singleton init a ih =>
    rw [scan_append, scan_cons, scan_nil] at h
    have hstep := process_line_in_block ev filename _ a h
    rw [(scan_fields ev filename st0 init).1] at hstep
    cases hin : (scan ev filename st0 init).in_lua_block with
    | true =>
      obtain ⟨pre, open_line, rest, hsplit, hpre, hopen, hrest, hsub, hlroff, hlua⟩ := ih hin
      refine ⟨pre, open_line, rest ++ [a], ?_, hpre, hopen, ?_, ?_, ?_, ?_⟩
      · simp [hsplit]
      · intro l hl
        rcases List.mem_append.1 hl with hl | hl
        · exact hrest l hl
        · rw [List.mem_singleton.1 hl]
          exact hstep.2.1 hin
      · rw [scan_append, scan_cons, scan_nil, hstep.1, ← hsub]
      · rw [scan_append, scan_cons, scan_nil, hstep.1, ← hlroff]
      · rw [scan_append, scan_cons, scan_nil, hstep.1, ← hlua]
    | false =>
      refine ⟨init, a, [], rfl, hin, hstep.2.2 hin, ?_, ?_, ?_, ?_⟩
      · simp
      · rw [scan_append, scan_cons, scan_nil, hstep.1]
      · rw [scan_append, scan_cons, scan_nil, hstep.1]
      · rw [scan_append, scan_cons, scan_nil, hstep.1]

/-- C8: when the stream ends inside a block, `process` returns the failing
result 1, and the input splits at the open line of the unterminated block:
the lines before it are scanned to a state outside any block, and the whole
run has submitted no chunk beyond those of that prefix (the partial block is
never evaluated) and leaves the output buffer exactly as the prefix left it,
which `flush` returns. -/
theorem unterminated_block_fails {σ : Type} (ev : Evaluator σ) (pp : Preprocessor σ)
    (input : List Text) (filename : Text)
    (h : (scan ev filename (scan_start pp filename) input).in_lua_block = true) :
    (pp.process ev input filename).1 = 1 ∧
    ∃ (pre : List Text) (open_line : Text) (rest : List Text),
      input = pre ++ open_line :: rest ∧
      (pp.process ev pre filename).1 = 0 ∧
      matches_marker pp.cfg_.block_open (trimmed open_line) = true ∧
      (∀ l ∈ rest, matches_marker pp.cfg_.block_close (trimmed l) = false) ∧
      (pp.process ev input filename).2.submitted
        = (pp.process ev pre filename).2.submitted ∧
      (pp.process ev input filename).2.lroff_ = (pp.process ev pre filename).2.lroff_ ∧
      (pp.process ev input filename).2.lua_ = (pp.process ev pre filename).2.lua_ ∧
      (pp.process ev input filename).2.output_
        = (pp.process ev pre filename).2.output_ ∧
      (pp.process ev input filename).2.flush.1
        = (pp.process ev pre filename).2.output_.contents := by
  obtain ⟨pre, open_line, rest, hsplit, hpre, hopen, hrest, hsub, hlroff, hlua⟩ :=
    scan_ends_in_block ev filename (scan_start pp filename) rfl input h
  have e1 : pp.process ev input filename
      = (1, (scan ev filename (scan_start pp filename) input).pp) := by
    simp [Preprocessor.process, h]
  have e2 : pp.process ev pre filename
      = (0, (scan ev filename (scan_start pp filename) pre).pp) := by
    simp [Preprocessor.process, hpre]
  refine ⟨by rw [e1], pre, open_line, rest, hsplit, by rw [e2], hopen, hrest, ?_, ?_, ?_, ?_, ?_⟩
  · rw [e1, e2]; exact hsub
  · rw [e1, e2]; exact hlroff
  · rw [e1, e2]; exact hlua
  · rw [e1, e2]; simp only [Preprocessor.output_, hlroff]
  · rw [e1, e2]; simp only [Preprocessor.flush, Preprocessor.output_, hlroff]

theorem unterminated_block_fails_witness :
    ((Preprocessor.init Config.default ()).process silent_evaluator
        [['H', 'i'], ['.', 'l', 'u', 'a'], ['x', '=', '1']] ['f']).1 = 1 ∧
      ((Preprocessor.init Config.default ()).process silent_evaluator
        [['H', 'i'], ['.', 'l', 'u', 'a'], ['x', '=', '1']] ['f']).2.flush.1
        = ['H', 'i', newline] :=
  ⟨(unterminated_block_fails silent_evaluator (Preprocessor.init Config.default ())
      [['H', 'i'], ['.', 'l', 'u', 'a'], ['x', '=', '1']] ['f'] (by decide)).1, by decide⟩

theorem find_first_not_of_none (chars line : Text)
    (h : find_first_not_of chars line = none) : ∀ c ∈ line, chars.contains c = true := by
  induction line with
  | nil => simp
  | cons c cs ih =>
    simp only [find_first_not_of] at h
    split_ifs at h with hc
    · intro x hx
      rcases List.mem_cons.1 hx with hx | hx
      · rw [hx]; exact hc
      · exact ih (by simpa using h) x hx

theorem find_first_not_of_some (chars line : Text) (k : Nat)
    (h : find_first_not_of chars line = some k) :
    line.drop k = line.dropWhile (fun c => chars.contains c) ∧ line.drop k ≠ [] := by
  induction line generalizing k with
  | nil => simp [find_first_not_of] at h
  | cons c cs ih =>
    simp only [find_first_not_of] at h
    split_ifs at h with hc
    · cases hk : find_first_not_of chars cs with
      | none => simp [hk] at h
      | some j =>
        simp [hk] at h
        subst h
        have := ih j hk
        rw [List.dropWhile_cons, if_pos hc, List.drop_succ_cons]
        exact this
    · simp at h
      subst h
      rw [List.dropWhile_cons, if_neg hc]
      simp

theorem blank_pred_eq :
    (fun c : Char => decide (c = ' ' ∨ c = tab)) = fun c => [' ', tab].contains c := by
  funext c
  by_cases h1 : c = ' '
  · simp [h1]
  · by_cases h2 : c = tab
    · simp [h2]
    · simp [h1, h2]

/-- The trimmed line of the code against the stripped line of the
specification: they differ exactly on a non-empty line of spaces and tabs. -/
theorem trimmed_eq (line : Text) :
    (line.dropWhile (fun c => c = ' ' ∨ c = tab) ≠ [] ∧
        trimmed line = line.dropWhile (fun c => c = ' ' ∨ c = tab)) ∨
      (line.dropWhile (fun c => c = ' ' ∨ c = tab) = [] ∧ trimmed line = line ∧
        ∀ c ∈ line, c = ' ' ∨ c = tab) := by
  rw [blank_pred_eq]
  unfold trimmed
  cases h : find_first_not_of [' ', tab] line with
  | none =>
    right
    have hall := find_first_not_of_none _ _ h
    refine ⟨?_, rfl, ?_⟩
    · rw [List.dropWhile_eq_nil_iff]
      exact hall
    · intro c hc
      have := hall c hc
      simpa using this
  | some k =>
    left
    have := find_first_not_of_some _ _ k h
    simp only []
    rw [← this.1]
    exact ⟨this.2, rfl⟩

theorem isPrefixOf_eq_true_iff (p t : Text) :
    p.isPrefixOf t = true ↔ ∃ post, t = p ++ post := by
  rw [List.isPrefixOf_iff_prefix]
  constructor
  · rintro ⟨post, h⟩
    exact ⟨post, h.symm⟩
  · rintro ⟨post, h⟩
    exact ⟨post, h.symm⟩

theorem matches_marker_iff (marker t : Text) :
    matches_marker marker t = true ↔
      t = marker ∨ (∃ post, t = marker ++ ' ' :: post) ∨
        (∃ post, t = marker ++ tab :: post) := by
  unfold matches_marker
  rw [Bool.or_eq_true, Bool.or_eq_true, isPrefixOf_eq_true_iff, isPrefixOf_eq_true_iff,
    or_assoc]
  simp

/-- The open-line rule of the code agrees with the rule of the specification
for every marker that has a character other than space and tab, as the
default `.lua` has. -/
theorem block_open_rule_of_nonblank_marker (marker line : Text)
    (hm : ∃ c ∈ marker, c ≠ ' ' ∧ c ≠ tab) :
    matches_marker marker (trimmed line) = true ↔ spec_matches marker line := by
  rw [matches_marker_iff]
  unfold spec_matches
  rcases trimmed_eq line with ⟨_, ht⟩ | ⟨hnil, ht, hall⟩
  · rw [ht]
  · rw [ht, hnil]
    obtain ⟨c, hc, hc1, hc2⟩ := hm
    constructor
    · intro h
      exfalso
      have hmem : c ∈ line := by
        rcases h with h | ⟨post, h⟩ | ⟨post, h⟩
        · rw [h]; exact hc
        · rw [h]; exact List.mem_append_left _ hc
        · rw [h]; exact List.mem_append_left _ hc
      rcases hall c hmem with h | h
      · exact hc1 h
      · exact hc2 h
    · intro h
      exfalso
      rcases h with h | ⟨post, h⟩ | ⟨post, h⟩
      · rw [← h] at hc
        simp at hc
      · have := congrArg List.length h
        simp at this
        omega
      · have := congrArg List.length h
        simp at this
        omega

/-- A marker made only of spaces and tabs, which no caller configures, is outside
the open-line rule: with the block-open marker set to one space, the line
made of one space is left untrimmed (it has no character other than space
and tab), equals the marker and opens a block, so that the one-line stream
ends in an unterminated block with result 1 and no output, while the
stripped line is empty. -/
theorem blank_marker_opens_block_on_blank_line :
    ¬ spec_matches [' '] [' '] ∧
      matches_marker blank_open_config.block_open (trimmed [' ']) = true ∧
      (process_line silent_evaluator ['f']
        (scan_start (Preprocessor.init blank_open_config ()) ['f']) [' ']).in_lua_block
          = true ∧
      ((Preprocessor.init blank_open_config ()).process silent_evaluator
        [[' ']] ['f']).1 = 1 ∧
      ((Preprocessor.init blank_open_config ()).process silent_evaluator
        [[' ']] ['f']).2.output_.contents = [] := by
  refine ⟨?_, by decide, by decide, by decide, by decide⟩
  unfold spec_matches
  simp

theorem matches_marker_self (marker : Text) : matches_marker marker marker = true := by
  simp [matches_marker]

/-- Outside a block, a line that the open test rejects is markup: it is expanded
and passed through, and the scanner stays outside. -/
theorem process_line_markup {σ : Type} (ev : Evaluator σ) (filename : Text)
    (st : ScanState σ) (line : Text) (hout : st.in_lua_block = false)
    (hno : matches_marker st.pp.cfg_.block_open (trimmed line) = false) :
    process_line ev filename st line =
      { pp := (({ st.pp with current_line_ := st.pp.current_line_ + 1 } :
            Preprocessor σ).expand_inline ev line).1.passthrough
          (({ st.pp with current_line_ := st.pp.current_line_ + 1 } :
            Preprocessor σ).expand_inline ev line).2,
        in_lua_block := false, lua_block_start := st.lua_block_start,
        lua_buf := st.lua_buf } := by
  simp [process_line, hout, hno]

/-- Inside a block, lines that the close test rejects are appended raw, each with
a newline, and nothing else happens. -/
theorem scan_interior {σ : Type} (ev : Evaluator σ) (filename : Text) (st : ScanState σ)
    (ls : List Text) (hin : st.in_lua_block = true)
    (hint : ∀ l ∈ ls, matches_marker st.pp.cfg_.block_close (trimmed l) = false) :
    scan ev filename st ls =
      { pp := { st.pp with current_line_ := st.pp.current_line_ + ls.length },
        in_lua_block := true, lua_block_start := st.lua_block_start,
        lua_buf := st.lua_buf ++ block_source ls } := by
  induction ls generalizing st with
  | nil =>
    cases st
    simp_all [scan_nil, block_source]
  | cons l ls ih =>
    have hl := hint l (List.mem_cons_self _ _)
    have hstep : process_line ev filename st l =
        { pp := { st.pp with current_line_ := st.pp.current_line_ + 1 },
          in_lua_block := true, lua_block_start := st.lua_block_start,
          lua_buf := st.lua_buf ++ l ++ [newline] } := by
      simp [process_line, hin, hl]
    have hrest := ih (process_line ev filename st l) (by rw [hstep])
      (by rw [hstep]; exact fun x hx => hint x (List.mem_cons_of_mem _ hx))
    rw [scan_cons, hrest, hstep]
    simp [block_source, Nat.add_assoc, Nat.add_comm 1]

/-- C10: a block whose open line, without trailer, is input line `k`
(`k = pre.length + 1`), with interior lines `ls` that the close test rejects
and a close line at input line `m = k + ls.length + 1`: the scanner ends
outside, with empty pending buffer, after running `exec_lua` once on the
source `block_source ls` with start line `k + 1` and emitting the `.lf`
directive for line `m + 1`; exactly one chunk is submitted, and with line
accounting enabled the output ends with the directive line. -/
theorem block_submitted_once {σ : Type} (ev : Evaluator σ) (pp : Preprocessor σ)
    (filename : Text) (pre : List Text) (open_line : Text) (ls : List Text)
    (close_line : Text)
    (hout : (scan ev filename (scan_start pp filename) pre).in_lua_block = false)
    (hopen : trimmed open_line = pp.cfg_.block_open)
    (hint : ∀ l ∈ ls, matches_marker pp.cfg_.block_close (trimmed l) = false)
    (hclose : matches_marker pp.cfg_.block_close (trimmed close_line) = true) :
    scan ev filename (scan_start pp filename) (pre ++ open_line :: ls ++ [close_line]) =
        { pp := (({ (scan ev filename (scan_start pp filename) pre).pp with
                      current_line_ := pre.length + 1 + ls.length + 1 } :
                    Preprocessor σ).exec_lua ev (block_source ls) filename
                      (pre.length + 1 + 1)).1.emit_lf
                  (pre.length + 1 + ls.length + 1 + 1) filename,
          in_lua_block := false, lua_block_start := pre.length + 1 + 1, lua_buf := [] } ∧
      (scan ev filename (scan_start pp filename)
          (pre ++ open_line :: ls ++ [close_line])).pp.submitted =
        (scan ev filename (scan_start pp filename) pre).pp.submitted ++
          [{ code := block_source ls,
             chunk_name := block_chunk_name filename (pre.length + 1 + 1) }] ∧
      (pp.cfg_.emit_lf = true →
        (scan ev filename (scan_start pp filename)
            (pre ++ open_line :: ls ++ [close_line])).pp.output_.contents =
          (({ (scan ev filename (scan_start pp filename) pre).pp with
                current_line_ := pre.length + 1 + ls.length + 1 } :
              Preprocessor σ).exec_lua ev (block_source ls) filename
                (pre.length + 1 + 1)).1.output_.contents
            ++ lf_line (pre.length + 1 + ls.length + 1 + 1) filename ++ [newline]) := by
  have hcfg := (scan_fields ev filename (scan_start pp filename) pre).1
  have hline := (scan_fields ev filename (scan_start pp filename) pre).2
  have hbuf := scan_buf ev filename (scan_start pp filename) pre (fun _ => rfl) hout
  have hcfg0 : (scan_start pp filename).pp.cfg_ = pp.cfg_ := rfl
  have hline0 : (scan_start pp filename).pp.current_line_ = 0 := rfl
  rw [hcfg0] at hcfg
  rw [hline0, Nat.zero_add] at hline
  have happ : pre ++ open_line :: ls ++ [close_line]
      = pre ++ (open_line :: ls ++ [close_line]) := by simp
  rw [happ, scan_append]
  generalize scan ev filename (scan_start pp filename) pre = st at hout hcfg hline hbuf ⊢
  have hstep1 : process_line ev filename st open_line =
      { pp := { st.pp with current_line_ := pre.length + 1 },
        in_lua_block := true, lua_block_start := pre.length + 1 + 1, lua_buf := [] } := by
    simp [process_line, hout, matches_marker_self, hopen, hcfg, hbuf, hline]
  have hstep3 : scan ev filename st (open_line :: ls ++ [close_line]) =
      { pp := (({ st.pp with current_line_ := pre.length + 1 + ls.length + 1 } :
                  Preprocessor σ).exec_lua ev (block_source ls) filename
                    (pre.length + 1 + 1)).1.emit_lf
                (pre.length + 1 + ls.length + 1 + 1) filename,
        in_lua_block := false, lua_block_start := pre.length + 1 + 1, lua_buf := [] } := by
    rw [List.cons_append, scan_cons, hstep1, scan_append,
      scan_interior ev filename _ ls rfl (by simpa [hcfg] using hint), scan_cons, scan_nil]
    simp [process_line, hcfg, hclose, (exec_lua_fields _ _ _ _ _).2.1]
  rw [hstep3]
  refine ⟨rfl, ?_, ?_⟩
  · simp only []
    rw [(emit_lf_fields _ _ _).2.2.2, (exec_lua_fields _ _ _ _ _).2.2.2]
  · intro hlf
    simp only [Preprocessor.emit_lf, (exec_lua_fields _ _ _ _ _).1, hcfg, hlf, if_true]
    simp [Preprocessor.set_output, Preprocessor.output_, OutputBuffer.writeln,
      OutputBuffer.contents]

theorem block_submitted_once_witness :
    (scan silent_evaluator ['f'] (scan_start (Preprocessor.init Config.default ()) ['f'])
        ([['H', 'i']] ++ ['.', 'l', 'u', 'a'] :: [['x'], ['.', 'l', 'u', 'a'], [' ', 'y']]
          ++ [['.', 'e', 'n', 'd', 'l', 'u', 'a']])).pp.submitted =
      (scan silent_evaluator ['f'] (scan_start (Preprocessor.init Config.default ()) ['f'])
        [['H', 'i']]).pp.submitted ++
        [{ code := block_source [['x'], ['.', 'l', 'u', 'a'], [' ', 'y']],
           chunk_name := block_chunk_name ['f'] (1 + 1 + 1) }] ∧
      (scan silent_evaluator ['f'] (scan_start (Preprocessor.init Config.default ()) ['f'])
        ([['H', 'i']] ++ ['.', 'l', 'u', 'a'] :: [['x'], ['.', 'l', 'u', 'a'], [' ', 'y']]
          ++ [['.', 'e', 'n', 'd', 'l', 'u', 'a']])).pp.output_.contents =
        ['H', 'i', newline, '.', 'l', 'f', ' ', '7', ' ', 'f', newline] :=
  ⟨(block_submitted_once silent_evaluator (Preprocessor.init Config.default ()) ['f']
      [['H', 'i']] ['.', 'l', 'u', 'a'] [['x'], ['.', 'l', 'u', 'a'], [' ', 'y']]
      ['.', 'e', 'n', 'd', 'l', 'u', 'a'] (by decide) (by decide) (by decide)
      (by decide)).2.1, by decide⟩

/-! ## Theorems about `find` and same-line blocks -/

theorem find_of_prefix (pat s : Text) (h : pat <+: s) : find pat s = some 0 := by
  cases s with
  | nil =>
    have : pat = [] := List.prefix_nil.1 h
    simp [find, this]
  | cons c cs =>
    have hp : pat.isPrefixOf (c :: cs) = true := List.isPrefixOf_iff_prefix.2 h
    simp [find, hp]

/-- `find` returns the position of the first occurrence. -/
theorem find_of_first (pat a b : Text)
    (hfirst : ∀ j, j < a.length → ¬ pat <+: (a ++ pat ++ b).drop j) :
    find pat (a ++ pat ++ b) = some a.length := by
  induction a with
  | nil =>
    apply find_of_prefix
    simp
  | cons c cs ih =>
    have h0 : ¬ pat <+: (c :: cs ++ pat ++ b) := by
      simpa using hfirst 0 (by simp)
    have hp : pat.isPrefixOf (c :: (cs ++ pat ++ b)) = false := by
      cases hq : pat.isPrefixOf (c :: (cs ++ pat ++ b)) with
      | false => rfl
      | true =>
        exfalso
        apply h0
        simpa using List.isPrefixOf_iff_prefix.1 hq
    have hrest := ih (fun j hj => by
      have := hfirst (j + 1) (by simp; omega)
      simpa using this)
    have hstep : find pat (c :: (cs ++ pat ++ b))
        = (find pat (cs ++ pat ++ b)).map (· + 1) := by
      simp only [find, hp, Bool.false_eq_true, if_false]
    show find pat (c :: (cs ++ pat ++ b)) = some (cs.length + 1)
    rw [hstep, hrest]
    rfl

theorem find_eq_none_iff (pat s : Text) : find pat s = none ↔ ¬ pat <:+: s := by
  induction s with
  | nil =>
    cases pat with
    | nil => simp [find]
    | cons p ps => simp [find]
  | cons c cs ih =>
    simp only [find]
    by_cases hp : pat.isPrefixOf (c :: cs) = true
    · simp only [hp, if_true]
      have := (List.isPrefixOf_iff_prefix.1 hp).isInfix
      simp [this]
    · simp only [hp, Bool.false_eq_true, if_false, Option.map_eq_none', ih]
      have hnp : ¬ pat <+: c :: cs := fun h => hp (List.isPrefixOf_iff_prefix.2 h)
      rw [List.infix_cons_iff]
      tauto

/-- The iteration of `process` on an open line whose trailer contains the close
marker. -/
theorem process_line_same_line {σ : Type} (ev : Evaluator σ) (filename : Text)
    (st : ScanState σ) (line t a b : Text) (sep : Char)
    (hout : st.in_lua_block = false)
    (hsep : sep = ' ' ∨ sep = tab)
    (htrim : trimmed line = st.pp.cfg_.block_open ++ sep :: t)
    (ht : t = a ++ st.pp.cfg_.block_close ++ b)
    (hfirst : ∀ j, j < a.length → ¬ st.pp.cfg_.block_close <+: t.drop j) :
    process_line ev filename st line =
      { pp := (({ st.pp with current_line_ := st.pp.current_line_ + 1 } :
                  Preprocessor σ).exec_lua ev a filename
                    (st.pp.current_line_ + 1)).1.emit_lf
                (st.pp.current_line_ + 1 + 1) filename,
        in_lua_block := false, lua_block_start := st.pp.current_line_ + 1 + 1,
        lua_buf := st.lua_buf } := by
  have hfind : find st.pp.cfg_.block_close t = some a.length := by
    rw [ht]
    exact find_of_first _ a b (by rw [← ht]; exact hfirst)
  have hmatch : matches_marker st.pp.cfg_.block_open (trimmed line) = true := by
    rw [matches_marker_iff, htrim]
    rcases hsep with h | h
    · exact Or.inr (Or.inl ⟨t, by rw [h]⟩)
    · exact Or.inr (Or.inr ⟨t, by rw [h]⟩)
  have hlen : (trimmed line).length > st.pp.cfg_.block_open.length := by
    rw [htrim]
    simp
  have hdrop : (trimmed line).drop (st.pp.cfg_.block_open.length + 1) = t := by
    rw [htrim]
    simp
  have htake : t.take a.length = a := by
    rw [ht]
    simp
  simp only [process_line, hout, Bool.false_eq_true, if_false, hmatch, if_true, hlen,
    hdrop, hfind, htake, (exec_lua_fields _ _ _ _ _).2.1]

/-- The iteration of `process` on a close line inside a block. -/
theorem process_line_close {σ : Type} (ev : Evaluator σ) (filename : Text)
    (st : ScanState σ) (line : Text) (hin : st.in_lua_block = true)
    (hclose : matches_marker st.pp.cfg_.block_close (trimmed line) = true) :
    process_line ev filename st line =
      { pp := (({ st.pp with current_line_ := st.pp.current_line_ + 1 } :
                  Preprocessor σ).exec_lua ev st.lua_buf filename
                    st.lua_block_start).1.emit_lf
                (st.pp.current_line_ + 1 + 1) filename,
        in_lua_block := false, lua_block_start := st.lua_block_start, lua_buf := [] } := by
  simp only [process_line, hin, if_true, hclose, (exec_lua_fields _ _ _ _ _).2.1]

/-- C11: an open-marker line whose trailer `t` (the trimmed line after the marker
and one separating space or tab) contains the block-close marker: while
processing that very line the scanner submits exactly the trailer text `a`
that precedes the first occurrence of the close marker, as one chunk named
after the current line; the pending buffer is left as it was, the scanner
remains outside, and `emit_lf` is called for the number of the following
line. -/
theorem same_line_block {σ : Type} (ev : Evaluator σ) (filename : Text)
    (st : ScanState σ) (line t a b : Text) (sep : Char)
    (hout : st.in_lua_block = false)
    (hsep : sep = ' ' ∨ sep = tab)
    (htrim : trimmed line = st.pp.cfg_.block_open ++ sep :: t)
    (ht : t = a ++ st.pp.cfg_.block_close ++ b)
    (hfirst : ∀ j, j < a.length → ¬ st.pp.cfg_.block_close <+: t.drop j) :
    process_line ev filename st line =
        { pp := (({ st.pp with current_line_ := st.pp.current_line_ + 1 } :
                    Preprocessor σ).exec_lua ev a filename
                      (st.pp.current_line_ + 1)).1.emit_lf
                  (st.pp.current_line_ + 1 + 1) filename,
          in_lua_block := false, lua_block_start := st.pp.current_line_ + 1 + 1,
          lua_buf := st.lua_buf } ∧
      (process_line ev filename st line).pp.submitted =
        st.pp.submitted ++
          [{ code := a, chunk_name := block_chunk_name filename (st.pp.current_line_ + 1) }] ∧
      (process_line ev filename st line).in_lua_block = false ∧
      (process_line ev filename st line).lua_buf = st.lua_buf := by
  rw [process_line_same_line ev filename st line t a b sep hout hsep htrim ht hfirst]
  refine ⟨rfl, ?_, rfl, rfl⟩
  simp only []
  rw [(emit_lf_fields _ _ _).2.2.2, (exec_lua_fields _ _ _ _ _).2.2.2]

theorem same_line_block_witness :
    (process_line silent_evaluator ['f']
        (scan_start (Preprocessor.init Config.default ()) ['f'])
        (" .lua x=1 .endlua y".toList)).pp.submitted =
      (scan_start (Preprocessor.init Config.default ()) ['f']).pp.submitted ++
        [{ code := "x=1 ".toList, chunk_name := block_chunk_name ['f'] (0 + 1) }] :=
  (same_line_block silent_evaluator ['f']
    (scan_start (Preprocessor.init Config.default ()) ['f'])
    (" .lua x=1 .endlua y".toList) ("x=1 .endlua y".toList) ("x=1 ".toList)
    (" y".toList) ' ' rfl (Or.inl rfl) (by decide) (by decide) (by decide)).2.1

/-- The fast path of `expand_inline`. -/
theorem expand_inline_no_open {σ : Type} (ev : Evaluator σ) (pp : Preprocessor σ)
    (line : Text) (h : ¬ pp.cfg_.inline_open <:+: line) :
    pp.expand_inline ev line = (pp, line) := by
  have hf : find pp.cfg_.inline_open line = none := (find_eq_none_iff _ _).2 h
  simp [Preprocessor.expand_inline, hf]

/-- C12: a line that does not contain the configured inline open delimiter is
returned unchanged by `expand_inline`, and the preprocessor object, with its
record of submitted chunks, is as before: no chunk is evaluated. -/
theorem expand_inline_identity {σ : Type} (ev : Evaluator σ) (pp : Preprocessor σ)
    (line : Text) (h : ¬ pp.cfg_.inline_open <:+: line) :
    pp.expand_inline ev line = (pp, line) ∧
      (pp.expand_inline ev line).1.submitted = pp.submitted := by
  rw [expand_inline_no_open ev pp line h]
  exact ⟨rfl, rfl⟩

theorem expand_inline_identity_witness :
    (Preprocessor.init Config.default ()).expand_inline silent_evaluator
        ("a 'b' lua".toList) = (Preprocessor.init Config.default (), "a 'b' lua".toList) :=
  (expand_inline_identity silent_evaluator (Preprocessor.init Config.default ())
    ("a 'b' lua".toList) ((find_eq_none_iff _ _).1 (by decide))).1

/-! ## Theorems about `expand_inline` -/

theorem expand_loop_empty {σ : Type} (ev : Evaluator σ) (open_ : Text) (close : Char)
    (fuel : Nat) (pp : Preprocessor σ) (result : Text) :
    expand_loop ev open_ close fuel pp result [] = (pp, result) := by
  cases fuel <;> simp [expand_loop]

theorem expand_loop_no_open {σ : Type} (ev : Evaluator σ) (open_ : Text) (close : Char)
    (fuel : Nat) (pp : Preprocessor σ) (result rest : Text)
    (hfind : find open_ rest = none) :
    expand_loop ev open_ close (fuel + 1) pp result rest = (pp, result ++ rest) := by
  cases rest with
  | nil => simp [expand_loop]
  | cons c cs => simp [expand_loop, hfind]

theorem expand_loop_unterminated {σ : Type} (ev : Evaluator σ) (open_ : Text)
    (close : Char) (fuel : Nat) (pp : Preprocessor σ) (result rest : Text) (start : Nat)
    (hfind : find open_ rest = some start)
    (hclose : find_close close (rest.drop (start + open_.length)) = none) :
    expand_loop ev open_ close (fuel + 1) pp result rest = (pp, result ++ rest) := by
  cases rest with
  | nil => simp [expand_loop]
  | cons c cs =>
    simp only [expand_loop, List.isEmpty_cons, Bool.false_eq_true, if_false, hfind, hclose]
    rw [List.append_assoc, List.take_append_drop]

/-- One iteration of the loop of `expand_inline` on a terminated span. -/
theorem expand_loop_step {σ : Type} (ev : Evaluator σ) (open_ : Text) (close : Char)
    (fuel : Nat) (pp : Preprocessor σ) (result rest : Text) (start len : Nat)
    (hfind : find open_ rest = some start)
    (hclose : find_close close (rest.drop (start + open_.length)) = some len) :
    expand_loop ev open_ close (fuel + 1) pp result rest =
      expand_loop ev open_ close fuel
        (pp.safe_script ev (inline_chunk ((rest.drop (start + open_.length)).take len))
          (inline_chunk_name pp.current_file_ pp.current_line_)).1
        (result ++ rest.take start ++
          inline_subst (pp.safe_script ev
            (inline_chunk ((rest.drop (start + open_.length)).take len))
            (inline_chunk_name pp.current_file_ pp.current_line_)).2)
        ((rest.drop (start + open_.length)).drop (len + 1)) := by
  cases rest with
  | nil => simp [find_close] at hclose
  | cons c cs =>
    simp only [expand_loop, List.isEmpty_cons, Bool.false_eq_true, if_false, hfind, hclose]
    cases h : (pp.safe_script ev
        (inline_chunk ((List.drop (start + open_.length) (c :: cs)).take len))
        (inline_chunk_name pp.current_file_ pp.current_line_)).2 with
    | error e => simp [inline_subst]
    | ok v => cases v <;> simp [inline_subst]

/-- The output built so far is only ever appended to. -/
theorem expand_loop_acc {σ : Type} (ev : Evaluator σ) (open_ : Text) (close : Char)
    (fuel : Nat) (pp : Preprocessor σ) (result rest : Text) :
    expand_loop ev open_ close fuel pp result rest =
      ((expand_loop ev open_ close fuel pp [] rest).1,
        result ++ (expand_loop ev open_ close fuel pp [] rest).2) := by
  induction fuel generalizing pp result rest with
  | zero => simp [expand_loop]
  | succ n ih =>
    cases hfind : find open_ rest with
    | none => simp [expand_loop_no_open ev open_ close n pp _ rest hfind]
    | some start =>
      cases hclose : find_close close (rest.drop (start + open_.length)) with
      | none => simp [expand_loop_unterminated ev open_ close n pp _ rest start hfind hclose]
      | some len =>
        rw [expand_loop_step ev open_ close n pp result rest start len hfind hclose,
          expand_loop_step ev open_ close n pp [] rest start len hfind hclose,
          ih _ (result ++ _ ++ _) _, ih _ ([] ++ _ ++ _) _]
        simp

/-- More fuel than the text has characters is never used up. -/
theorem expand_loop_fuel {σ : Type} (ev : Evaluator σ) (open_ : Text) (close : Char)
    (fuel1 fuel2 : Nat) (pp : Preprocessor σ) (result rest : Text)
    (h1 : rest.length < fuel1) (h2 : rest.length < fuel2) :
    expand_loop ev open_ close fuel1 pp result rest =
      expand_loop ev open_ close fuel2 pp result rest := by
  induction fuel1 generalizing fuel2 pp result rest with
  | zero => omega
  | succ n ih =>
    cases fuel2 with
    | zero => omega
    | succ m =>
      cases hfind : find open_ rest with
      | none =>
        rw [expand_loop_no_open ev open_ close n pp _ rest hfind,
          expand_loop_no_open ev open_ close m pp _ rest hfind]
      | some start =>
        cases hclose : find_close close (rest.drop (start + open_.length)) with
        | none =>
          rw [expand_loop_unterminated ev open_ close n pp _ rest start hfind hclose,
            expand_loop_unterminated ev open_ close m pp _ rest start hfind hclose]
        | some len =>
          rw [expand_loop_step ev open_ close n pp result rest start len hfind hclose,
            expand_loop_step ev open_ close m pp result rest start len hfind hclose]
          have hne : rest ≠ [] := by
            intro h
            rw [h] at hclose
            simp [find_close] at hclose
          have hpos : 0 < rest.length := List.length_pos.2 hne
          apply ih
          · simp only [List.length_drop]
            omega
          · simp only [List.length_drop]
            omega

/-- The loop run on a text with enough fuel is `expand_inline` on that text. -/
theorem expand_loop_eq_expand_inline {σ : Type} (ev : Evaluator σ) (pp : Preprocessor σ)
    (fuel : Nat) (rest : Text) (h : rest.length < fuel) :
    expand_loop ev pp.cfg_.inline_open pp.cfg_.inline_close fuel pp [] rest =
      pp.expand_inline ev rest := by
  unfold Preprocessor.expand_inline
  cases hfind : find pp.cfg_.inline_open rest with
  | none =>
    cases fuel with
    | zero => omega
    | succ n => simp [expand_loop_no_open ev _ _ n pp _ rest hfind]
  | some start =>
    exact expand_loop_fuel ev _ _ _ _ pp [] rest h (by omega)

/-- The first span of a line: when the first open delimiter of `line` stands at
`start` and the close scan ends `len` characters after it, `expand_inline`
submits the enclosed text, puts the substitution in place of the span and
goes on expanding the rest of the line. -/
theorem expand_inline_span {σ : Type} (ev : Evaluator σ) (pp : Preprocessor σ)
    (line : Text) (start len : Nat)
    (hfind : find pp.cfg_.inline_open line = some start)
    (hclose : find_close pp.cfg_.inline_close
      (line.drop (start + pp.cfg_.inline_open.length)) = some len) :
    pp.expand_inline ev line =
      (((pp.safe_script ev
            (inline_chunk ((line.drop (start + pp.cfg_.inline_open.length)).take len))
            (inline_chunk_name pp.current_file_ pp.current_line_)).1.expand_inline ev
          ((line.drop (start + pp.cfg_.inline_open.length)).drop (len + 1))).1,
        line.take start ++
          inline_subst (pp.safe_script ev
            (inline_chunk ((line.drop (start + pp.cfg_.inline_open.length)).take len))
            (inline_chunk_name pp.current_file_ pp.current_line_)).2 ++
          ((pp.safe_script ev
            (inline_chunk ((line.drop (start + pp.cfg_.inline_open.length)).take len))
            (inline_chunk_name pp.current_file_ pp.current_line_)).1.expand_inline ev
          ((line.drop (start + pp.cfg_.inline_open.length)).drop (len + 1))).2) := by
  have hne : line ≠ [] := by
    intro h
    rw [h] at hclose
    simp [find_close] at hclose
  have hpos : 0 < line.length := List.length_pos.2 hne
  have hcfg : (pp.safe_script ev
      (inline_chunk ((line.drop (start + pp.cfg_.inline_open.length)).take len))
      (inline_chunk_name pp.current_file_ pp.current_line_)).1.cfg_ = pp.cfg_ := rfl
  have hrest := expand_loop_eq_expand_inline ev
    (pp.safe_script ev
      (inline_chunk ((line.drop (start + pp.cfg_.inline_open.length)).take len))
      (inline_chunk_name pp.current_file_ pp.current_line_)).1 line.length
    ((line.drop (start + pp.cfg_.inline_open.length)).drop (len + 1))
    (by simp only [List.length_drop]; omega)
  rw [hcfg] at hrest
  rw [← hrest]
  conv_lhs => unfold Preprocessor.expand_inline
  simp only [hfind]
  rw [expand_loop_step ev _ _ line.length pp [] line start len hfind hclose, expand_loop_acc]
  simp

/-- Induction over a text two characters at a time, the way the close scan
advances. -/
theorem text_pair_induction {P : Text → Prop} (h0 : P [])
    (h1 : ∀ c, P [c])
    (h2 : ∀ c d rest, P rest → P (d :: rest) → P (c :: d :: rest)) : ∀ l, P l := by
  have key : ∀ l : Text, P l ∧ ∀ c, P (c :: l) := by
    intro l
    induction l with
    | nil => exact ⟨h0, h1⟩
    | cons d rest ih => exact ⟨ih.2 d, fun c => h2 c d rest ih.1 (ih.2 d)⟩
  exact fun l => (key l).1

theorem find_close_head (close : Char) (post : Text) (hne : close ≠ backslash) :
    find_close close (close :: post) = some 0 := by
  cases post with
  | nil => simp [find_close]
  | cons d rest => simp [find_close, hne]

/-- The close scan stops right after a text that splits into pairs and single
characters that are neither backslash nor the close character. -/
theorem find_close_of_pairs (close : Char) (hne : close ≠ backslash) (post : Text) :
    ∀ e : Text, closes_escaped close e = true → dangling e = false →
      find_close close (e ++ close :: post) = some e.length := by
  apply text_pair_induction
  · intro _ _
    exact find_close_head close post hne
  · intro c h1 h2
    have hc1 : ¬ c = backslash := by simpa [dangling] using h2
    have hc2 : ¬ c = close := by simpa [closes_escaped, hc1] using h1
    simp [find_close, hc1, hc2, find_close_head close post hne]
  · intro c d rest ih1 ih2 h1 h2
    by_cases hc : c = backslash
    · have e1 : closes_escaped close rest = true := by simpa [closes_escaped, hc] using h1
      have e2 : dangling rest = false := by simpa [dangling, hc] using h2
      simp [find_close, hc, ih1 e1 e2]
    · have e1 : ¬ c = close ∧ closes_escaped close (d :: rest) = true := by
        simpa [closes_escaped, hc] using h1
      have e2 : dangling (d :: rest) = false := by simpa [dangling, hc] using h2
      have := ih2 e1.2 e2
      simp only [List.cons_append] at this
      simp [find_close, hc, e1.1, this]

theorem closes_escaped_of_plain (close : Char) :
    ∀ e : Text, close ∉ e → backslash ∉ e →
      closes_escaped close e = true ∧ dangling e = false := by
  apply text_pair_induction
  · intro _ _
    simp [closes_escaped, dangling]
  · intro c h1 h2
    have hc1 : ¬ c = backslash := fun h => h2 (by simp [h])
    have hc2 : ¬ c = close := fun h => h1 (by simp [h])
    simp [closes_escaped, dangling, hc1, hc2]
  · intro c d rest _ ih2 h1 h2
    have hc1 : ¬ c = backslash := fun h => h2 (by simp [h])
    have hc2 : ¬ c = close := fun h => h1 (by simp [h])
    have := ih2 (fun h => h1 (List.mem_cons_of_mem _ h))
      (fun h => h2 (List.mem_cons_of_mem _ h))
    simp [closes_escaped, dangling, hc1, hc2, this.1, this.2]

/-- The default open delimiter does not overlap itself: no occurrence begins in a
non-empty text before it unless it lies in that text. -/
theorem default_open_no_overlap (p tail : Text) (hp : p ≠ [])
    (h : ¬ Config.default.inline_open <+: p) :
    ¬ Config.default.inline_open <+: p ++ Config.default.inline_open ++ tail := by
  have l1 : ¬ ('l' : Char) = backslash := by decide
  have l2 : ¬ ('u' : Char) = backslash := by decide
  have l3 : ¬ ('a' : Char) = backslash := by decide
  have l4 : ¬ apostrophe = backslash := by decide
  simp only [Config.default] at h ⊢
  rcases p with _ | ⟨a, _ | ⟨b, _ | ⟨c, _ | ⟨d, _ | ⟨e, rest⟩⟩⟩⟩⟩
  · exact absurd rfl hp
  · simp [List.cons_prefix_cons, l1]
  · simp only [List.cons_append, List.nil_append, List.cons_prefix_cons]
    rintro ⟨_, _, h3, _⟩
    exact l2 h3
  · simp only [List.cons_append, List.nil_append, List.cons_prefix_cons]
    rintro ⟨_, _, _, h4, _⟩
    exact l3 h4
  · simp only [List.cons_append, List.nil_append, List.cons_prefix_cons]
    rintro ⟨_, _, _, _, h5, _⟩
    exact l4 h5
  · simp only [List.cons_append, List.cons_prefix_cons, List.nil_prefix, and_true] at h ⊢
    exact h

theorem find_default_open (pre tail : Text) (h : ¬ Config.default.inline_open <:+: pre) :
    find Config.default.inline_open (pre ++ Config.default.inline_open ++ tail)
      = some pre.length := by
  apply find_of_first
  intro j hj
  rw [List.append_assoc, List.drop_append_of_le_length (Nat.le_of_lt hj), ← List.append_assoc]
  apply default_open_no_overlap
  · intro h0
    have := congrArg List.length h0
    simp at this
    omega
  · intro hpre
    exact h (hpre.isInfix.trans (List.drop_suffix j pre).isInfix)

/-- C13: in the default configuration, for a line `pre ++ open ++ e ++ close ++
post` whose `pre` and `post` do not contain the open delimiter and whose `e`
contains neither the close character nor a backslash: when the script engine
returns the text `s` for the chunk `return tostring(e)`, `expand_inline`
returns `pre ++ s ++ post`, whatever `s` is, and has submitted that one
chunk. -/
theorem expand_inline_single_span {σ : Type} (ev : Evaluator σ) (pp : Preprocessor σ)
    (pre e post s : Text)
    (hopen : pp.cfg_.inline_open = Config.default.inline_open)
    (hclose : pp.cfg_.inline_close = Config.default.inline_close)
    (hpre : ¬ Config.default.inline_open <:+: pre)
    (hpost : ¬ Config.default.inline_open <:+: post)
    (he1 : Config.default.inline_close ∉ e) (he2 : backslash ∉ e)
    (hev : (ev pp.lua_ pp.lroff_ ("return tostring(".toList ++ e ++ [')'])
      (inline_chunk_name pp.current_file_ pp.current_line_)).outcome
        = Except.ok (LuaValue.str s)) :
    (pp.expand_inline ev
        (pre ++ Config.default.inline_open ++ e ++ [Config.default.inline_close] ++ post)).2
        = pre ++ s ++ post ∧
      (pp.expand_inline ev
        (pre ++ Config.default.inline_open ++ e ++ [Config.default.inline_close] ++ post)).1.submitted
        = pp.submitted ++
          [{ code := "return tostring(".toList ++ e ++ [')'],
             chunk_name := inline_chunk_name pp.current_file_ pp.current_line_ }] := by
  have hline : pre ++ Config.default.inline_open ++ e ++ [Config.default.inline_close] ++ post
      = pre ++ Config.default.inline_open ++ (e ++ Config.default.inline_close :: post) := by
    simp
  have hfind : find pp.cfg_.inline_open
      (pre ++ Config.default.inline_open ++ (e ++ Config.default.inline_close :: post))
        = some pre.length := by
    rw [hopen]
    exact find_default_open pre _ hpre
  have hdrop : (pre ++ Config.default.inline_open ++
      (e ++ Config.default.inline_close :: post)).drop
        (pre.length + pp.cfg_.inline_open.length)
      = e ++ Config.default.inline_close :: post := by
    rw [hopen, ← List.length_append, List.drop_left]
  have hpl := closes_escaped_of_plain Config.default.inline_close e he1 he2
  have hfc : find_close pp.cfg_.inline_close
      ((pre ++ Config.default.inline_open ++
        (e ++ Config.default.inline_close :: post)).drop
          (pre.length + pp.cfg_.inline_open.length)) = some e.length := by
    rw [hdrop, hclose]
    exact find_close_of_pairs _ (by decide) post e hpl.1 hpl.2
  have htake : (e ++ Config.default.inline_close :: post).take e.length = e := by simp
  have hrest : (e ++ Config.default.inline_close :: post).drop (e.length + 1) = post := by
    simp
  have hpre_take : (pre ++ Config.default.inline_open ++
      (e ++ Config.default.inline_close :: post)).take pre.length = pre := by
    simp
  rw [hline, expand_inline_span ev pp _ pre.length e.length hfind hfc, hdrop, htake, hrest,
    hpre_take]
  have hpost2 : ¬ (pp.safe_script ev (inline_chunk e)
      (inline_chunk_name pp.current_file_ pp.current_line_)).1.cfg_.inline_open <:+: post := by
    show ¬ pp.cfg_.inline_open <:+: post
    rw [hopen]
    exact hpost
  rw [expand_inline_no_open ev _ post hpost2]
  have hout : (pp.safe_script ev (inline_chunk e)
      (inline_chunk_name pp.current_file_ pp.current_line_)).2
        = Except.ok (LuaValue.str s) := hev
  simp only [hout, inline_subst]
  exact ⟨trivial, rfl⟩

theorem expand_inline_single_span_witness :
    ((Preprocessor.init Config.default ()).expand_inline
        (const_evaluator (Except.ok (LuaValue.str ['2'])))
        ("a ".toList ++ Config.default.inline_open ++ "1+1".toList
          ++ [Config.default.inline_close] ++ " b".toList)).2
      = "a ".toList ++ ['2'] ++ " b".toList :=
  (expand_inline_single_span (const_evaluator (Except.ok (LuaValue.str ['2'])))
    (Preprocessor.init Config.default ()) ("a ".toList) ("1+1".toList) (" b".toList) ['2']
    rfl rfl ((find_eq_none_iff _ _).1 (by decide)) ((find_eq_none_iff _ _).1 (by decide))
    (by decide) (by decide) rfl).1

/-- The counter `depth` of the close scan starts at 1 and is only decremented,
so the scan with the counter is the scan for the first close character that
is not skipped. -/
theorem find_close_depth_one (close : Char) :
    ∀ s : Text, find_close_depth close 1 s = find_close close s := by
  apply text_pair_induction
  · simp [find_close_depth, find_close]
  · intro c
    simp [find_close_depth, find_close]
  · intro c d rest ih1 ih2
    simp only [find_close_depth, find_close, ih1, ih2]
    simp

/-- C14 as stated fails when `e` ends in a backslash without partner: in the
default configuration with `e` the single backslash, no close character
stands inside `e`, but the backslash forms a pair with the close character
after `e`; with nothing behind it the span is unterminated and no chunk is
submitted, and with `x'` behind it the chunk submitted is `\'x`, not `e`.
It also fails when the close character is configured as the backslash: with
`e` empty and `x` behind the close character, the close character starts a
pair and no chunk is submitted. -/
theorem dangling_backslash_escapes_close :
    closes_escaped Config.default.inline_close [backslash] = true ∧
      ((Preprocessor.init Config.default ()).expand_inline silent_evaluator
        (Config.default.inline_open ++ [backslash] ++ [Config.default.inline_close]
          ++ [])).1.submitted = [] ∧
      ((Preprocessor.init Config.default ()).expand_inline silent_evaluator
        (Config.default.inline_open ++ [backslash] ++ [Config.default.inline_close]
          ++ ['x', apostrophe])).1.submitted
        = [{ code := inline_chunk [backslash, apostrophe, 'x'],
             chunk_name := inline_chunk_name [] 0 }] ∧
      closes_escaped backslash [] = true ∧
      ((Preprocessor.init { Config.default with inline_close := backslash } ()).expand_inline
        silent_evaluator
        (Config.default.inline_open ++ [] ++ [backslash] ++ ['x'])).1.submitted = [] := by
  refine ⟨by decide, by decide, by decide, by decide, by decide⟩

/-- C14 (amended): for a close character other than the backslash, as the default
one is, and a line `open ++ e ++ close ++ post` in which every close
character inside `e` is the second element of a pair and `e` does not end in
a backslash without partner: the close scan ends right after `e`, the chunk
submitted is built from exactly `e`, backslashes retained, and the expansion
goes on with `post`.  A close character after an escaped backslash ends the
span, and the counter `depth` changes nothing. -/
theorem inline_span_ends_at_unescaped_close {σ : Type} (ev : Evaluator σ)
    (pp : Preprocessor σ) (e post : Text)
    (hne : pp.cfg_.inline_close ≠ backslash)
    (h1 : closes_escaped pp.cfg_.inline_close e = true) (h2 : dangling e = false) :
    find_close pp.cfg_.inline_close (e ++ pp.cfg_.inline_close :: post) = some e.length ∧
      find_close_depth pp.cfg_.inline_close 1 (e ++ pp.cfg_.inline_close :: post)
        = some e.length ∧
      pp.expand_inline ev (pp.cfg_.inline_open ++ e ++ [pp.cfg_.inline_close] ++ post) =
        (((pp.safe_script ev (inline_chunk e)
              (inline_chunk_name pp.current_file_ pp.current_line_)).1.expand_inline ev
            post).1,
          inline_subst (pp.safe_script ev (inline_chunk e)
              (inline_chunk_name pp.current_file_ pp.current_line_)).2 ++
            ((pp.safe_script ev (inline_chunk e)
              (inline_chunk_name pp.current_file_ pp.current_line_)).1.expand_inline ev
            post).2) ∧
      (pp.safe_script ev (inline_chunk e)
          (inline_chunk_name pp.current_file_ pp.current_line_)).1.submitted
        = pp.submitted ++
          [{ code := "return tostring(".toList ++ e ++ [')'],
             chunk_name := inline_chunk_name pp.current_file_ pp.current_line_ }] ∧
      find_close pp.cfg_.inline_close
        ([backslash, backslash] ++ pp.cfg_.inline_close :: post) = some 2 := by
  have hfc := find_close_of_pairs pp.cfg_.inline_close hne post e h1 h2
  have hline : pp.cfg_.inline_open ++ e ++ [pp.cfg_.inline_close] ++ post
      = pp.cfg_.inline_open ++ (e ++ pp.cfg_.inline_close :: post) := by simp
  have hfind : find pp.cfg_.inline_open
      (pp.cfg_.inline_open ++ (e ++ pp.cfg_.inline_close :: post)) = some 0 :=
    find_of_prefix _ _ (List.prefix_append _ _)
  have hdrop : (pp.cfg_.inline_open ++ (e ++ pp.cfg_.inline_close :: post)).drop
      (0 + pp.cfg_.inline_open.length) = e ++ pp.cfg_.inline_close :: post := by
    simp
  refine ⟨hfc, by rw [find_close_depth_one]; exact hfc, ?_, rfl, ?_⟩
  · rw [hline, expand_inline_span ev pp _ 0 e.length hfind (by rw [hdrop]; exact hfc), hdrop]
    simp
  · exact find_close_of_pairs pp.cfg_.inline_close hne post [backslash, backslash]
      (by simp [closes_escaped]) (by simp [dangling])

theorem inline_span_ends_at_unescaped_close_witness :
    find_close Config.default.inline_close
        (['a', backslash, apostrophe, 'b'] ++ Config.default.inline_close :: [' ', 'c'])
      = some 4 :=
  (inline_span_ends_at_unescaped_close silent_evaluator (Preprocessor.init Config.default ())
    ['a', backslash, apostrophe, 'b'] [' ', 'c'] (by decide) (by decide) (by decide)).1

/-- An open delimiter that stands inside an earlier span is not reached by the
scan: on the line made of the default open delimiter, `x` and the open
delimiter again, nothing follows the second delimiter, yet the close scan of
the first span skips the backslash of the second delimiter with the letter
after it and ends at its apostrophe, so the text `x` followed by the
delimiter without its apostrophe is submitted and the result is the
substitution alone, without the second delimiter. -/
theorem open_delimiter_inside_earlier_span :
    Config.default.inline_open.isPrefixOf
        ((Config.default.inline_open ++ ['x'] ++ Config.default.inline_open).drop 6) = true ∧
      find_close Config.default.inline_close
        ((Config.default.inline_open ++ ['x'] ++ Config.default.inline_open).drop
          (6 + Config.default.inline_open.length)) = none ∧
      ((Preprocessor.init Config.default ()).expand_inline
          (const_evaluator (Except.ok (LuaValue.str ['7'])))
          (Config.default.inline_open ++ ['x'] ++ Config.default.inline_open)).2 = ['7'] ∧
      ((Preprocessor.init Config.default ()).expand_inline
          (const_evaluator (Except.ok (LuaValue.str ['7'])))
          (Config.default.inline_open ++ ['x'] ++ Config.default.inline_open)).1.submitted =
        [{ code := inline_chunk ['x', backslash, 'l', 'u', 'a'],
           chunk_name := inline_chunk_name [] 0 }] ∧
      Config.default.inline_open.isSuffixOf
        ((Preprocessor.init Config.default ()).expand_inline
          (const_evaluator (Except.ok (LuaValue.str ['7'])))
          (Config.default.inline_open ++ ['x'] ++ Config.default.inline_open)).2 = false := by
  decide

/-- C15: when the scan of `expand_inline` stands before a text `a ++ open ++ tail`
whose first open delimiter is the one after `a`, and the close scan finds no
unescaped close character in `tail`, the loop ends there: the result is the
output built so far followed by `a` and the untouched remainder from the
open delimiter on, and the preprocessor object, with its record of submitted
chunks, is unchanged.  A line of that form is returned as it is; and a line
whose first span is terminated and leaves that text to scan gives the text
before the span, the substitution and that text untouched, with the chunk of
the first span the only one submitted. -/
theorem unterminated_span_verbatim {σ : Type} (ev : Evaluator σ) (pp : Preprocessor σ)
    (fuel : Nat) (result a tail : Text)
    (hfirst : ∀ j, j < a.length →
      ¬ pp.cfg_.inline_open <+: (a ++ pp.cfg_.inline_open ++ tail).drop j)
    (hnone : find_close pp.cfg_.inline_close tail = none) :
    expand_loop ev pp.cfg_.inline_open pp.cfg_.inline_close (fuel + 1) pp result
        (a ++ pp.cfg_.inline_open ++ tail)
        = (pp, result ++ a ++ (pp.cfg_.inline_open ++ tail)) ∧
      pp.expand_inline ev (a ++ pp.cfg_.inline_open ++ tail)
        = (pp, a ++ pp.cfg_.inline_open ++ tail) ∧
      (∀ (line : Text) (start len : Nat),
        find pp.cfg_.inline_open line = some start →
        find_close pp.cfg_.inline_close (line.drop (start + pp.cfg_.inline_open.length))
          = some len →
        (line.drop (start + pp.cfg_.inline_open.length)).drop (len + 1)
          = a ++ pp.cfg_.inline_open ++ tail →
        pp.expand_inline ev line =
          ((pp.safe_script ev
              (inline_chunk ((line.drop (start + pp.cfg_.inline_open.length)).take len))
              (inline_chunk_name pp.current_file_ pp.current_line_)).1,
            line.take start ++
              inline_subst (pp.safe_script ev
                (inline_chunk ((line.drop (start + pp.cfg_.inline_open.length)).take len))
                (inline_chunk_name pp.current_file_ pp.current_line_)).2 ++
              (a ++ pp.cfg_.inline_open ++ tail))) := by
  have hfind := find_of_first pp.cfg_.inline_open a tail hfirst
  have hdrop : (a ++ pp.cfg_.inline_open ++ tail).drop (a.length + pp.cfg_.inline_open.length)
      = tail := by
    rw [← List.length_append, List.drop_left]
  have hloop : ∀ (q : Preprocessor σ) (n : Nat) (res : Text),
      expand_loop ev pp.cfg_.inline_open pp.cfg_.inline_close (n + 1) q res
        (a ++ pp.cfg_.inline_open ++ tail) = (q, res ++ (a ++ pp.cfg_.inline_open ++ tail)) :=
    fun q n res => expand_loop_unterminated ev _ _ n q res _ a.length hfind
      (by rw [hdrop]; exact hnone)
  have hline : ∀ q : Preprocessor σ, q.cfg_ = pp.cfg_ →
      q.expand_inline ev (a ++ pp.cfg_.inline_open ++ tail)
        = (q, a ++ pp.cfg_.inline_open ++ tail) := by
    intro q hq
    unfold Preprocessor.expand_inline
    rw [hq]
    simp only [hfind]
    rw [hloop]
    simp
  refine ⟨?_, hline pp rfl, ?_⟩
  · rw [hloop]
    simp
  · intro line start len hopen hclose hrest
    have hq := hline (pp.safe_script ev
      (inline_chunk ((line.drop (start + pp.cfg_.inline_open.length)).take len))
      (inline_chunk_name pp.current_file_ pp.current_line_)).1 rfl
    rw [expand_inline_span ev pp line start len hopen hclose, hrest, hq]

theorem unterminated_span_verbatim_witness :
    (Preprocessor.init Config.default ()).expand_inline silent_evaluator
        ("x ".toList ++ Config.default.inline_open ++ "1+1".toList)
      = (Preprocessor.init Config.default (),
          "x ".toList ++ Config.default.inline_open ++ "1+1".toList) :=
  (unterminated_span_verbatim silent_evaluator (Preprocessor.init Config.default ()) 0 []
    ("x ".toList) ("1+1".toList) (by decide) (by decide)).2.1

/-! ## Theorems about where the scanner writes -/

/-- C16 as stated fails while a diversion is active: a block whose evaluation
calls `divert_begin("x")` leaves the diversion `x` open, and the markup line
`Hi` that follows is appended, with its newline, to the main output, while
the buffer `x` stays empty. -/
theorem markup_line_bypasses_active_diversion :
    ((Preprocessor.init Config.default ()).process
        (diverting_evaluator ['x'] (Except.ok LuaValue.other))
        [".lua".toList, "lroff.divert_begin(x)".toList, ".endlua".toList, "Hi".toList]
        ['f']).2.lroff_.diverts_.stack_ = [['x']] ∧
      ((Preprocessor.init Config.default ()).process
        (diverting_evaluator ['x'] (Except.ok LuaValue.other))
        [".lua".toList, "lroff.divert_begin(x)".toList, ".endlua".toList, "Hi".toList]
        ['f']).2.lroff_.diverts_.get ['x'] = [] ∧
      ((Preprocessor.init Config.default ()).process
        (diverting_evaluator ['x'] (Except.ok LuaValue.other))
        [".lua".toList, "lroff.divert_begin(x)".toList, ".endlua".toList, "Hi".toList]
        ['f']).2.output_.contents = ".lf 4 f".toList ++ [newline] ++ "Hi".toList ++ [newline] := by
  refine ⟨by decide, by decide, by decide⟩

/-- C16 (amended): a markup line processed outside a block is written, after
inline expansion and followed by exactly one newline, to the main output,
whether or not a diversion is active; the write changes no diversion buffer
and not the stack, and when no diversion is active it is what a `writeln`
through the `DivertManager` does. -/
theorem markup_line_written_to_main {σ : Type} (ev : Evaluator σ) (filename : Text)
    (st : ScanState σ) (line : Text) (hout : st.in_lua_block = false)
    (hno : matches_marker st.pp.cfg_.block_open (trimmed line) = false) :
    (process_line ev filename st line).pp.output_.contents =
        (({ st.pp with current_line_ := st.pp.current_line_ + 1 } :
            Preprocessor σ).expand_inline ev line).1.output_.contents ++
          (({ st.pp with current_line_ := st.pp.current_line_ + 1 } :
            Preprocessor σ).expand_inline ev line).2 ++ [newline] ∧
      (process_line ev filename st line).pp.lroff_.diverts_.divs_ =
        (({ st.pp with current_line_ := st.pp.current_line_ + 1 } :
            Preprocessor σ).expand_inline ev line).1.lroff_.diverts_.divs_ ∧
      (process_line ev filename st line).pp.lroff_.diverts_.stack_ =
        (({ st.pp with current_line_ := st.pp.current_line_ + 1 } :
            Preprocessor σ).expand_inline ev line).1.lroff_.diverts_.stack_ ∧
      ((({ st.pp with current_line_ := st.pp.current_line_ + 1 } :
            Preprocessor σ).expand_inline ev line).1.lroff_.diverts_.stack_ = [] →
        (process_line ev filename st line).pp.lroff_.diverts_ =
          (({ st.pp with current_line_ := st.pp.current_line_ + 1 } :
              Preprocessor σ).expand_inline ev line).1.lroff_.diverts_.writeln
            (({ st.pp with current_line_ := st.pp.current_line_ + 1 } :
              Preprocessor σ).expand_inline ev line).2) ∧
      (process_line ev filename st line).in_lua_block = false := by
  rw [process_line_markup ev filename st line hout hno]
  refine ⟨?_, rfl, rfl, ?_, rfl⟩
  · simp [Preprocessor.passthrough, Preprocessor.set_output, Preprocessor.output_,
      OutputBuffer.writeln, OutputBuffer.contents]
  · intro hs
    simp [Preprocessor.passthrough, Preprocessor.set_output, Preprocessor.output_,
      DivertManager.writeln, hs]

theorem markup_line_written_to_main_witness :
    (process_line silent_evaluator ['f']
        (scan_start (Preprocessor.init Config.default ()) ['f']) "Hi".toList).pp.output_.contents
      = (({ (scan_start (Preprocessor.init Config.default ()) ['f']).pp with
              current_line_ := 0 + 1 } : Preprocessor Unit).expand_inline silent_evaluator
            "Hi".toList).1.output_.contents ++
          (({ (scan_start (Preprocessor.init Config.default ()) ['f']).pp with
              current_line_ := 0 + 1 } : Preprocessor Unit).expand_inline silent_evaluator
            "Hi".toList).2 ++ [newline] :=
  (markup_line_written_to_main silent_evaluator ['f']
    (scan_start (Preprocessor.init Config.default ()) ['f']) "Hi".toList rfl (by decide)).1

/-- C17 as stated fails while a diversion is active after the evaluation: a chunk
that calls `divert_begin("x")` and returns the text `r` has `r` appended to
the main output, and the buffer of the active diversion `x` stays empty. -/
theorem block_result_bypasses_active_diversion :
    ((Preprocessor.init Config.default ()).exec_lua
        (diverting_evaluator ['x'] (Except.ok (LuaValue.str ['r'])))
        "return lroff.divert_begin(x)".toList ['f'] 1).1.lroff_.diverts_.stack_ = [['x']] ∧
      ((Preprocessor.init Config.default ()).exec_lua
        (diverting_evaluator ['x'] (Except.ok (LuaValue.str ['r'])))
        "return lroff.divert_begin(x)".toList ['f'] 1).1.lroff_.diverts_.get ['x'] = [] ∧
      ((Preprocessor.init Config.default ()).exec_lua
        (diverting_evaluator ['x'] (Except.ok (LuaValue.str ['r'])))
        "return lroff.divert_begin(x)".toList ['f'] 1).1.output_.contents = ['r'] := by
  refine ⟨by decide, by decide, by decide⟩

/-- C17 (amended): when a block evaluation returns a text `r`, exactly `r`, without
terminator, is appended to the main output, whether or not a diversion is
active after the evaluation, and no diversion buffer is changed by it; an
integer is written the same way as its decimal text; another value, like a
failed evaluation, writes nothing. -/
theorem block_result_written_to_main {σ : Type} (ev : Evaluator σ) (pp : Preprocessor σ)
    (code source_name : Text) (source_line : Nat) :
    (∀ r : Text,
        (pp.safe_script ev code (block_chunk_name source_name source_line)).2
          = Except.ok (LuaValue.str r) →
        (pp.exec_lua ev code source_name source_line).1.output_.contents =
            (pp.safe_script ev code
              (block_chunk_name source_name source_line)).1.output_.contents ++ r ∧
          (pp.exec_lua ev code source_name source_line).1.lroff_.diverts_.divs_ =
            (pp.safe_script ev code
              (block_chunk_name source_name source_line)).1.lroff_.diverts_.divs_ ∧
          (pp.exec_lua ev code source_name source_line).1.lroff_.diverts_.stack_ =
            (pp.safe_script ev code
              (block_chunk_name source_name source_line)).1.lroff_.diverts_.stack_) ∧
      (∀ n : Int,
        (pp.safe_script ev code (block_chunk_name source_name source_line)).2
          = Except.ok (LuaValue.int n) →
        (pp.exec_lua ev code source_name source_line).1.output_.contents =
            (pp.safe_script ev code
              (block_chunk_name source_name source_line)).1.output_.contents
              ++ to_string_int n ∧
          (pp.exec_lua ev code source_name source_line).1.lroff_.diverts_.divs_ =
            (pp.safe_script ev code
              (block_chunk_name source_name source_line)).1.lroff_.diverts_.divs_) ∧
      ((pp.safe_script ev code (block_chunk_name source_name source_line)).2
          = Except.ok LuaValue.other →
        (pp.exec_lua ev code source_name source_line).1 =
          (pp.safe_script ev code (block_chunk_name source_name source_line)).1) ∧
      (∀ msg : Text,
        (pp.safe_script ev code (block_chunk_name source_name source_line)).2
          = Except.error msg →
        (pp.exec_lua ev code source_name source_line).1 =
          (pp.safe_script ev code (block_chunk_name source_name source_line)).1) := by
  refine ⟨?_, ?_, ?_, ?_⟩
  · intro r h
    simp [Preprocessor.exec_lua, h, Preprocessor.set_output, Preprocessor.output_,
      OutputBuffer.write, OutputBuffer.contents]
  · intro n h
    simp [Preprocessor.exec_lua, h, Preprocessor.set_output, Preprocessor.output_,
      OutputBuffer.write, OutputBuffer.contents]
  · intro h
    simp [Preprocessor.exec_lua, h]
  · intro msg h
    simp [Preprocessor.exec_lua, h]

theorem block_result_written_to_main_witness :
    ((Preprocessor.init Config.default ()).exec_lua
        (const_evaluator (Except.ok (LuaValue.int (-12)))) ['x'] ['f'] 1).1.output_.contents
      = ((Preprocessor.init Config.default ()).safe_script
          (const_evaluator (Except.ok (LuaValue.int (-12)))) ['x']
          (block_chunk_name ['f'] 1)).1.output_.contents ++ ['-', '1', '2'] :=
  ((block_result_written_to_main (const_evaluator (Except.ok (LuaValue.int (-12))))
    (Preprocessor.init Config.default ()) ['x'] ['f'] 1).2.1 (-12) rfl).1

/-! ## Theorems about evaluation errors and line accounting -/

/-- Whether the scanner is inside a block after a line does not depend on the
script engine. -/
theorem process_line_in_lua_block {σ : Type} (ev : Evaluator σ) (filename : Text)
    (st : ScanState σ) (line : Text) :
    (process_line ev filename st line).in_lua_block
      = next_in_block st.pp.cfg_ st.in_lua_block line := by
  cases h1 : st.in_lua_block with
  | true =>
    cases h2 : matches_marker st.pp.cfg_.block_close (trimmed line) <;>
      simp [process_line, next_in_block, h1, h2]
  | false =>
    cases h3 : matches_marker st.pp.cfg_.block_open (trimmed line) with
    | false => simp [process_line, next_in_block, h1, h3]
    | true =>
      by_cases h4 : (trimmed line).length > st.pp.cfg_.block_open.length
      · cases h5 : find st.pp.cfg_.block_close
            ((trimmed line).drop (st.pp.cfg_.block_open.length + 1)) <;>
          simp [process_line, next_in_block, h1, h3, h4, h5]
      · simp [process_line, next_in_block, h1, h3, h4]

theorem scan_in_lua_block {σ : Type} (ev : Evaluator σ) (filename : Text)
    (st : ScanState σ) (lines : List Text) :
    (scan ev filename st lines).in_lua_block
      = in_block_after st.pp.cfg_ st.in_lua_block lines := by
  induction lines generalizing st with
  | nil => rfl
  | cons l ls ih =>
    rw [scan_cons, ih, process_line_in_lua_block, (process_line_fields _ _ _ _).1]
    rfl

/-- C18: evaluation errors never fail the scan.  The result of `process` is
decided by the lines and the configuration alone: for an input in which
every opened block is closed it is 0 whatever the script engine does.  A
block whose evaluation fails gets no result text written by the scanner, its
`.lf` directive is still emitted, the scanner is outside with an empty
buffer, and the lines after it are scanned from that state.  An inline span
whose evaluation fails is replaced by the empty text, and the rest of the
line is still expanded. -/
theorem evaluator_errors_do_not_fail {σ : Type} (ev : Evaluator σ) (pp : Preprocessor σ)
    (input : List Text) (filename : Text) :
    ((pp.process ev input filename).1
        = if in_block_after pp.cfg_ false input then 1 else 0) ∧
      (in_block_after pp.cfg_ false input = false → (pp.process ev input filename).1 = 0) ∧
      (∀ (st : ScanState σ) (line msg : Text) (more : List Text),
        st.in_lua_block = true →
        matches_marker st.pp.cfg_.block_close (trimmed line) = true →
        (({ st.pp with current_line_ := st.pp.current_line_ + 1 } :
            Preprocessor σ).safe_script ev st.lua_buf
              (block_chunk_name filename st.lua_block_start)).2 = Except.error msg →
        process_line ev filename st line =
            { pp := (({ st.pp with current_line_ := st.pp.current_line_ + 1 } :
                      Preprocessor σ).safe_script ev st.lua_buf
                        (block_chunk_name filename st.lua_block_start)).1.emit_lf
                      (st.pp.current_line_ + 1 + 1) filename,
              in_lua_block := false, lua_block_start := st.lua_block_start,
              lua_buf := [] } ∧
          scan ev filename st (line :: more) =
            scan ev filename (process_line ev filename st line) more) ∧
      (∀ (q : Preprocessor σ) (line msg : Text) (start len : Nat),
        find q.cfg_.inline_open line = some start →
        find_close q.cfg_.inline_close
          (line.drop (start + q.cfg_.inline_open.length)) = some len →
        (q.safe_script ev
          (inline_chunk ((line.drop (start + q.cfg_.inline_open.length)).take len))
          (inline_chunk_name q.current_file_ q.current_line_)).2 = Except.error msg →
        q.expand_inline ev line =
          (((q.safe_script ev
                (inline_chunk ((line.drop (start + q.cfg_.inline_open.length)).take len))
                (inline_chunk_name q.current_file_ q.current_line_)).1.expand_inline ev
              ((line.drop (start + q.cfg_.inline_open.length)).drop (len + 1))).1,
            line.take start ++
              ((q.safe_script ev
                (inline_chunk ((line.drop (start + q.cfg_.inline_open.length)).take len))
                (inline_chunk_name q.current_file_ q.current_line_)).1.expand_inline ev
              ((line.drop (start + q.cfg_.inline_open.length)).drop (len + 1))).2)) := by
  have hblock : (scan ev filename (scan_start pp filename) input).in_lua_block
      = in_block_after pp.cfg_ false input :=
    scan_in_lua_block ev filename (scan_start pp filename) input
  refine ⟨?_, ?_, ?_, ?_⟩
  · unfold Preprocessor.process
    rw [hblock]
    split <;> rfl
  · intro h
    unfold Preprocessor.process
    rw [hblock, h]
    rfl
  · intro st line msg more hin hclose herr
    refine ⟨?_, scan_cons ev filename st line more⟩
    simp only [process_line, hin, if_true, hclose, Preprocessor.exec_lua, herr]
    rfl
  · intro q line msg start len hfind hclose herr
    rw [expand_inline_span ev q line start len hfind hclose, herr]
    simp [inline_subst]

theorem evaluator_errors_do_not_fail_witness :
    ((Preprocessor.init Config.default ()).process
        (const_evaluator (Except.error "boom".toList))
        [".lua".toList, "error()".toList, ".endlua".toList,
          "a ".toList ++ Config.default.inline_open ++ "1+".toList
            ++ [Config.default.inline_close] ++ " b".toList] ['f']).1 = 0 :=
  (evaluator_errors_do_not_fail (const_evaluator (Except.error "boom".toList))
    (Preprocessor.init Config.default ())
    [".lua".toList, "error()".toList, ".endlua".toList,
      "a ".toList ++ Config.default.inline_open ++ "1+".toList
        ++ [Config.default.inline_close] ++ " b".toList] ['f']).2.1 (by decide)

theorem emit_lf_enabled {σ : Type} (q : Preprocessor σ) (n : Nat) (file : Text)
    (h : q.cfg_.emit_lf = true) :
    (q.emit_lf n file).output_.contents =
        q.output_.contents ++ ['.', 'l', 'f', ' '] ++ to_string n ++ [' '] ++ file
          ++ [newline] ∧
      (q.emit_lf n file).lroff_.diverts_.divs_ = q.lroff_.diverts_.divs_ ∧
      (q.emit_lf n file).lroff_.diverts_.stack_ = q.lroff_.diverts_.stack_ := by
  simp [Preprocessor.emit_lf, h, Preprocessor.set_output, Preprocessor.output_,
    OutputBuffer.writeln, OutputBuffer.contents, lf_line]

theorem emit_lf_disabled {σ : Type} (q : Preprocessor σ) (n : Nat) (file : Text)
    (h : q.cfg_.emit_lf = false) : q.emit_lf n file = q := by
  simp [Preprocessor.emit_lf, h]

/-- A block evaluation that neither touches the main output nor returns a value
to write leaves the output as it was. -/
theorem exec_lua_quiet {σ : Type} (ev : Evaluator σ)
    (hmain : ∀ lua lroff code name,
      (ev lua lroff code name).lroff.diverts_.main_ = lroff.diverts_.main_)
    (hret : ∀ lua lroff code name,
      (ev lua lroff code name).outcome = Except.ok LuaValue.other ∨
        ∃ msg, (ev lua lroff code name).outcome = Except.error msg)
    (pp : Preprocessor σ) (code source_name : Text) (source_line : Nat) :
    (pp.exec_lua ev code source_name source_line).1.output_ = pp.output_ ∧
      (pp.exec_lua ev code source_name source_line).1.cfg_ = pp.cfg_ := by
  refine ⟨?_, (exec_lua_fields _ _ _ _ _).1⟩
  have hm := hmain pp.lua_ pp.lroff_ code (block_chunk_name source_name source_line)
  rcases hret pp.lua_ pp.lroff_ code (block_chunk_name source_name source_line) with h | ⟨msg, h⟩
  · simp [Preprocessor.exec_lua, Preprocessor.safe_script, h, Preprocessor.output_, hm]
  · simp [Preprocessor.exec_lua, Preprocessor.safe_script, h, Preprocessor.output_, hm]

theorem process_line_quiet {σ : Type} (ev : Evaluator σ)
    (hmain : ∀ lua lroff code name,
      (ev lua lroff code name).lroff.diverts_.main_ = lroff.diverts_.main_)
    (hret : ∀ lua lroff code name,
      (ev lua lroff code name).outcome = Except.ok LuaValue.other ∨
        ∃ msg, (ev lua lroff code name).outcome = Except.error msg)
    (filename : Text) (st : ScanState σ) (line : Text)
    (hlf : st.pp.cfg_.emit_lf = false)
    (hblock : (st.in_lua_block || matches_marker st.pp.cfg_.block_open (trimmed line))
      = true) :
    (process_line ev filename st line).pp.output_ = st.pp.output_ := by
  have hq := exec_lua_quiet ev hmain hret
  cases h1 : st.in_lua_block with
  | true =>
    cases h2 : matches_marker st.pp.cfg_.block_close (trimmed line) with
    | true =>
      rw [process_line_close ev filename st line h1 h2]
      simp only []
      rw [emit_lf_disabled _ _ _ (by rw [(hq _ _ _ _).2]; exact hlf), (hq _ _ _ _).1]
      rfl
    | false => simp [process_line, h1, h2, Preprocessor.output_]
  | false =>
    have h3 : matches_marker st.pp.cfg_.block_open (trimmed line) = true := by
      simpa [h1] using hblock
    by_cases h4 : (trimmed line).length > st.pp.cfg_.block_open.length
    · cases h5 : find st.pp.cfg_.block_close
          ((trimmed line).drop (st.pp.cfg_.block_open.length + 1)) with
      | some ec =>
        simp only [process_line, h1, Bool.false_eq_true, if_false, h3, if_true, h4, h5]
        rw [emit_lf_disabled _ _ _ (by rw [(hq _ _ _ _).2]; exact hlf), (hq _ _ _ _).1]
        rfl
      | none => simp [process_line, h1, h3, h4, h5, Preprocessor.output_]
    · simp [process_line, h1, h3, h4, Preprocessor.output_]

theorem scan_quiet {σ : Type} (ev : Evaluator σ)
    (hmain : ∀ lua lroff code name,
      (ev lua lroff code name).lroff.diverts_.main_ = lroff.diverts_.main_)
    (hret : ∀ lua lroff code name,
      (ev lua lroff code name).outcome = Except.ok LuaValue.other ∨
        ∃ msg, (ev lua lroff code name).outcome = Except.error msg)
    (filename : Text) (st : ScanState σ) (lines : List Text)
    (hlf : st.pp.cfg_.emit_lf = false)
    (hblocks : only_blocks st.pp.cfg_ st.in_lua_block lines = true) :
    (scan ev filename st lines).pp.output_ = st.pp.output_ := by
  induction lines generalizing st with
  | nil => rfl
  | cons l ls ih =>
    simp only [only_blocks, Bool.and_eq_true] at hblocks
    rw [scan_cons, ih (process_line ev filename st l)
      (by rw [(process_line_fields _ _ _ _).1]; exact hlf)
      (by rw [(process_line_fields _ _ _ _).1, process_line_in_lua_block]; exact hblocks.2)]
    exact process_line_quiet ev hmain hret filename st l hlf hblocks.1

/-- C19: after each consumed block the scanner calls `emit_lf` with the number of
the input line that follows the last line of the block, for a block closed
by a close line as for a same-line block.  With line accounting enabled that
appends exactly the line `.lf n file` with its newline to the output and
changes nothing else; with line accounting disabled it writes nothing, so
that an input made only of blocks whose evaluations produce no output leaves
the output as it was. -/
theorem lf_directive_after_block {σ : Type} (ev : Evaluator σ) (pp : Preprocessor σ)
    (filename : Text) :
    (∀ (pre : List Text) (line : Text) (q : Preprocessor σ),
      (((scan ev filename (scan_start pp filename) pre).in_lua_block = true ∧
          matches_marker pp.cfg_.block_close (trimmed line) = true ∧
          q = (({ (scan ev filename (scan_start pp filename) pre).pp with
                  current_line_ := pre.length + 1 } : Preprocessor σ).exec_lua ev
                (scan ev filename (scan_start pp filename) pre).lua_buf filename
                (scan ev filename (scan_start pp filename) pre).lua_block_start).1) ∨
        ((scan ev filename (scan_start pp filename) pre).in_lua_block = false ∧
          ∃ (sep : Char) (t a b : Text), (sep = ' ' ∨ sep = tab) ∧
            trimmed line = pp.cfg_.block_open ++ sep :: t ∧
            t = a ++ pp.cfg_.block_close ++ b ∧
            (∀ j, j < a.length → ¬ pp.cfg_.block_close <+: t.drop j) ∧
            q = (({ (scan ev filename (scan_start pp filename) pre).pp with
                    current_line_ := pre.length + 1 } : Preprocessor σ).exec_lua ev
                  a filename (pre.length + 1)).1)) →
      (scan ev filename (scan_start pp filename) (pre ++ [line])).pp
          = q.emit_lf (pre.length + 1 + 1) filename ∧
        (scan ev filename (scan_start pp filename) (pre ++ [line])).in_lua_block = false ∧
        (pp.cfg_.emit_lf = true →
          (scan ev filename (scan_start pp filename) (pre ++ [line])).pp.output_.contents =
              q.output_.contents ++ ['.', 'l', 'f', ' '] ++ to_string (pre.length + 1 + 1)
                ++ [' '] ++ filename ++ [newline] ∧
            (scan ev filename (scan_start pp filename)
                (pre ++ [line])).pp.lroff_.diverts_.divs_ = q.lroff_.diverts_.divs_ ∧
            (scan ev filename (scan_start pp filename)
                (pre ++ [line])).pp.lroff_.diverts_.stack_ = q.lroff_.diverts_.stack_) ∧
        (pp.cfg_.emit_lf = false →
          (scan ev filename (scan_start pp filename) (pre ++ [line])).pp = q)) ∧
      (∀ input : List Text,
        pp.cfg_.emit_lf = false →
        only_blocks pp.cfg_ false input = true →
        (∀ lua lroff code name,
          (ev lua lroff code name).lroff.diverts_.main_ = lroff.diverts_.main_) →
        (∀ lua lroff code name,
          (ev lua lroff code name).outcome = Except.ok LuaValue.other ∨
            ∃ msg, (ev lua lroff code name).outcome = Except.error msg) →
        (pp.process ev input filename).2.output_ = pp.output_) := by
  constructor
  · intro pre line q hq
    have hcfg : (scan ev filename (scan_start pp filename) pre).pp.cfg_ = pp.cfg_ :=
      (scan_fields ev filename (scan_start pp filename) pre).1
    have hline : (scan ev filename (scan_start pp filename) pre).pp.current_line_
        = pre.length := by
      rw [(scan_fields ev filename (scan_start pp filename) pre).2]
      exact Nat.zero_add _
    have hstep : (scan ev filename (scan_start pp filename) (pre ++ [line]))
        = { pp := q.emit_lf (pre.length + 1 + 1) filename, in_lua_block := false,
            lua_block_start :=
              (scan ev filename (scan_start pp filename) (pre ++ [line])).lua_block_start,
            lua_buf := (scan ev filename (scan_start pp filename) (pre ++ [line])).lua_buf } := by
      rw [scan_append, scan_cons, scan_nil]
      rcases hq with ⟨hin, hclose, hq⟩ | ⟨hout, sep, t, a, b, hsep, htrim, ht, hfirst, hq⟩
      · rw [process_line_close ev filename _ line hin (by rw [hcfg]; exact hclose), hline, hq]
      · rw [process_line_same_line ev filename _ line t a b sep hout hsep
          (by rw [hcfg]; exact htrim) (by rw [hcfg]; exact ht)
          (by rw [hcfg]; exact hfirst), hline, hq]
    have hqcfg : q.cfg_ = pp.cfg_ := by
      rcases hq with ⟨_, _, hq⟩ | ⟨_, _, _, _, _, _, _, _, _, hq⟩
      · rw [hq, (exec_lua_fields _ _ _ _ _).1]
        exact hcfg
      · rw [hq, (exec_lua_fields _ _ _ _ _).1]
        exact hcfg
    refine ⟨by rw [hstep], by rw [hstep], ?_, ?_⟩
    · intro hlf
      rw [hstep]
      exact emit_lf_enabled q _ filename (by rw [hqcfg]; exact hlf)
    · intro hlf
      rw [hstep]
      exact emit_lf_disabled q _ filename (by rw [hqcfg]; exact hlf)
  · intro input hlf hblocks hmain hret
    have := scan_quiet ev hmain hret filename (scan_start pp filename) input hlf hblocks
    unfold Preprocessor.process
    split
    · exact this
    · exact this

theorem lf_directive_after_block_witness :
    ((scan silent_evaluator ['f'] (scan_start (Preprocessor.init Config.default ()) ['f'])
        ([".lua".toList, "x = 1".toList] ++ [".endlua".toList])).pp.output_.contents
      = [] ++ ['.', 'l', 'f', ' '] ++ to_string (2 + 1 + 1) ++ [' '] ++ ['f'] ++ [newline]) ∧
      ((Preprocessor.init { Config.default with emit_lf := false } ()).process
        silent_evaluator
        [".lua".toList, "x = 1".toList, ".endlua".toList, ".lua y = 2 .endlua".toList]
        ['f']).2.output_
      = (Preprocessor.init { Config.default with emit_lf := false } ()).output_ :=
  ⟨(((lf_directive_after_block silent_evaluator (Preprocessor.init Config.default ())
      ['f']).1 [".lua".toList, "x = 1".toList] ".endlua".toList _
      (Or.inl ⟨by decide, by decide, rfl⟩)).2.2.1 rfl).1,
   (lf_directive_after_block silent_evaluator
    (Preprocessor.init { Config.default with emit_lf := false } ()) ['f']).2
    [".lua".toList, "x = 1".toList, ".endlua".toList, ".lua y = 2 .endlua".toList]
    rfl (by decide) (fun _ _ _ _ => rfl) (fun _ _ _ _ => Or.inl rfl)⟩

/-! ## Theorems about `DivertManager::get` -/

theorem write_get_on_top (d : DivertManager) (deeper : List Text) (top t : Text)
    (h : d.stack_ = deeper ++ [top]) :
    (d.write t).get top = d.get top ++ t ∧ (d.write t).stack_ = d.stack_ := by
  rw [write_on_top d deeper top t h]
  simp only [DivertManager.get, divs_append, if_true]
  exact ⟨trivial, trivial⟩

/-- C20: `get(name)` returns the whole text of the buffer called `name`, which is
everything written to it while it was the active diversion, and the empty
text when there is no such buffer; as a `const` member it returns the text
only and leaves the object, with its buffers, stack and main output, as it
was, creating no buffer. -/
theorem get_returns_buffer (d : DivertManager) (name : Text) :
    (∀ b : Text, d.divs_ name = some b → d.get name = b) ∧
      (d.divs_ name = none → d.get name = [] ∧ d.exists_ name = false) ∧
      (∀ (deeper ts : List Text), d.stack_ = deeper ++ [name] →
        (ts.foldl DivertManager.write d).get name
          = d.get name ++ ts.foldr (fun t acc => t ++ acc) []) ∧
      (d.get_call name).1 = d.get name ∧
      (d.get_call name).2 = d ∧
      (d.get_call name).2.exists_ name = d.exists_ name ∧
      (∀ l : LroffLibrary, l.diverts_ = d → l.divert_get name = d.get name) := by
  refine ⟨?_, ?_, ?_, rfl, rfl, rfl, ?_⟩
  · intro b h
    simp [DivertManager.get, h]
  · intro h
    simp [DivertManager.get, DivertManager.exists_, h]
  · intro deeper ts
    induction ts generalizing d with
    | nil => simp
    | cons t ts ih =>
      intro h
      have hw := write_get_on_top d deeper name t h
      rw [List.foldl_cons, ih (d.write t) (by rw [hw.2]; exact h), hw.1]
      simp
  · rintro l rfl
    rfl

theorem get_returns_buffer_witness :
    ([['A'], ['B', 'C']].foldl DivertManager.write (DivertManager.fresh.begin ['x'])).get ['x']
        = (DivertManager.fresh.begin ['x']).get ['x'] ++
          [['A'], ['B', 'C']].foldr (fun t acc => t ++ acc) [] ∧
      DivertManager.fresh.get ['y'] = [] :=
  ⟨(get_returns_buffer (DivertManager.fresh.begin ['x']) ['x']).2.2.1 [] [['A'], ['B', 'C']] rfl,
    ((get_returns_buffer DivertManager.fresh ['y']).2.1 rfl).1⟩

/-! ## Theorems about `clear` and `erase` -/

/-- C21: `clear(name)` on an existing buffer makes `get(name)` empty and keeps the
buffer present; the stack, every other buffer and the main output are
unchanged, so that when `name` is the active diversion a later write goes to
it.  On an unknown name `clear` leaves the whole object unchanged and creates
no buffer.  `divert_clear` is this call. -/
theorem clear_empties_in_place (d : DivertManager) (name : Text) :
    (d.exists_ name = true →
        (d.clear name).get name = [] ∧ (d.clear name).exists_ name = true ∧
          (d.clear name).stack_ = d.stack_ ∧ (d.clear name).main_ = d.main_ ∧
          (∀ n : Text, n ≠ name → (d.clear name).divs_ n = d.divs_ n) ∧
          (∀ (deeper : List Text) (t : Text), d.stack_ = deeper ++ [name] →
            ((d.clear name).write t).get name = t)) ∧
      (d.exists_ name = false →
        d.clear name = d ∧ (d.clear name).exists_ name = false) ∧
      (∀ l : LroffLibrary, l.diverts_ = d →
        (l.divert_clear name).diverts_ = d.clear name ∧
          (l.divert_clear name).state_ = l.state_) := by
  refine ⟨?_, ?_, ?_⟩
  · intro h
    cases hb : d.divs_ name with
    | none => simp [DivertManager.exists_, hb] at h
    | some b =>
      have hc : d.clear name =
          { d with divs_ := fun n => if n = name then some [] else d.divs_ n } := by
        simp [DivertManager.clear, hb]
      rw [hc]
      refine ⟨by simp [DivertManager.get], by simp [DivertManager.exists_], rfl, rfl, ?_, ?_⟩
      · intro n hn
        simp [hn]
      · intro deeper t hs
        rw [write_on_top (DivertManager.mk d.main_ d.stack_
          (fun n => if n = name then some [] else d.divs_ n)) deeper name t hs]
        simp [DivertManager.get, divs_append]
  · intro h
    cases hb : d.divs_ name with
    | none => simp [DivertManager.clear, DivertManager.exists_, hb]
    | some b => simp [DivertManager.exists_, hb] at h
  · rintro l rfl
    exact ⟨rfl, rfl⟩

theorem clear_empties_in_place_witness :
    ((((DivertManager.fresh.begin ['x']).write ['A']).clear ['x']).write ['B']).get ['x']
        = ['B'] ∧
      (DivertManager.fresh.clear ['y']) = DivertManager.fresh :=
  ⟨((clear_empties_in_place ((DivertManager.fresh.begin ['x']).write ['A']) ['x']).1
      (by decide)).2.2.2.2.2 [] ['B'] rfl,
    ((clear_empties_in_place DivertManager.fresh ['y']).2.1 rfl).1⟩

/-- C22: after `erase(name)`, `get(name)` is empty and `exists(name)` is false;
a following `begin(name); write(t)` gives `get(name) = t` for every text `t`,
whatever the buffer held before the erase. -/
theorem erase_then_begin_starts_fresh (d : DivertManager) (name t : Text) :
    (d.erase name).get name = [] ∧ (d.erase name).exists_ name = false ∧
      (((d.erase name).begin name).write t).get name = t ∧
      (∀ n : Text, n ≠ name → (d.erase name).divs_ n = d.divs_ n) ∧
      (d.erase name).stack_ = d.stack_ ∧ (d.erase name).main_ = d.main_ := by
  refine ⟨by simp [DivertManager.erase, DivertManager.get],
    by simp [DivertManager.erase, DivertManager.exists_], ?_, ?_, rfl, rfl⟩
  · rw [write_on_top ((d.erase name).begin name) d.stack_ name t
      (by simp [DivertManager.begin, DivertManager.erase])]
    simp [DivertManager.get, divs_append, DivertManager.begin, divs_try_emplace,
      DivertManager.erase]
  · intro n hn
    simp [DivertManager.erase, hn]

/-! ## Theorems about tables and lists -/

theorem writeln_eq_write (d : DivertManager) (t : Text) :
    d.writeln t = d.write (t ++ [newline]) := by
  unfold DivertManager.writeln DivertManager.write
  split <;> simp [OutputBuffer.writeln, OutputBuffer.write]

theorem write_write (d : DivertManager) (a b : Text) :
    (d.write a).write b = d.write (a ++ b) := by
  cases h : d.stack_.getLast? with
  | none => simp [DivertManager.write, h, OutputBuffer.write]
  | some top =>
    simp only [DivertManager.write, h]
    congr 1
    funext n
    by_cases hn : n = top
    · simp [divs_append, hn]
    · simp [divs_append, hn]

/-- A `writeln` after a write to the current target extends the text written. -/
theorem emitln_after_write (l : LroffLibrary) (T t : Text) :
    ({ l with diverts_ := l.diverts_.write T } : LroffLibrary).emitln t =
      { l with diverts_ := l.diverts_.write (T ++ (t ++ [newline])) } := by
  simp [LroffLibrary.emitln, writeln_eq_write, write_write]

theorem emitln_eq_write (l : LroffLibrary) (t : Text) :
    l.emitln t = { l with diverts_ := l.diverts_.write (t ++ [newline]) } := by
  simp [LroffLibrary.emitln, writeln_eq_write]

theorem write_lines_after_write (d : DivertManager) (T : Text) (ls : List Text) :
    write_lines (d.write T) ls = d.write (T ++ block_source ls) := by
  induction ls generalizing T with
  | nil => simp [write_lines, block_source]
  | cons x xs ih =>
    have := ih (T ++ (x ++ [newline]))
    simp only [write_lines, List.foldl_cons] at this ⊢
    rw [writeln_eq_write, write_write, this]
    simp [block_source]

/-- Writing the lines of a non-empty list is one write of their text. -/
theorem write_lines_eq_write (d : DivertManager) (x : Text) (xs : List Text) :
    write_lines d (x :: xs) = d.write (block_source (x :: xs)) := by
  have := write_lines_after_write d (x ++ [newline]) xs
  simp only [write_lines, List.foldl_cons] at this ⊢
  rw [writeln_eq_write, this]
  simp [block_source]

theorem join_loop_succ (sep : Char) (i : Nat) (line : Text) (cells : List Text) :
    join_loop sep (i + 1) line cells
      = line ++ cells.foldr (fun c acc => sep :: (c ++ acc)) [] := by
  induction cells generalizing i line with
  | nil => simp [join_loop]
  | cons c cs ih =>
    simp only [join_loop, ih, List.foldr_cons]
    simp

theorem joined_cons (sep : Char) (c : Text) (cs : List Text) :
    joined sep (c :: cs) = c ++ cs.foldr (fun c acc => sep :: (c ++ acc)) [] := by
  induction cs generalizing c with
  | nil => simp [joined]
  | cons d rest ih => simp [joined, ih]

theorem join_loop_eq_joined (sep : Char) (cells : List Text) :
    join_loop sep 0 [] cells = joined sep cells := by
  cases cells with
  | nil => rfl
  | cons c cs => simp [join_loop, join_loop_succ, joined_cons]

theorem format_loop_eq (i : Nat) (acc : Text × Text) (hs : List Text) :
    format_loop i acc hs =
      (join_loop ' ' i acc.1 (List.replicate hs.length ['c', 'b']),
        join_loop ' ' i acc.2 (List.replicate hs.length ['l'])) := by
  induction hs generalizing i acc with
  | nil => simp [format_loop, join_loop]
  | cons h hs ih => simp [format_loop, join_loop, ih, List.replicate_succ]

theorem rows_after_write (l : LroffLibrary) (T : Text) (g : List Text → Text)
    (rows : List (List Text)) :
    rows.foldl (fun acc row => acc.emitln (g row))
        ({ l with diverts_ := l.diverts_.write T } : LroffLibrary)
      = { l with diverts_ := l.diverts_.write (T ++ block_source (rows.map g)) } := by
  induction rows generalizing T with
  | nil => simp [block_source]
  | cons r rs ih =>
    rw [List.foldl_cons, emitln_after_write, ih]
    simp [block_source]

/-- C23: for every header list `h`, row list `r` and caller format `f`,
`table_emit` writes to the current target exactly the text `.TS`, the format
`f` when it is not empty, `cb` for each header cell joined by spaces, `l` for
each header cell joined by spaces and closed by a period, the header cells
joined by tabs, the rule `_`, each row with its cells joined by tabs, and
`.TE`, every line ended by a newline; the library state is otherwise
unchanged.  For `h = [A, B]`, `r = [[1, 2]]` and empty `f` on a fresh object
the output is the seven lines of the example. -/
theorem table_emit_writes_table (l : LroffLibrary) (h : List Text) (r : List (List Text))
    (f : Text) :
    l.table_emit h r f = { l with diverts_ := l.diverts_.write (table_text h r f) } ∧
      (({ diverts_ := DivertManager.fresh, state_ := DocumentState.initial } :
          LroffLibrary).table_emit [['A'], ['B']] [[['1'], ['2']]] []).diverts_.main_.contents
        = ".TS".toList ++ [newline] ++ "cb cb".toList ++ [newline] ++ "l l.".toList
          ++ [newline] ++ ['A', tab, 'B', newline] ++ ['_', newline]
          ++ ['1', tab, '2', newline] ++ ".TE".toList ++ [newline] := by
  refine ⟨?_, by decide⟩
  unfold LroffLibrary.table_emit
  simp only []
  rw [emitln_eq_write l]
  have h2 : (if f.isEmpty then
        ({ l with diverts_ := l.diverts_.write (['.', 'T', 'S'] ++ [newline]) } : LroffLibrary)
      else ({ l with diverts_ := l.diverts_.write (['.', 'T', 'S'] ++ [newline]) } :
        LroffLibrary).emitln f)
      = LroffLibrary.mk (l.diverts_.write
          (['.', 'T', 'S', newline] ++ (if f = [] then [] else f ++ [newline]))) l.state_ := by
    cases f with
    | nil => simp
    | cons c cs => simp [emitln_after_write]
  rw [h2, format_loop_eq, emitln_after_write, emitln_after_write, emitln_after_write,
    emitln_after_write, rows_after_write, emitln_after_write]
  simp only [join_loop_eq_joined, table_text]
  have hmap : List.map (fun row => join_loop tab 0 [] row) r = List.map (joined tab) r := by
    apply List.map_congr_left
    intro row _
    exact join_loop_eq_joined tab row
  simp [hmap]

theorem digitChar_value : ∀ d : Nat, d < 10 →
    (Nat.digitChar d).toNat - 48 = d ∧ Nat.digitChar d ≠ newline := by
  decide

/-- The digits `toDigitsCore` puts before `ds`: their value is `n`, and none of
them is a newline. -/
theorem toDigitsCore_spec (fuel : Nat) : ∀ n : Nat, n < fuel →
    ∃ D : Text, (∀ ds, Nat.toDigitsCore 10 fuel n ds = D ++ ds) ∧ digits_value D = n ∧
      newline ∉ D := by
  induction fuel with
  | zero => intro n h; omega
  | succ k ih =>
    intro n hn
    by_cases h0 : n / 10 = 0
    · have hlt : n < 10 := by omega
      refine ⟨[Nat.digitChar n], ?_, ?_, ?_⟩
      · intro ds
        simp [Nat.toDigitsCore, h0, Nat.mod_eq_of_lt hlt]
      · simp [digits_value, (digitChar_value n hlt).1]
      · simp only [List.mem_singleton]
        exact fun h => (digitChar_value n hlt).2 h.symm
    · obtain ⟨D, hD, hv, hnl⟩ := ih (n / 10) (by omega)
      have hm : n % 10 < 10 := Nat.mod_lt _ (by decide)
      refine ⟨D ++ [Nat.digitChar (n % 10)], ?_, ?_, ?_⟩
      · intro ds
        simp [Nat.toDigitsCore, h0, hD]
      · simp only [digits_value, List.foldl_append, List.foldl_cons, List.foldl_nil]
        have : List.foldl (fun acc c => 10 * acc + (c.toNat - 48)) 0 D = n / 10 := hv
        rw [this, (digitChar_value _ hm).1]
        omega
      · intro hmem
        rcases List.mem_append.1 hmem with h | h
        · exact hnl h
        · exact (digitChar_value _ hm).2 (List.mem_singleton.1 h).symm

theorem to_string_value (n : Nat) : digits_value (to_string n) = n ∧ newline ∉ to_string n := by
  obtain ⟨D, hD, hv, hnl⟩ := toDigitsCore_spec (n + 1) n (by omega)
  have : to_string n = D := by
    simp [to_string, Nat.toDigits, hD]
  rw [this]
  exact ⟨hv, hnl⟩

/-- The decimal text of a number determines the number. -/
theorem to_string_injective (i j : Nat) (h : to_string i = to_string j) : i = j := by
  rw [← (to_string_value i).1, ← (to_string_value j).1, h]

theorem write_lines_append (d : DivertManager) (a b : List Text) :
    write_lines d (a ++ b) = write_lines (write_lines d a) b := by
  simp [write_lines, List.foldl_append]

theorem numbered_loop_eq (i : Nat) (l : LroffLibrary) (items : List Text) :
    numbered_loop i l items =
      { l with diverts_ := write_lines l.diverts_ (numbered_lines i items) } := by
  induction items generalizing i l with
  | nil => rfl
  | cons item rest ih =>
    have hd : ".IP ".toList ++ (to_string (i + 1) ++ ['.']) ++ " 4".toList
        = ".IP ".toList ++ to_string (i + 1) ++ ". 4".toList := by
      have : (". 4".toList : Text) = ['.'] ++ " 4".toList := by decide
      rw [this]
      simp
    simp only [numbered_loop, ih, numbered_lines, hd]
    rfl

theorem numbered_lines_length (i : Nat) (items : List Text) :
    (numbered_lines i items).length = 2 * items.length := by
  induction items generalizing i with
  | nil => rfl
  | cons item rest ih =>
    simp only [numbered_lines, List.length_cons, ih]
    omega

theorem numbered_lines_get (k : Nat) (items : List Text) (i : Nat) (hi : i < items.length) :
    (numbered_lines k items)[2 * i]?
        = some (".IP ".toList ++ to_string (k + i + 1) ++ ". 4".toList) ∧
      (numbered_lines k items)[2 * i + 1]? = items[i]? := by
  induction items generalizing k i with
  | nil => simp at hi
  | cons item rest ih =>
    cases i with
    | zero => simp [numbered_lines]
    | succ j =>
      have hj : j < rest.length := by simpa using hi
      have := ih (k + 1) j hj
      have e1 : 2 * (j + 1) = (2 * j) + 1 + 1 := by omega
      have e3 : k + 1 + j + 1 = k + (j + 1) + 1 := by omega
      rw [e1]
      simp only [numbered_lines, List.getElem?_cons_succ]
      rw [this.1, this.2, e3]
      exact ⟨rfl, rfl⟩

theorem numbered_lines_no_newline (i : Nat) (items : List Text)
    (h : ∀ x ∈ items, newline ∉ x) : ∀ x ∈ numbered_lines i items, newline ∉ x := by
  induction items generalizing i with
  | nil => simp [numbered_lines]
  | cons item rest ih =>
    intro x hx
    simp only [numbered_lines, List.mem_cons] at hx
    rcases hx with hx | hx | hx
    · rw [hx]
      intro hmem
      rcases List.mem_append.1 hmem with h1 | h1
      · rcases List.mem_append.1 h1 with h2 | h2
        · revert h2
          decide
        · exact (to_string_value (i + 1)).2 h2
      · revert h1
        decide
    · rw [hx]
      exact h item (List.mem_cons_self _ _)
    · exact ih (i + 1) (fun y hy => h y (List.mem_cons_of_mem _ hy)) x hx

/-- C24: `numbered_list` writes, for each index `i` from 0 in order, the directive
line `.IP ` followed by the decimal of `i + 1`, a period and ` 4`, and then
the text of item `i` as the next line; two items get the labels `1.` and
`2.`, and an empty list writes nothing. -/
theorem numbered_list_lines (l : LroffLibrary) (items : List Text) :
    l.numbered_list items =
        { l with diverts_ := write_lines l.diverts_ (numbered_lines 0 items) } ∧
      (numbered_lines 0 items).length = 2 * items.length ∧
      (∀ i : Nat, i < items.length →
        (numbered_lines 0 items)[2 * i]?
            = some (".IP ".toList ++ to_string (i + 1) ++ ". 4".toList) ∧
          (numbered_lines 0 items)[2 * i + 1]? = items[i]?) ∧
      (∀ a b : Text, numbered_lines 0 [a, b] = [".IP 1. 4".toList, a, ".IP 2. 4".toList, b]) ∧
      l.numbered_list [] = l ∧
      (∀ (x : Text) (xs : List Text),
        l.numbered_list (x :: xs) =
          { l with diverts_ := l.diverts_.write (block_source (numbered_lines 0 (x :: xs))) })
      := by
  refine ⟨numbered_loop_eq 0 l items, numbered_lines_length 0 items, ?_, ?_, rfl, ?_⟩
  · intro i hi
    have := numbered_lines_get 0 items i hi
    simpa using this
  · intro a b
    have h1 : ".IP ".toList ++ to_string (0 + 1) ++ ". 4".toList = ".IP 1. 4".toList := by
      decide
    have h2 : ".IP ".toList ++ to_string (0 + 1 + 1) ++ ". 4".toList = ".IP 2. 4".toList := by
      decide
    simp only [numbered_lines, h1, h2]
  · intro x xs
    show numbered_loop 0 l (x :: xs) = _
    rw [numbered_loop_eq]
    simp only [numbered_lines]
    rw [write_lines_eq_write]

theorem numbered_list_lines_witness :
    (({ diverts_ := DivertManager.fresh, state_ := DocumentState.initial } :
        LroffLibrary).numbered_list ["one".toList, "two".toList]).diverts_.main_.contents
      = ".IP 1. 4".toList ++ [newline] ++ "one".toList ++ [newline]
        ++ ".IP 2. 4".toList ++ [newline] ++ "two".toList ++ [newline] :=
  ((numbered_list_lines { diverts_ := DivertManager.fresh, state_ := DocumentState.initial }
      ["one".toList, "two".toList]).1 ▸ (by decide))

theorem bullet_list_eq (l : LroffLibrary) (items : List Text) :
    l.bullet_list items = { l with diverts_ := write_lines l.diverts_ (bullet_lines items) } := by
  unfold LroffLibrary.bullet_list
  induction items generalizing l with
  | nil => rfl
  | cons item rest ih =>
    rw [List.foldl_cons, ih]
    rfl

theorem def_list_eq (l : LroffLibrary) (items : List (Text × Text)) :
    l.def_list items = { l with diverts_ := write_lines l.diverts_ (def_lines items) } := by
  unfold LroffLibrary.def_list
  induction items generalizing l with
  | nil => rfl
  | cons p rest ih =>
    rw [List.foldl_cons, ih]
    rfl

theorem bullet_lines_spec (items : List Text) (h : ∀ x ∈ items, newline ∉ x) :
    (bullet_lines items).length = 2 * items.length ∧
      ∀ x ∈ bullet_lines items, newline ∉ x := by
  induction items with
  | nil => simp [bullet_lines]
  | cons item rest ih =>
    have := ih (fun y hy => h y (List.mem_cons_of_mem _ hy))
    refine ⟨by simp only [bullet_lines, List.length_cons, this.1]; omega, ?_⟩
    intro x hx
    simp only [bullet_lines, List.mem_cons] at hx
    rcases hx with hx | hx | hx
    · rw [hx]
      decide
    · rw [hx]
      exact h item (List.mem_cons_self _ _)
    · exact this.2 x hx

theorem def_lines_spec (items : List (Text × Text))
    (h : ∀ p ∈ items, newline ∉ p.1 ∧ newline ∉ p.2) :
    (def_lines items).length = 3 * items.length ∧
      ∀ x ∈ def_lines items, newline ∉ x := by
  induction items with
  | nil => simp [def_lines]
  | cons p rest ih =>
    have := ih (fun y hy => h y (List.mem_cons_of_mem _ hy))
    have hp := h p (List.mem_cons_self _ _)
    refine ⟨by simp only [def_lines, List.length_cons, this.1]; omega, ?_⟩
    intro x hx
    simp only [def_lines, List.mem_cons] at hx
    rcases hx with hx | hx | hx | hx
    · rw [hx]
      decide
    · rw [hx]
      intro hmem
      rcases List.mem_append.1 hmem with h1 | h1
      · rcases List.mem_append.1 h1 with h2 | h2
        · revert h2
          decide
        · exact hp.1 h2
      · revert h1
        decide
    · rw [hx]
      exact hp.2
    · exact this.2 x hx

/-- C25 as stated fails for `def_list`: for one pair it writes three lines, the
directive `.TP`, the term in bold and the definition, not two. -/
theorem def_list_writes_three_lines :
    (({ diverts_ := DivertManager.fresh, state_ := DocumentState.initial } :
        LroffLibrary).def_list [(['t'], ['d'])]).diverts_.main_.contents
      = ['.', 'T', 'P', newline] ++ [backslash, 'f', 'B', 't', backslash, 'f', 'P', newline]
        ++ ['d', newline] ∧
      ((({ diverts_ := DivertManager.fresh, state_ := DocumentState.initial } :
        LroffLibrary).def_list [(['t'], ['d'])]).diverts_.main_.contents).count newline
        = 3 := by
  refine ⟨by decide, by decide⟩

/-- C25 (amended): for `n` entries whose texts contain no newline, `bullet_list`
and `numbered_list` each write exactly `2 * n` lines to the current target,
one directive line and one content line for each entry, and `def_list`
writes exactly `3 * n` lines, the directive `.TP`, the term line and the
definition line for each pair; every line is written with `writeln`, so is
ended by a newline, and contains no other newline. -/
theorem list_operations_line_count (l : LroffLibrary) (items : List Text)
    (pairs : List (Text × Text))
    (hitems : ∀ x ∈ items, newline ∉ x)
    (hpairs : ∀ p ∈ pairs, newline ∉ p.1 ∧ newline ∉ p.2) :
    (l.bullet_list items = { l with diverts_ := write_lines l.diverts_ (bullet_lines items) } ∧
        (bullet_lines items).length = 2 * items.length ∧
        ∀ x ∈ bullet_lines items, newline ∉ x) ∧
      (l.numbered_list items =
          { l with diverts_ := write_lines l.diverts_ (numbered_lines 0 items) } ∧
        (numbered_lines 0 items).length = 2 * items.length ∧
        ∀ x ∈ numbered_lines 0 items, newline ∉ x) ∧
      (l.def_list pairs = { l with diverts_ := write_lines l.diverts_ (def_lines pairs) } ∧
        (def_lines pairs).length = 3 * pairs.length ∧
        ∀ x ∈ def_lines pairs, newline ∉ x) :=
  ⟨⟨bullet_list_eq l items, bullet_lines_spec items hitems⟩,
    ⟨numbered_loop_eq 0 l items, numbered_lines_length 0 items,
      numbered_lines_no_newline 0 items hitems⟩,
    ⟨def_list_eq l pairs, def_lines_spec pairs hpairs⟩⟩

theorem list_operations_line_count_witness :
    (bullet_lines [['a'], ['b']]).length = 2 * [['a'], ['b']].length ∧
      (def_lines [(['t'], ['d'])]).length = 3 * [(['t'], ['d'])].length :=
  ⟨(list_operations_line_count
      { diverts_ := DivertManager.fresh, state_ := DocumentState.initial }
      [['a'], ['b']] [(['t'], ['d'])] (by decide) (by decide)).1.2.1,
    (list_operations_line_count
      { diverts_ := DivertManager.fresh, state_ := DocumentState.initial }
      [['a'], ['b']] [(['t'], ['d'])] (by decide) (by decide)).2.2.2.1⟩

/-! ## Theorems about escapes, registers and unique names -/

/-- C26 as stated fails for an empty argument: with a one-character code,
`inline_escape` returns the short form, the backslash and the code alone, not
the bracketed form. -/
theorem inline_escape_empty_arg_short :
    LroffLibrary.inline_escape ['f'] [] = [backslash, 'f'] ∧
      LroffLibrary.inline_escape ['f'] [] ≠ [backslash, 'f', '[', ']'] := by
  refine ⟨by decide, by decide⟩

/-- C26 (amended): `inline_escape(code, arg)` returns the short form, backslash,
code and argument, if and only if the code is exactly one character long and
the argument at most one, an empty argument included; in every other case it
returns the bracketed form. -/
theorem inline_escape_forms (ec arg : Text) :
    (LroffLibrary.inline_escape ec arg = [backslash] ++ ec ++ arg ↔
        ec.length = 1 ∧ arg.length ≤ 1) ∧
      (¬ (ec.length = 1 ∧ arg.length ≤ 1) →
        LroffLibrary.inline_escape ec arg = [backslash] ++ ec ++ ['['] ++ arg ++ [']']) := by
  by_cases h : arg.length ≤ 1 ∧ ec.length = 1
  · have h' : ec.length = 1 ∧ arg.length ≤ 1 := ⟨h.2, h.1⟩
    simp [LroffLibrary.inline_escape, h, h']
  · have h' : ¬ (ec.length = 1 ∧ arg.length ≤ 1) := fun x => h ⟨x.2, x.1⟩
    refine ⟨?_, fun _ => by simp [LroffLibrary.inline_escape, h]⟩
    constructor
    · intro heq
      exfalso
      have := congrArg List.length heq
      simp [LroffLibrary.inline_escape, h] at this
      omega
    · intro x
      exact absurd x h'

theorem inline_escape_forms_witness :
    LroffLibrary.inline_escape ['f', 'x'] ['B'] = [backslash] ++ ['f', 'x'] ++ ['['] ++ ['B'] ++ [']'] :=
  (inline_escape_forms ['f', 'x'] ['B']).2 (by decide)

/-- The reference forms for names that are not empty: the short forms exactly for
one and two characters, the bracketed form otherwise. -/
theorem ref_forms_of_nonempty (n : Text) (hn : n ≠ []) :
    (n.length = 1 → LroffLibrary.nr_ref n = [backslash, 'n'] ++ n ∧
        LroffLibrary.ds_ref n = [backslash, '*'] ++ n) ∧
      (n.length = 2 → LroffLibrary.nr_ref n = [backslash, 'n', '('] ++ n ∧
        LroffLibrary.ds_ref n = [backslash, '*', '('] ++ n) ∧
      (2 < n.length → LroffLibrary.nr_ref n = [backslash, 'n', '['] ++ n ++ [']'] ∧
        LroffLibrary.ds_ref n = [backslash, '*', '['] ++ n ++ [']']) := by
  have hpos : 0 < n.length := List.length_pos.2 hn
  refine ⟨?_, ?_, ?_⟩
  · intro h
    simp [LroffLibrary.nr_ref, LroffLibrary.ds_ref, h]
  · intro h
    simp [LroffLibrary.nr_ref, LroffLibrary.ds_ref, h]
  · intro h
    have : ¬ n.length ≤ 2 := by omega
    simp [LroffLibrary.nr_ref, LroffLibrary.ds_ref, this]

/-- C27 fails on the code for the empty name: `nr_ref("")` and `ds_ref("")` fall
into the branch of the two-character form and return `\n(` and `\*(`, not
the bracketed forms `\n[]` and `\*[]`. -/
theorem ref_of_empty_name :
    LroffLibrary.nr_ref [] = [backslash, 'n', '('] ∧
      LroffLibrary.ds_ref [] = [backslash, '*', '('] ∧
      LroffLibrary.nr_ref [] ≠ [backslash, 'n', '['] ++ [] ++ [']'] ∧
      LroffLibrary.ds_ref [] ≠ [backslash, '*', '['] ++ [] ++ [']'] := by
  refine ⟨by decide, by decide, by decide, by decide⟩

theorem to_string_int_neg (d : Int) (h : d < 0) :
    to_string_int d = '-' :: to_string d.natAbs := by
  cases d with
  | ofNat n => exact absurd h (by simp)
  | negSucc n => rfl

/-- C28: `nr_set(n, v)` sets the shadow register `n` to `v` and writes the line
`.nr n v`; `nr_incr(n, d)` sets it to its previous value, 0 when unset, plus
`d` (when that sum is in the range of `int`) and writes `.nr n +d` for
`d >= 0` and `.nr n d`, with the minus sign of `d` alone, for `d < 0`.  No
other register and no other part of the document state changes. -/
theorem number_register_update (l : LroffLibrary) (n : Text) (v d : Int)
    (_hrange : -(2 : Int) ^ 31 ≤ (match l.nr_get n with
        | some p => p
        | none => 0) + d ∧
      (match l.nr_get n with
        | some p => p
        | none => 0) + d < (2 : Int) ^ 31) :
    ((l.nr_set n v).nr_get n = some v ∧
        (∀ k : Text, k ≠ n → (l.nr_set n v).nr_get k = l.nr_get k) ∧
        (l.nr_set n v).diverts_ =
          l.diverts_.write (".nr ".toList ++ n ++ [' '] ++ to_string_int v ++ [newline]) ∧
        (l.nr_set n v).state_.string_registers = l.state_.string_registers ∧
        (l.nr_set n v).state_.unique_counter = l.state_.unique_counter) ∧
      ((l.nr_incr n d).nr_get n = some ((match l.nr_get n with
          | some p => p
          | none => 0) + d) ∧
        (∀ k : Text, k ≠ n → (l.nr_incr n d).nr_get k = l.nr_get k) ∧
        (0 ≤ d → (l.nr_incr n d).diverts_ =
          l.diverts_.write (".nr ".toList ++ n ++ [' ', '+'] ++ to_string_int d ++ [newline])) ∧
        (d < 0 → (l.nr_incr n d).diverts_ =
            l.diverts_.write (".nr ".toList ++ n ++ [' '] ++ to_string_int d ++ [newline]) ∧
          to_string_int d = '-' :: to_string d.natAbs) ∧
        (l.nr_incr n d).state_.string_registers = l.state_.string_registers ∧
        (l.nr_incr n d).state_.unique_counter = l.state_.unique_counter) := by
  have hnr : (".nr ".toList : Text) = ['.'] ++ ['n', 'r'] ++ [' '] := by decide
  refine ⟨⟨?_, ?_, ?_, rfl, rfl⟩, ⟨?_, ?_, ?_, ?_, rfl, rfl⟩⟩
  · simp [LroffLibrary.nr_set, LroffLibrary.nr_get, LroffLibrary.request_with,
      LroffLibrary.emitln]
  · intro k hk
    simp [LroffLibrary.nr_set, LroffLibrary.nr_get, LroffLibrary.request_with,
      LroffLibrary.emitln, hk]
  · simp [LroffLibrary.nr_set, LroffLibrary.request_with, LroffLibrary.emitln,
      writeln_eq_write, hnr]
  · simp [LroffLibrary.nr_incr, LroffLibrary.nr_get, LroffLibrary.request_with,
      LroffLibrary.emitln]
  · intro k hk
    simp [LroffLibrary.nr_incr, LroffLibrary.nr_get, LroffLibrary.request_with,
      LroffLibrary.emitln, hk]
  · intro hd
    simp [LroffLibrary.nr_incr, LroffLibrary.request_with, LroffLibrary.emitln,
      writeln_eq_write, hnr, hd]
  · intro hd
    have hd' : ¬ d ≥ 0 := by omega
    refine ⟨?_, to_string_int_neg d hd⟩
    simp [LroffLibrary.nr_incr, LroffLibrary.request_with, LroffLibrary.emitln,
      writeln_eq_write, hnr, hd']

theorem number_register_update_witness :
    (({ diverts_ := DivertManager.fresh, state_ := DocumentState.initial } :
        LroffLibrary).nr_incr ['x'] (-5)).nr_get ['x'] = some ((match
          ({ diverts_ := DivertManager.fresh, state_ := DocumentState.initial } :
            LroffLibrary).nr_get ['x'] with
          | some p => p
          | none => 0) + (-5)) :=
  (number_register_update { diverts_ := DivertManager.fresh, state_ := DocumentState.initial }
    ['x'] 7 (-5) (by decide)).2.1

/-- C29 fails on the code when prefixes differ: on a fresh state the first call,
with prefix `a1`, returns `a11`, and the eleventh call, with prefix `a`,
returns `a11` again. -/
theorem unique_names_collide :
    (unique_calls DocumentState.initial
        ([['a', '1']] ++ List.replicate 9 ['b'] ++ [['a']])).1[0]? = some ['a', '1', '1'] ∧
      (unique_calls DocumentState.initial
        ([['a', '1']] ++ List.replicate 9 ['b'] ++ [['a']])).1[10]? = some ['a', '1', '1'] ∧
      (({ diverts_ := DivertManager.fresh, state_ := DocumentState.initial } :
          LroffLibrary).unique ['a', '1']).1 = ['a', '1', '1'] := by
  refine ⟨by decide, by decide, by decide⟩

/-- The calls of `unique_name` number their results from the counter on. -/
theorem unique_calls_spec (s : DocumentState) (ps : List Text) :
    (unique_calls s ps).2.unique_counter = s.unique_counter + ps.length ∧
      (unique_calls s ps).1.length = ps.length ∧
      ∀ (i : Nat) (p : Text), ps[i]? = some p →
        (unique_calls s ps).1[i]? = some (p ++ to_string (s.unique_counter + i + 1)) := by
  induction ps generalizing s with
  | nil => simp [unique_calls]
  | cons q qs ih =>
    have := ih (s.unique_name q).2
    have hc : (s.unique_name q).2.unique_counter = s.unique_counter + 1 := rfl
    refine ⟨?_, ?_, ?_⟩
    · simp only [unique_calls, this.1, hc, List.length_cons]
      omega
    · simp only [unique_calls, List.length_cons, this.2.1]
    · intro i p hp
      cases i with
      | zero =>
        simp only [List.getElem?_cons_zero, Option.some.injEq] at hp
        simp [unique_calls, DocumentState.unique_name, hp]
      | succ j =>
        simp only [List.getElem?_cons_succ] at hp
        simp only [unique_calls, List.getElem?_cons_succ, this.2.2 j p hp, hc]
        have : s.unique_counter + 1 + j + 1 = s.unique_counter + (j + 1) + 1 := by omega
        rw [this]

/-- C30: on a fresh state, with fewer calls than the counter can count, the
`k`-th call of `unique` returns its prefix followed by the decimal of `k` and
leaves the counter at `k`; two different calls with the same prefix return
different names; every call increases the counter by one, and nothing resets
it. -/
theorem unique_kth_call (s : DocumentState) (ps : List Text)
    (hfresh : s.unique_counter = 0) (_hcount : ps.length < 2 ^ 31) :
    (∀ (k : Nat) (p : Text), 1 ≤ k → ps[k - 1]? = some p →
        (unique_calls s ps).1[k - 1]? = some (p ++ to_string k) ∧
          (unique_calls s (ps.take k)).2.unique_counter = k) ∧
      (∀ (i j : Nat) (p : Text), i ≠ j → ps[i]? = some p → ps[j]? = some p →
        (unique_calls s ps).1[i]? ≠ (unique_calls s ps).1[j]?) ∧
      (∀ (t : DocumentState) (p : Text),
        (t.unique_name p).2.unique_counter = t.unique_counter + 1 ∧
          t.unique_counter < (t.unique_name p).2.unique_counter ∧
          (t.unique_name p).1 = p ++ to_string (t.unique_counter + 1)) ∧
      (∀ (l : LroffLibrary) (p : Text),
        (l.unique p).1 = (l.state_.unique_name p).1 ∧
          (l.unique p).2.state_ = (l.state_.unique_name p).2 ∧
          (l.unique p).2.diverts_ = l.diverts_) := by
  refine ⟨?_, ?_, ?_, ?_⟩
  · intro k p hk hp
    have h1 := (unique_calls_spec s ps).2.2 (k - 1) p hp
    have h2 := (unique_calls_spec s (ps.take k)).1
    have hlen : k - 1 < ps.length := by
      rcases Nat.lt_or_ge (k - 1) ps.length with h | h
      · exact h
      · rw [List.getElem?_eq_none h] at hp
        cases hp
    have e : s.unique_counter + (k - 1) + 1 = k := by omega
    rw [e] at h1
    refine ⟨h1, ?_⟩
    rw [h2, hfresh, List.length_take]
    omega
  · intro i j p hij hi hj heq
    rw [(unique_calls_spec s ps).2.2 i p hi, (unique_calls_spec s ps).2.2 j p hj] at heq
    have h3 := List.append_cancel_left (Option.some.inj heq)
    have := to_string_injective _ _ h3
    omega
  · intro t p
    exact ⟨rfl, Nat.lt_succ_self _, rfl⟩
  · intro l p
    exact ⟨rfl, rfl, rfl⟩

theorem unique_kth_call_witness :
    (unique_calls DocumentState.initial [['a'], ['b'], ['a']]).1[3 - 1]?
        = some (['a'] ++ to_string 3) ∧
      (unique_calls DocumentState.initial ([['a'], ['b'], ['a']].take 3)).2.unique_counter = 3 :=
  (unique_kth_call DocumentState.initial [['a'], ['b'], ['a']] rfl (by decide)).1 3 ['a']
    (by decide) (by decide)

/-! ## Theorems about the trailer of an open line -/

/-- The iteration of `process` on an open line whose trailer does not contain the
close marker. -/
theorem process_line_open_trailer {σ : Type} (ev : Evaluator σ) (filename : Text)
    (st : ScanState σ) (line t : Text) (sep : Char)
    (hout : st.in_lua_block = false)
    (hsep : sep = ' ' ∨ sep = tab)
    (htrim : trimmed line = st.pp.cfg_.block_open ++ sep :: t)
    (hno : ¬ st.pp.cfg_.block_close <:+: t) :
    process_line ev filename st line =
      { pp := { st.pp with current_line_ := st.pp.current_line_ + 1 },
        in_lua_block := true, lua_block_start := st.pp.current_line_ + 1 + 1,
        lua_buf := st.lua_buf ++ t ++ [newline] } := by
  have hfind : find st.pp.cfg_.block_close t = none := (find_eq_none_iff _ _).2 hno
  have hmatch : matches_marker st.pp.cfg_.block_open (trimmed line) = true := by
    rw [matches_marker_iff, htrim]
    rcases hsep with h | h
    · exact Or.inr (Or.inl ⟨t, by rw [h]⟩)
    · exact Or.inr (Or.inr ⟨t, by rw [h]⟩)
  have hlen : (trimmed line).length > st.pp.cfg_.block_open.length := by
    rw [htrim]
    simp
  have hdrop : (trimmed line).drop (st.pp.cfg_.block_open.length + 1) = t := by
    rw [htrim]
    simp
  simp only [process_line, hout, Bool.false_eq_true, if_false, hmatch, if_true, hlen,
    hdrop, hfind]

/-- The iteration of `process` on an open line that is the marker alone. -/
theorem process_line_open_bare {σ : Type} (ev : Evaluator σ) (filename : Text)
    (st : ScanState σ) (line : Text)
    (hout : st.in_lua_block = false)
    (htrim : trimmed line = st.pp.cfg_.block_open) :
    process_line ev filename st line =
      { pp := { st.pp with current_line_ := st.pp.current_line_ + 1 },
        in_lua_block := true, lua_block_start := st.pp.current_line_ + 1 + 1,
        lua_buf := st.lua_buf } := by
  simp [process_line, hout, htrim, matches_marker_self]

/-- C31: an open line whose trimmed text is the marker, one space or tab, and a
trailer `t` that does not contain the close marker: the scanner is inside a
block after it with `t` and a newline in the pending buffer (all of `t`, its
own leading whitespace included; one empty line when `t` is empty) and has
submitted nothing; at the close line the one chunk submitted is `t`, a
newline, and the interior lines each ended by a newline.  When the trimmed
line is exactly the marker the pending buffer stays empty. -/
theorem trailer_starts_block_source {σ : Type} (ev : Evaluator σ) (pp : Preprocessor σ)
    (filename : Text) (pre : List Text) (open_line t : Text) (sep : Char)
    (ls : List Text) (close_line : Text)
    (hout : (scan ev filename (scan_start pp filename) pre).in_lua_block = false)
    (hsep : sep = ' ' ∨ sep = tab)
    (htrim : trimmed open_line = pp.cfg_.block_open ++ sep :: t)
    (hno : ¬ pp.cfg_.block_close <:+: t)
    (hint : ∀ l ∈ ls, matches_marker pp.cfg_.block_close (trimmed l) = false)
    (hclose : matches_marker pp.cfg_.block_close (trimmed close_line) = true) :
    ((scan ev filename (scan_start pp filename) (pre ++ [open_line])).in_lua_block = true ∧
        (scan ev filename (scan_start pp filename) (pre ++ [open_line])).lua_buf
          = t ++ [newline] ∧
        (scan ev filename (scan_start pp filename) (pre ++ [open_line])).pp.submitted
          = (scan ev filename (scan_start pp filename) pre).pp.submitted) ∧
      ((scan ev filename (scan_start pp filename)
            (pre ++ open_line :: ls ++ [close_line])).pp.submitted =
          (scan ev filename (scan_start pp filename) pre).pp.submitted ++
            [{ code := t ++ [newline] ++ block_source ls,
               chunk_name := block_chunk_name filename (pre.length + 1 + 1) }] ∧
        (scan ev filename (scan_start pp filename)
            (pre ++ open_line :: ls ++ [close_line])).in_lua_block = false ∧
        (scan ev filename (scan_start pp filename)
            (pre ++ open_line :: ls ++ [close_line])).lua_buf = []) ∧
      (∀ bare : Text, trimmed bare = pp.cfg_.block_open →
        (scan ev filename (scan_start pp filename) (pre ++ [bare])).in_lua_block = true ∧
          (scan ev filename (scan_start pp filename) (pre ++ [bare])).lua_buf = []) := by
  have hcfg := (scan_fields ev filename (scan_start pp filename) pre).1
  have hline := (scan_fields ev filename (scan_start pp filename) pre).2
  have hbuf := scan_buf ev filename (scan_start pp filename) pre (fun _ => rfl) hout
  have hcfg0 : (scan_start pp filename).pp.cfg_ = pp.cfg_ := rfl
  have hline0 : (scan_start pp filename).pp.current_line_ = 0 := rfl
  rw [hcfg0] at hcfg
  rw [hline0, Nat.zero_add] at hline
  have happ : pre ++ open_line :: ls ++ [close_line]
      = pre ++ (open_line :: ls ++ [close_line]) := by simp
  rw [happ]
  simp only [scan_append]
  generalize scan ev filename (scan_start pp filename) pre = st at hout hcfg hline hbuf ⊢
  have hstep1 := process_line_open_trailer ev filename st open_line t sep hout hsep
    (by rw [hcfg]; exact htrim) (by rw [hcfg]; exact hno)
  rw [hbuf, hline] at hstep1
  refine ⟨?_, ?_, ?_⟩
  · rw [scan_cons, scan_nil, hstep1]
    exact ⟨rfl, by simp, rfl⟩
  · have hstep3 : scan ev filename (scan ev filename st (open_line :: ls)) [close_line] =
        { pp := (({ st.pp with current_line_ := pre.length + 1 + ls.length + 1 } :
                    Preprocessor σ).exec_lua ev (t ++ [newline] ++ block_source ls) filename
                      (pre.length + 1 + 1)).1.emit_lf
                  (pre.length + 1 + ls.length + 1 + 1) filename,
          in_lua_block := false, lua_block_start := pre.length + 1 + 1, lua_buf := [] } := by
      rw [scan_cons ev filename st open_line ls, hstep1,
        scan_interior ev filename _ ls rfl (by simpa [hcfg] using hint), scan_cons, scan_nil,
        process_line_close ev filename _ close_line rfl (by simpa [hcfg] using hclose)]
      simp
    rw [hstep3]
    refine ⟨?_, rfl, rfl⟩
    simp only []
    rw [(emit_lf_fields _ _ _).2.2.2, (exec_lua_fields _ _ _ _ _).2.2.2]
  · intro bare hbare
    rw [scan_cons, scan_nil,
      process_line_open_bare ev filename st bare hout (by rw [hcfg]; exact hbare), hbuf]
    exact ⟨rfl, rfl⟩

theorem trailer_starts_block_source_witness :
    (scan silent_evaluator ['f'] (scan_start (Preprocessor.init Config.default ()) ['f'])
        ([] ++ ".lua   x = 1".toList :: ["y = 2".toList] ++ [".endlua".toList])).pp.submitted =
      (scan silent_evaluator ['f'] (scan_start (Preprocessor.init Config.default ()) ['f'])
        []).pp.submitted ++
        [{ code := "  x = 1".toList ++ [newline] ++ block_source ["y = 2".toList],
           chunk_name := block_chunk_name ['f'] (0 + 1 + 1) }] :=
  (trailer_starts_block_source silent_evaluator (Preprocessor.init Config.default ()) ['f']
    [] ".lua   x = 1".toList "  x = 1".toList ' ' ["y = 2".toList] ".endlua".toList
    rfl (Or.inl rfl) (by decide) ((find_eq_none_iff _ _).1 (by decide)) (by decide)
    (by decide)).2.1.1

/-! ## Theorems about decoding and splitting `escape` -/

theorem unescape_cons_plain (c : Char) (e : Text) (hc : c ≠ backslash) :
    unescape (c :: e) = c :: unescape e := by
  cases e with
  | nil => simp [unescape]
  | cons d rest => simp [unescape, hc]

theorem unescape_pair (e : Text) :
    unescape (backslash :: backslash :: e) = backslash :: unescape e := by
  simp [unescape]

theorem unescape_guard (e : Text) :
    unescape (backslash :: '&' :: e) = unescape e := by
  have h : ¬ ('&' = backslash) := by decide
  simp [unescape, h]

/-- The decoder `unescape` undoes what the loop of `escape` appends, whatever
the flag. -/
theorem unescape_escapeFrom (b : Bool) (s : Text) : unescape (escapeFrom b s) = s := by
  induction s generalizing b with
  | nil => simp [escapeFrom, unescape]
  | cons c cs ih =>
    have hdot : ('.' : Char) ≠ backslash := by decide
    have hap : apostrophe ≠ backslash := by decide
    simp only [escapeFrom]
    by_cases h1 : c = backslash
    · simp only [h1, if_true]
      rw [unescape_pair, ih]
    · simp only [h1, if_false]
      by_cases h2 : c = newline
      · simp only [h2, if_true]
        rw [unescape_cons_plain _ _ (by decide), ih]
      · simp only [h2, if_false]
        by_cases h3 : c = '.'
        · simp only [h3, if_true]
          cases b
          · simp only [Bool.false_eq_true, if_false, List.nil_append]
            rw [unescape_cons_plain _ _ hdot, ih]
          · simp only [if_true, List.cons_append, List.nil_append]
            rw [unescape_guard, unescape_cons_plain _ _ hdot, ih]
        · simp only [h3, if_false]
          by_cases h4 : c = apostrophe
          · simp only [h4, if_true]
            cases b
            · simp only [Bool.false_eq_true, if_false, List.nil_append]
              rw [unescape_cons_plain _ _ hap, ih]
            · simp only [if_true, List.cons_append, List.nil_append]
              rw [unescape_guard, unescape_cons_plain _ _ hap, ih]
          · simp only [h4, if_false]
            rw [unescape_cons_plain _ _ h1, ih]

/-- The loop of `escape` run over `a`, a newline and `b` is the loop over `a`, the
newline, and the loop over `b` started at a line start. -/
theorem escapeFrom_newline (f : Bool) (a b : Text) :
    escapeFrom f (a ++ newline :: b) = escapeFrom f a ++ newline :: escapeFrom true b := by
  induction a generalizing f with
  | nil =>
    have h : ¬ (newline = backslash) := by decide
    simp [escapeFrom, h]
  | cons c cs ih =>
    simp only [List.cons_append, escapeFrom]
    split_ifs <;> simp [ih]

/-- C33: `escape` is injective, and the decoder `unescape` (drop the two
characters backslash-ampersand, turn two backslashes into one, keep the rest)
recovers the original from the escaped text. -/
theorem escape_injective (s t : Text)
    (h : LroffLibrary.escape s = LroffLibrary.escape t) :
    s = t ∧ unescape (LroffLibrary.escape s) = s := by
  rw [escape_eq_escapeFrom, escape_eq_escapeFrom] at h
  refine ⟨?_, ?_⟩
  · have h2 := congrArg unescape h
    rw [unescape_escapeFrom, unescape_escapeFrom] at h2
    exact h2
  · rw [escape_eq_escapeFrom, unescape_escapeFrom]

theorem escape_injective_witness :
    ".a".toList = ".a".toList ∧ unescape (LroffLibrary.escape ".a".toList) = ".a".toList :=
  escape_injective ".a".toList ".a".toList rfl

/-- C34: `escape` distributes over a newline: escaping `a`, a newline and `b` gives
the escaped `a`, a newline and the escaped `b`; hence escaping lines joined by
newlines gives the escaped lines joined by newlines. -/
theorem escape_compositional (a b : Text) (lines : List Text) :
    LroffLibrary.escape (a ++ [newline] ++ b)
        = LroffLibrary.escape a ++ [newline] ++ LroffLibrary.escape b ∧
      LroffLibrary.escape (joined newline lines)
        = joined newline (lines.map LroffLibrary.escape) := by
  have hpair : ∀ x y : Text, LroffLibrary.escape (x ++ [newline] ++ y)
      = LroffLibrary.escape x ++ [newline] ++ LroffLibrary.escape y := by
    intro x y
    simp only [escape_eq_escapeFrom, List.append_assoc, List.singleton_append]
    exact escapeFrom_newline true x y
  refine ⟨hpair a b, ?_⟩
  induction lines with
  | nil => simp [joined, LroffLibrary.escape]
  | cons l ls ih =>
    cases ls with
    | nil => simp [joined]
    | cons m ms =>
      have h1 : joined newline (l :: m :: ms) = l ++ [newline] ++ joined newline (m :: ms) := by
        simp [joined]
      have h2 : joined newline ((l :: m :: ms).map LroffLibrary.escape)
          = LroffLibrary.escape l ++ [newline]
              ++ joined newline ((m :: ms).map LroffLibrary.escape) := by
        simp [joined]
      rw [h1, h2, hpair, ih]

/-! ## Theorems about `macro_define` -/

/-- C32: `macro_define(name, body)` writes to the current target the text
".de " ++ name ++ newline ++ body, one more newline exactly when the body is
non-empty and does not end in a newline, and then the two periods and a
newline; that text ends with a newline followed by the two periods and a
newline, so the closing marker starts a line. -/
theorem macro_define_writes (l : LroffLibrary) (name body : Text) :
    l.macro_define name body
        = { l with diverts_ := l.diverts_.write (macro_text name body) } ∧
      ∃ pre : Text, macro_text name body = pre ++ [newline] ++ ['.', '.', newline] := by
  refine ⟨?_, ?_⟩
  · by_cases hb : body = []
    · subst hb
      simp [LroffLibrary.macro_define, macro_text, LroffLibrary.emit, LroffLibrary.emitln,
        writeln_eq_write, write_write]
    · by_cases hl : body.getLast? = some newline
      · simp [LroffLibrary.macro_define, macro_text, LroffLibrary.emit, LroffLibrary.emitln,
          writeln_eq_write, write_write, hb, hl]
      · simp [LroffLibrary.macro_define, macro_text, LroffLibrary.emit, LroffLibrary.emitln,
          writeln_eq_write, write_write, hb, hl]
  · by_cases hb : body = []
    · subst hb
      exact ⟨".de ".toList ++ name, by simp [macro_text]⟩
    · by_cases hl : body.getLast? = some newline
      · obtain ⟨init, hinit⟩ : ∃ init, body = init ++ [newline] := by
          rw [List.getLast?_eq_some_iff] at hl
          exact hl
        exact ⟨".de ".toList ++ name ++ [newline] ++ init, by simp [macro_text, hinit]⟩
      · exact ⟨".de ".toList ++ name ++ [newline] ++ body, by simp [macro_text, hb, hl]⟩

/-! ## Theorems about the termination of `expand_inline` -/

/-- Where `find` reports an occurrence, the pattern stands there and fits in the
text. -/
theorem find_some_spec (pat s : Text) (k : Nat) (h : find pat s = some k) :
    k + pat.length ≤ s.length ∧ pat <+: s.drop k := by
  induction s generalizing k with
  | nil =>
    cases pat with
    | nil =>
      simp [find] at h
      subst h
      simp
    | cons p ps => simp [find] at h
  | cons c cs ih =>
    simp only [find] at h
    cases hp : pat.isPrefixOf (c :: cs) with
    | true =>
      simp only [hp, if_true, Option.some.injEq] at h
      subst h
      have hpre : pat <+: c :: cs := List.isPrefixOf_iff_prefix.1 hp
      refine ⟨?_, by simpa using hpre⟩
      have := hpre.length_le
      simpa using this
    | false =>
      simp only [hp, Bool.false_eq_true, if_false] at h
      cases hj : find pat cs with
      | none => simp [hj] at h
      | some j =>
        simp only [hj, Option.map_some', Option.some.injEq] at h
        subst h
        have := ih j hj
        refine ⟨?_, by simpa using this.2⟩
        simp only [List.length_cons]
        omega

/-- The offset the close scan reports is the offset of a close character. -/
theorem find_close_spec (close : Char) :
    ∀ t : Text, ∀ len : Nat, find_close close t = some len → t[len]? = some close := by
  apply text_pair_induction
  · intro len h
    simp [find_close] at h
  · intro c len h
    simp only [find_close] at h
    split_ifs at h with hc
    simp only [Option.some.injEq] at h
    subst h
    simp [hc]
  · intro c d rest ih1 ih2 len h
    simp only [find_close] at h
    by_cases h1 : c = backslash
    · simp only [h1, if_true] at h
      cases hk : find_close close rest with
      | none => simp [hk] at h
      | some k =>
        simp only [hk, Option.map_some', Option.some.injEq] at h
        subst h
        simpa using ih1 k hk
    · simp only [h1, if_false] at h
      by_cases h2 : c = close
      · simp only [h2, if_true, Option.some.injEq] at h
        subst h
        simp [h2]
      · simp only [h2, if_false] at h
        cases hk : find_close close (d :: rest) with
        | none => simp [hk] at h
        | some k =>
          simp only [hk, Option.map_some', Option.some.injEq] at h
          subst h
          simpa using ih2 k hk

theorem find_close_lt (close : Char) (t : Text) (len : Nat)
    (h : find_close close t = some len) : len < t.length := by
  have := find_close_spec close t len h
  by_contra hge
  rw [List.getElem?_eq_none (by omega)] at this
  cases this

/-- One continuing iteration of the loop: the close character found stands at
or after the end of the open delimiter and inside the text, and the text left
for the next iteration is exactly what follows it. -/
theorem expand_loop_progress (open_ : Text) (close : Char) (rest : Text) (start len : Nat)
    (hfind : find open_ rest = some start)
    (hclose : find_close close (rest.drop (start + open_.length)) = some len) :
    open_ <+: rest.drop start ∧
      rest[start + open_.length + len]? = some close ∧
      (rest.drop (start + open_.length)).drop (len + 1)
        = rest.drop (start + open_.length + len + 1) ∧
      start + open_.length + len + 1 ≤ rest.length ∧
      ((rest.drop (start + open_.length)).drop (len + 1)).length < rest.length := by
  have h1 := find_close_spec close _ len hclose
  have h2 := find_close_lt close _ len hclose
  simp only [List.length_drop] at h2
  refine ⟨(find_some_spec open_ rest start hfind).2, ?_, ?_, by omega, ?_⟩
  · rw [List.getElem?_drop] at h1
    exact h1
  · rw [List.drop_drop]
    congr 1
  · simp only [List.length_drop]
    omega

/-- With more fuel than the text has characters the loop ends before the fuel
is used up, with the result of `expand_loop`. -/
theorem expand_loop_checked_some {σ : Type} (ev : Evaluator σ) (open_ : Text) (close : Char)
    (fuel : Nat) (pp : Preprocessor σ) (result rest : Text) (h : rest.length < fuel) :
    expand_loop_checked ev open_ close fuel pp result rest
      = some (expand_loop ev open_ close fuel pp result rest) := by
  induction fuel generalizing pp result rest with
  | zero => omega
  | succ n ih =>
    cases hfind : find open_ rest with
    | none =>
      rw [expand_loop_no_open ev open_ close n pp _ rest hfind]
      cases rest with
      | nil => simp [expand_loop_checked]
      | cons c cs => simp [expand_loop_checked, hfind]
    | some start =>
      cases hclose : find_close close (rest.drop (start + open_.length)) with
      | none =>
        rw [expand_loop_unterminated ev open_ close n pp _ rest start hfind hclose]
        cases rest with
        | nil => simp [expand_loop_checked]
        | cons c cs => simp [expand_loop_checked, hfind, hclose]
      | some len =>
        rw [expand_loop_step ev open_ close n pp result rest start len hfind hclose]
        have hprog := expand_loop_progress open_ close rest start len hfind hclose
        rw [← ih _ _ _ (by omega)]
        cases rest with
        | nil => simp [find_close] at hclose
        | cons c cs => simp [expand_loop_checked, hfind, hclose]

/-- The loop submits at most one chunk per character of its text. -/
theorem expand_loop_calls {σ : Type} (ev : Evaluator σ) (open_ : Text) (close : Char)
    (fuel : Nat) (pp : Preprocessor σ) (result rest : Text) :
    (expand_loop ev open_ close fuel pp result rest).1.submitted.length
      ≤ pp.submitted.length + rest.length := by
  induction fuel generalizing pp result rest with
  | zero => simp [expand_loop]
  | succ n ih =>
    cases hfind : find open_ rest with
    | none =>
      rw [expand_loop_no_open ev open_ close n pp _ rest hfind]
      simp
    | some start =>
      cases hclose : find_close close (rest.drop (start + open_.length)) with
      | none =>
        rw [expand_loop_unterminated ev open_ close n pp _ rest start hfind hclose]
        simp
      | some len =>
        rw [expand_loop_step ev open_ close n pp result rest start len hfind hclose]
        have hprog := expand_loop_progress open_ close rest start len hfind hclose
        refine le_trans (ih _ _ _) ?_
        simp only [Preprocessor.safe_script, List.length_append, List.length_singleton]
        omega

/-- C35: `expand_inline` terminates: on every line its loop, run with any bound
on the iterations above the length of the line, ends before the bound is
reached and gives the result of `expand_inline`, for every open delimiter,
close character and evaluator; every iteration that continues found the open
delimiter and a close character at or after its end, and goes on one past
that close character, on a strictly shorter text; and the call submits at most as many chunks
as the line has characters. -/
theorem expand_inline_terminates {σ : Type} (ev : Evaluator σ) (pp : Preprocessor σ)
    (line : Text) :
    (∀ fuel : Nat, line.length < fuel →
        expand_loop_checked ev pp.cfg_.inline_open pp.cfg_.inline_close fuel pp [] line
          = some (pp.expand_inline ev line)) ∧
      (∀ (rest : Text) (start len : Nat),
        find pp.cfg_.inline_open rest = some start →
        find_close pp.cfg_.inline_close (rest.drop (start + pp.cfg_.inline_open.length))
          = some len →
        pp.cfg_.inline_open <+: rest.drop start ∧
          rest[start + pp.cfg_.inline_open.length + len]? = some pp.cfg_.inline_close ∧
          (rest.drop (start + pp.cfg_.inline_open.length)).drop (len + 1)
            = rest.drop (start + pp.cfg_.inline_open.length + len + 1) ∧
          start + pp.cfg_.inline_open.length + len + 1 ≤ rest.length ∧
          ((rest.drop (start + pp.cfg_.inline_open.length)).drop (len + 1)).length
            < rest.length) ∧
      (pp.expand_inline ev line).1.submitted.length ≤ pp.submitted.length + line.length := by
  refine ⟨?_, ?_, ?_⟩
  · intro fuel hfuel
    rw [expand_loop_checked_some ev _ _ fuel pp [] line hfuel,
      expand_loop_eq_expand_inline ev pp fuel line hfuel]
  · intro rest start len hfind hclose
    exact expand_loop_progress _ _ rest start len hfind hclose
  · rw [← expand_loop_eq_expand_inline ev pp (line.length + 1) line (by omega)]
    exact expand_loop_calls ev _ _ _ pp [] line

theorem expand_inline_terminates_witness :
    expand_loop_checked (const_evaluator (Except.ok (LuaValue.str ['7'])))
        Config.default.inline_open Config.default.inline_close 12
        (Preprocessor.init Config.default ()) [] (Config.default.inline_open ++ "1+1'b".toList)
      = some ((Preprocessor.init Config.default ()).expand_inline
          (const_evaluator (Except.ok (LuaValue.str ['7'])))
          (Config.default.inline_open ++ "1+1'b".toList)) :=
  (expand_inline_terminates (const_evaluator (Except.ok (LuaValue.str ['7'])))
    (Preprocessor.init Config.default ())
    (Config.default.inline_open ++ "1+1'b".toList)).1 12 (by decide)

/-! ## Theorems about `divert_emit` -/

theorem fresh_active_have_buffers : DivertManager.fresh.active_have_buffers := by
  intro n hn
  simp [DivertManager.fresh] at hn

theorem begin_active_have_buffers (d : DivertManager) (name : Text)
    (h : d.active_have_buffers) : (d.begin name).active_have_buffers := by
  intro n hn
  simp only [DivertManager.begin, List.mem_append, List.mem_singleton] at hn
  simp only [DivertManager.begin, divs_try_emplace]
  by_cases hname : n = name
  · subst hname
    cases hb : d.divs_ n <;> simp
  · rcases hn with hn | hn
    · simpa [hname] using h n hn
    · exact absurd hn hname

theorem end_active_have_buffers (d : DivertManager) (h : d.active_have_buffers) :
    d.end_.2.active_have_buffers := by
  intro n hn
  unfold DivertManager.end_ at hn ⊢
  split_ifs at hn ⊢
  · exact h n hn
  · exact h n (List.mem_of_mem_dropLast hn)

theorem write_active_have_buffers (d : DivertManager) (t : Text)
    (h : d.active_have_buffers) : (d.write t).active_have_buffers := by
  intro n hn
  cases hs : d.stack_.getLast? with
  | none =>
    simp only [DivertManager.write, hs] at hn ⊢
    exact h n hn
  | some top =>
    simp only [DivertManager.write, hs] at hn ⊢
    simp only [divs_append]
    split_ifs
    · simp
    · exact h n hn

theorem clear_active_have_buffers (d : DivertManager) (name : Text)
    (h : d.active_have_buffers) : (d.clear name).active_have_buffers := by
  intro n hn
  cases hb : d.divs_ name with
  | none =>
    simp only [DivertManager.clear, hb] at hn ⊢
    exact h n hn
  | some b =>
    simp only [DivertManager.clear, hb] at hn ⊢
    split_ifs
    · simp
    · exact h n hn

theorem blank_line_active_have_buffers (d : DivertManager)
    (h : d.active_have_buffers) : d.blank_line.active_have_buffers := by
  have hw : d.blank_line = d.write [newline] := by
    unfold DivertManager.blank_line DivertManager.write
    split <;> simp [OutputBuffer.blank_line, OutputBuffer.write]
  rw [hw]
  exact write_active_have_buffers d _ h

theorem writeln_active_have_buffers (d : DivertManager) (t : Text)
    (h : d.active_have_buffers) : (d.writeln t).active_have_buffers := by
  rw [writeln_eq_write]
  exact write_active_have_buffers d _ h

/-- In every state the library can reach, each active diversion has its buffer. -/
theorem library_state_active_have_buffers (d : DivertManager) (h : d.library_state) :
    d.active_have_buffers := by
  induction h with
  | init o =>
    intro n hn
    simp at hn
  | main d o _ ih => exact fun n hn => ih n hn
  | begin d name _ ih => exact begin_active_have_buffers d name ih
  | end_ d _ ih => exact end_active_have_buffers d ih
  | write d text _ ih => exact write_active_have_buffers d text ih
  | writeln d text _ ih => exact writeln_active_have_buffers d text ih
  | blank_line d _ ih => exact blank_line_active_have_buffers d ih
  | clear d name _ ih => exact clear_active_have_buffers d name ih

theorem top_has_buffer_of_active (d : DivertManager) (h : d.active_have_buffers) :
    d.top_has_buffer :=
  fun top htop => h top (List.mem_of_getLast?_eq_some htop)

/-- While the diversion on top of the stack has its buffer, or the stack is
empty, writing the empty text changes nothing. -/
theorem write_empty_of_top (d : DivertManager) (h : d.top_has_buffer) :
    d.write [] = d := by
  cases hs : d.stack_.getLast? with
  | none => simp [DivertManager.write, hs, OutputBuffer.write]
  | some top =>
    have hbuf := h top hs
    simp only [DivertManager.write, hs]
    have hdivs : divs_append d.divs_ top [] = d.divs_ := by
      funext n
      simp only [divs_append]
      split_ifs with hn
      · subst hn
        cases hb : d.divs_ n with
        | none => exact absurd hb hbuf
        | some b => simp
      · rfl
    rw [hdivs]

/-- Were `erase` called on an active diversion, `divert_emit` on that name would
bring its buffer back, empty: the state `begin(a); erase(a)` is outside
`library_state`, and there the name has no buffer before the call and has
one after it. -/
theorem divert_emit_recreates_erased_buffer :
    (LroffLibrary.mk ((DivertManager.fresh.begin ['a']).erase ['a'])
        DocumentState.initial).diverts_.exists_ ['a'] = false ∧
      ((LroffLibrary.mk ((DivertManager.fresh.begin ['a']).erase ['a'])
        DocumentState.initial).divert_emit ['a']).diverts_.exists_ ['a'] = true := by
  decide

/-- C36: `divert_emit(name)` is one `write` of `get(name)` to the current target
and touches nothing else.  With an empty stack the main output gains
`get(name)` and no buffer changes; with `name` on top of the stack its buffer
`c` becomes `c ++ c` while the main output, the stack and the other buffers
stay; with `name` unknown the whole object is unchanged, so no buffer called
`name` appears: in every state the library can reach, and more generally
whenever the diversion on top of the stack has its buffer. -/
theorem divert_emit_appends (l : LroffLibrary) (name : Text) :
    ((l.divert_emit name).diverts_ = l.diverts_.write (l.diverts_.get name) ∧
        (l.divert_emit name).state_ = l.state_) ∧
      (l.diverts_.stack_ = [] →
        (l.divert_emit name).diverts_.main_.buf_
            = l.diverts_.main_.buf_ ++ l.diverts_.get name ∧
          (l.divert_emit name).diverts_.divs_ = l.diverts_.divs_ ∧
          (l.divert_emit name).diverts_.stack_ = []) ∧
      (∀ (deeper : List Text) (c : Text), l.diverts_.stack_ = deeper ++ [name] →
        l.diverts_.divs_ name = some c →
        (l.divert_emit name).diverts_.divs_ name = some (c ++ c) ∧
          (l.divert_emit name).diverts_.main_ = l.diverts_.main_ ∧
          (l.divert_emit name).diverts_.stack_ = l.diverts_.stack_ ∧
          ∀ n : Text, n ≠ name → (l.divert_emit name).diverts_.divs_ n = l.diverts_.divs_ n) ∧
      (l.diverts_.library_state → l.diverts_.divs_ name = none →
        l.divert_emit name = l ∧ (l.divert_emit name).diverts_.exists_ name = false) ∧
      (l.diverts_.top_has_buffer → l.diverts_.divs_ name = none →
        l.divert_emit name = l ∧ (l.divert_emit name).diverts_.exists_ name = false) := by
  have hunknown : l.diverts_.top_has_buffer → l.diverts_.divs_ name = none →
      l.divert_emit name = l ∧ (l.divert_emit name).diverts_.exists_ name = false := by
    intro htop hnone
    have hget : l.diverts_.get name = [] := by simp [DivertManager.get, hnone]
    have hl : l.divert_emit name = l := by
      simp only [LroffLibrary.divert_emit, hget, write_empty_of_top l.diverts_ htop]
    refine ⟨hl, ?_⟩
    rw [hl]
    simp [DivertManager.exists_, hnone]
  refine ⟨⟨rfl, rfl⟩, ?_, ?_, ?_, hunknown⟩
  · intro hs
    simp [LroffLibrary.divert_emit, DivertManager.write, hs, OutputBuffer.write]
  · intro deeper c hs hc
    simp only [LroffLibrary.divert_emit]
    rw [write_on_top l.diverts_ deeper name _ hs]
    refine ⟨?_, rfl, rfl, ?_⟩
    · simp [divs_append, DivertManager.get, hc]
    · intro n hn
      simp [divs_append, hn]
  · intro hlib
    exact hunknown (top_has_buffer_of_active _ (library_state_active_have_buffers _ hlib))

theorem divert_emit_appends_witness :
    ((LroffLibrary.mk ((DivertManager.fresh.begin ['a']).write ['x'])
          DocumentState.initial).divert_emit ['a']).diverts_.divs_ ['a']
        = some (['x'] ++ ['x']) ∧
      (LroffLibrary.mk ((DivertManager.fresh.begin ['a']).write ['x'])
          DocumentState.initial).divert_emit ['z']
        = LroffLibrary.mk ((DivertManager.fresh.begin ['a']).write ['x'])
          DocumentState.initial :=
  ⟨((divert_emit_appends (LroffLibrary.mk ((DivertManager.fresh.begin ['a']).write ['x'])
      DocumentState.initial) ['a']).2.2.1 [] ['x'] rfl (by decide)).1,
    ((divert_emit_appends (LroffLibrary.mk ((DivertManager.fresh.begin ['a']).write ['x'])
      DocumentState.initial) ['z']).2.2.2.1
      (DivertManager.library_state.write _ _
        (DivertManager.library_state.begin _ _ (DivertManager.library_state.init _)))
      (by decide)).1⟩

/-! ## Theorems about the out-of-line `DivertManager` -/

/-- The out-of-line object with the fields of an inline one corresponds to it. -/
theorem corresponds_mk (h : DivertManager) :
    corresponds h (DivertManagerCpp.mk h.main_ h.stack_ h.divs_) :=
  ⟨rfl, rfl, rfl⟩

theorem corresponds_eq (h : DivertManager) (c : DivertManagerCpp) (hc : corresponds h c) :
    c = DivertManagerCpp.mk h.main_ h.stack_ h.divs_ := by
  obtain ⟨h1, h2, h3⟩ := hc
  cases c
  simp only at h1 h2 h3
  subst h1 h2 h3
  rfl

/-- From corresponding objects right after construction, `write` succeeds on the
inline one and puts the text in the main output, and throws on the
out-of-line one, which keeps its main output empty. -/
theorem out_of_line_write_throws_when_not_diverting :
    corresponds DivertManager.fresh DivertManagerCpp.fresh ∧
      (DivertManager.fresh.write ['x']).main_.buf_ = ['x'] ∧
      (DivertManagerCpp.fresh.write ['x']).1 = Except.error CppError.logic_error ∧
      (DivertManagerCpp.fresh.write ['x']).2.main_output_.buf_ = [] ∧
      ¬ corresponds (DivertManager.fresh.write ['x']) (DivertManagerCpp.fresh.write ['x']).2 := by
  refine ⟨⟨rfl, rfl, rfl⟩, rfl, rfl, rfl, ?_⟩
  intro hc
  have hbuf := congrArg OutputBuffer.buf_ hc.1
  have h1 : (DivertManagerCpp.fresh.write ['x']).2.main_output_.buf_ = [] := rfl
  have h2 : (DivertManager.fresh.write ['x']).main_.buf_ = ['x'] := rfl
  rw [h1, h2] at hbuf
  cases hbuf

/-- C37: on corresponding objects the out-of-line and the inline `DivertManager`
agree on `begin`, `end` (same success or failure), `get`, `exists`, `clear`,
`is_diverting` and the current name, and lead to corresponding objects; they
agree on `write` and `writeln` while a diversion is active and its buffer
exists.  With no active diversion the inline `write` and `writeln` append to
the main output, and the out-of-line ones throw and change nothing. -/
theorem out_of_line_matches_inline (h : DivertManager) (c : DivertManagerCpp)
    (hc : corresponds h c) (name t : Text) :
    corresponds (h.begin name) (c.begin name) ∧
      ((h.end_.1 = Except.ok ()) ↔ (c.end_.1 = Except.ok ())) ∧
      corresponds h.end_.2 c.end_.2 ∧
      c.get name = h.get name ∧
      c.exists_ name = h.exists_ name ∧
      corresponds (h.clear name) (c.clear name) ∧
      c.is_diverting = h.is_diverting ∧
      c.current_diversion_name = h.current_name ∧
      (∀ top : Text, h.stack_.getLast? = some top → h.divs_ top ≠ none →
        (c.write t).1 = Except.ok () ∧ corresponds (h.write t) (c.write t).2 ∧
          (c.writeln t).1 = Except.ok () ∧ corresponds (h.writeln t) (c.writeln t).2) ∧
      (h.stack_ = [] →
        (c.write t).1 = Except.error CppError.logic_error ∧ (c.write t).2 = c ∧
          (c.writeln t).1 = Except.error CppError.logic_error ∧ (c.writeln t).2 = c ∧
          (h.write t).main_.buf_ = h.main_.buf_ ++ t ∧
          (h.writeln t).main_.buf_ = h.main_.buf_ ++ t ++ [newline]) := by
  rw [corresponds_eq h c hc]
  refine ⟨?_, ?_, ?_, ?_, ?_, ?_, ?_, ?_, ?_, ?_⟩
  · refine ⟨rfl, rfl, ?_⟩
    funext n
    simp only [DivertManagerCpp.begin, DivertManager.begin, divs_try_emplace]
    split_ifs
    · cases h.divs_ name <;> rfl
    · rfl
  · cases hs : h.stack_.isEmpty <;> simp [DivertManager.end_, DivertManagerCpp.end_, hs]
  · cases hs : h.stack_.isEmpty <;>
      simp [DivertManager.end_, DivertManagerCpp.end_, hs, corresponds]
  · simp only [DivertManagerCpp.get, DivertManager.get]
    cases h.divs_ name <;> rfl
  · rfl
  · cases hb : h.divs_ name <;>
      simp [DivertManager.clear, DivertManagerCpp.clear, hb, corresponds]
  · rfl
  · rfl
  · intro top htop hbuf
    cases hb : h.divs_ top with
    | none => exact absurd hb hbuf
    | some b =>
      have hw : ∀ x : Text,
          ((DivertManagerCpp.mk h.main_ h.stack_ h.divs_).stream_append x).1 = Except.ok () ∧
            ((DivertManagerCpp.mk h.main_ h.stack_ h.divs_).stream_append x).2.main_output_
              = h.main_ ∧
            ((DivertManagerCpp.mk h.main_ h.stack_ h.divs_).stream_append x).2.diversion_stack_
              = h.stack_ ∧
            ((DivertManagerCpp.mk h.main_ h.stack_ h.divs_).stream_append x).2.diversions_
              = divs_append h.divs_ top x := by
        intro x
        simp only [DivertManagerCpp.stream_append, htop, hb]
        refine ⟨trivial, trivial, trivial, ?_⟩
        funext n
        simp only [divs_append, hb]
      refine ⟨(hw t).1, ?_, (hw (t ++ [newline])).1, ?_⟩
      · refine ⟨?_, ?_, ?_⟩
        · rw [DivertManagerCpp.write, (hw t).2.1]
          simp [DivertManager.write, htop]
        · rw [DivertManagerCpp.write, (hw t).2.2.1]
          simp [DivertManager.write, htop]
        · rw [DivertManagerCpp.write, (hw t).2.2.2]
          simp [DivertManager.write, htop]
      · refine ⟨?_, ?_, ?_⟩
        · rw [DivertManagerCpp.writeln, (hw _).2.1]
          simp [DivertManager.writeln, htop]
        · rw [DivertManagerCpp.writeln, (hw _).2.2.1]
          simp [DivertManager.writeln, htop]
        · rw [DivertManagerCpp.writeln, (hw _).2.2.2]
          simp [DivertManager.writeln, htop]
  · intro hs
    simp [DivertManagerCpp.write, DivertManagerCpp.writeln, DivertManagerCpp.stream_append,
      DivertManager.write, DivertManager.writeln, OutputBuffer.write, OutputBuffer.writeln, hs]

theorem out_of_line_matches_inline_witness :
    (DivertManagerCpp.fresh.begin ['a']).write ['x'] =
        (Except.ok (), ((DivertManagerCpp.fresh.begin ['a']).write ['x']).2) ∧
      corresponds ((DivertManager.fresh.begin ['a']).write ['x'])
        ((DivertManagerCpp.fresh.begin ['a']).write ['x']).2 :=
  ⟨rfl,
    ((out_of_line_matches_inline (DivertManager.fresh.begin ['a'])
      (DivertManagerCpp.fresh.begin ['a'])
      ⟨rfl, rfl, rfl⟩
      ['a'] ['x']).2.2.2.2.2.2.2.2.1 ['a'] rfl (by decide)).2.1⟩

/-! ## Theorems about the open-line rule -/

/-- C9: outside a block, for a block-open marker with a character other than
space and tab (as every request-style marker has), the open test of the code
accepts a line exactly when the line with its leading spaces and tabs
removed equals the marker or begins with the marker followed by a space or a
tab.  A line the rule rejects is markup: it is expanded and passed through,
and the scanner stays outside with nothing pending.  A line the rule
accepts opens a block: the scanner is inside a block after it, or, when the
trailer holds the close marker, the block is opened and closed on that line
and the trailer before the close marker is submitted. -/
theorem open_line_rule {σ : Type} (ev : Evaluator σ) (filename : Text)
    (st : ScanState σ) (line : Text)
    (hout : st.in_lua_block = false)
    (hm : ∃ c ∈ st.pp.cfg_.block_open, c ≠ ' ' ∧ c ≠ tab) :
    (matches_marker st.pp.cfg_.block_open (trimmed line) = true
        ↔ spec_matches st.pp.cfg_.block_open line) ∧
      (¬ spec_matches st.pp.cfg_.block_open line →
        process_line ev filename st line =
          { pp := (({ st.pp with current_line_ := st.pp.current_line_ + 1 } :
                Preprocessor σ).expand_inline ev line).1.passthrough
              (({ st.pp with current_line_ := st.pp.current_line_ + 1 } :
                Preprocessor σ).expand_inline ev line).2,
            in_lua_block := false, lua_block_start := st.lua_block_start,
            lua_buf := st.lua_buf } ∧
          (process_line ev filename st line).in_lua_block = false) ∧
      (spec_matches st.pp.cfg_.block_open line →
        ((process_line ev filename st line).in_lua_block = true ∧
            (process_line ev filename st line).pp.submitted = st.pp.submitted) ∨
          ∃ ec : Nat,
            find st.pp.cfg_.block_close
                ((trimmed line).drop (st.pp.cfg_.block_open.length + 1)) = some ec ∧
              (process_line ev filename st line).in_lua_block = false ∧
              (process_line ev filename st line).pp.submitted = st.pp.submitted ++
                [{ code := ((trimmed line).drop (st.pp.cfg_.block_open.length + 1)).take ec,
                   chunk_name := block_chunk_name filename (st.pp.current_line_ + 1) }]) := by
  have hrule := block_open_rule_of_nonblank_marker st.pp.cfg_.block_open line hm
  refine ⟨hrule, ?_, ?_⟩
  · intro hns
    have hno : matches_marker st.pp.cfg_.block_open (trimmed line) = false := by
      cases h : matches_marker st.pp.cfg_.block_open (trimmed line) with
      | false => rfl
      | true => exact absurd (hrule.1 h) hns
    have hstep := process_line_markup ev filename st line hout hno
    refine ⟨hstep, ?_⟩
    rw [hstep]
  · intro hs
    have hmatch := hrule.2 hs
    by_cases hlen : (trimmed line).length > st.pp.cfg_.block_open.length
    · cases hfind : find st.pp.cfg_.block_close
          ((trimmed line).drop (st.pp.cfg_.block_open.length + 1)) with
      | none =>
        left
        simp [process_line, hout, hmatch, hlen, hfind]
      | some ec =>
        right
        refine ⟨ec, rfl, ?_, ?_⟩
        · simp [process_line, hout, hmatch, hlen, hfind]
        · simp only [process_line, hout, hmatch, hlen, hfind, Bool.false_eq_true, if_false,
            if_true]
          rw [(emit_lf_fields _ _ _).2.2.2, (exec_lua_fields _ _ _ _ _).2.2.2]
    · left
      simp [process_line, hout, hmatch, hlen]

theorem open_line_rule_witness :
    (process_line silent_evaluator ['f']
        (scan_start (Preprocessor.init Config.default ()) ['f']) ".luax".toList).in_lua_block
      = false :=
  ((open_line_rule silent_evaluator ['f']
      (scan_start (Preprocessor.init Config.default ()) ['f']) ".luax".toList rfl
      ⟨'.', by decide, by decide, by decide⟩).2.1
    ((block_open_rule_of_nonblank_marker Config.default.block_open ".luax".toList
      ⟨'.', by decide, by decide, by decide⟩).not.1 (by decide))).2

end pplua
